import Mathlib

/-!
# Polaris cache core: revision digests, fault-detect rule buckets, instance index,
refresh round and revision worker

A shallow embedding of `cache/cache.go`, `cache/faultdetect.go`, `cache/instance.go`
and the parts of `common/model/naming.go` they use.

Conventions of the embedding

* A Go `string` is a Lean `String`; Go compares strings byte by byte, and for
  well-formed UTF-8 text that order is the order of the code points, which is what
  `strLt` compares.
* A Go `map[string]V` and a `sync.Map` with string keys are a `GoMap V`: a finite
  map kept as a key-sorted association list, so two maps with the same content
  are equal.  A Go `range` over a map visits the entries in no fixed order; every
  loop embedded here either treats the entries independently or sorts what it
  collected, so the model visits them in key order.
* A pointer to a record is the record itself; `nil` is `none`.
* Logging, metrics and listener callbacks (`manager.onEvent`) have no effect on
  the state described here and are left out.
-/

namespace Polaris

/-! ## Go strings -/

/-- Strict lexicographic order on sequences of code units. -/
def lexLt : List Nat → List Nat → Bool
  | _, [] => false
  | [], _ :: _ => true
  | x :: xs, y :: ys => if x < y then true else if x = y then lexLt xs ys else false

/-- The code units of a string. -/
def codes (s : String) : List Nat := s.data.map Char.toNat

/-- Go's `a < b` on strings. -/
def strLt (a b : String) : Bool := lexLt (codes a) (codes b)

/-- Go's `a <= b` on strings, as a relation. -/
def StrLe (a b : String) : Prop := strLt b a = false

instance StrLe.decidableRel : DecidableRel StrLe := fun a b =>
  inferInstanceAs (Decidable (strLt b a = false))

/-- The bytes of a string: Go's `[]byte(s)`. -/
def goBytes (s : String) : List UInt8 := s.data.flatMap String.utf8EncodeChar

theorem lexLt_irrefl (a : List Nat) : lexLt a a = false := by
  induction a with
  | nil => rfl
  | cons x xs ih => simp [lexLt, ih]

theorem lexLt_trans : ∀ (a b c : List Nat), lexLt a b = true → lexLt b c = true →
    lexLt a c = true
  | _, [], _, h, _ => by simp [lexLt] at h
  | _, _ :: _, [], _, h => by simp [lexLt] at h
  | [], _ :: _, _ :: _, _, _ => by simp [lexLt]
  | x :: xs, y :: ys, z :: zs, h1, h2 => by
    simp only [lexLt] at h1 h2 ⊢
    by_cases hxy : x < y
    · by_cases hyz : y < z
      · have : x < z := lt_trans hxy hyz
        simp [this]
      · simp only [hyz, if_false] at h2
        by_cases hyz2 : y = z
        · subst hyz2; simp [hxy]
        · simp [hyz2] at h2
    · simp only [hxy, if_false] at h1
      by_cases hxy2 : x = y
      · subst hxy2
        simp only [if_true] at h1
        by_cases hxz : x < z
        · simp [hxz]
        · simp only [hxz, if_false] at h2 ⊢
          by_cases hxz2 : x = z
          · subst hxz2
            simp only [if_true] at h2 ⊢
            exact lexLt_trans xs ys zs h1 h2
          · simp [hxz2] at h2
      · simp [hxy2] at h1

theorem lexLt_total : ∀ (a b : List Nat), a ≠ b → lexLt a b = true ∨ lexLt b a = true
  | [], [], h => absurd rfl h
  | [], _ :: _, _ => by simp [lexLt]
  | _ :: _, [], _ => by simp [lexLt]
  | x :: xs, y :: ys, h => by
    simp only [lexLt]
    rcases Nat.lt_trichotomy x y with hxy | hxy | hxy
    · simp [hxy]
    · subst hxy
      have hne : xs ≠ ys := fun e => h (by rw [e])
      simpa using lexLt_total xs ys hne
    · simp [hxy]

theorem codes_injective {a b : String} (h : codes a = codes b) : a = b := by
  apply String.ext
  have hinj : Function.Injective (List.map Char.toNat) :=
    List.map_injective_iff.mpr (Function.LeftInverse.injective Char.ofNat_toNat)
  exact hinj h

theorem strLt_irrefl (a : String) : strLt a a = false := lexLt_irrefl _

theorem strLt_trans {a b c : String} (h1 : strLt a b = true) (h2 : strLt b c = true) :
    strLt a c = true := lexLt_trans _ _ _ h1 h2

theorem strLt_total {a b : String} (h : a ≠ b) : strLt a b = true ∨ strLt b a = true :=
  lexLt_total _ _ (fun e => h (codes_injective e))

theorem strLt_asymm {a b : String} (h : strLt a b = true) : strLt b a = false := by
  cases hba : strLt b a with
  | false => rfl
  | true => have := strLt_trans h hba; rw [strLt_irrefl] at this; cases this

theorem strLt_ne {a b : String} (h : strLt a b = true) : a ≠ b := by
  intro e; subst e; rw [strLt_irrefl] at h; cases h

/-! ## Go maps with string keys -/

/-- Lookup in an association list: the value of the first entry with key `k`. -/
def rawLoad {V : Type} : List (String × V) → String → Option V
  | [], _ => none
  | (k', v) :: rest, k => if k = k' then some v else rawLoad rest k

/-- Insert or overwrite in a key-sorted association list. -/
def rawStore {V : Type} : List (String × V) → String → V → List (String × V)
  | [], k, v => [(k, v)]
  | (k', v') :: rest, k, v =>
    if k = k' then (k, v) :: rest
    else if strLt k k' then (k, v) :: (k', v') :: rest
    else (k', v') :: rawStore rest k v

/-- Remove a key from an association list. -/
def rawDelete {V : Type} (l : List (String × V)) (k : String) : List (String × V) :=
  l.filter (fun e => decide (e.1 ≠ k))

/-- The keys of an association list increase strictly. -/
def KeysSorted {V : Type} (l : List (String × V)) : Prop :=
  l.Pairwise (fun a b => strLt a.1 b.1 = true)

theorem mem_rawStore {V : Type} {l : List (String × V)} {k : String} {v : V}
    {e : String × V} (h : e ∈ rawStore l k v) : e = (k, v) ∨ e ∈ l := by
  induction l with
  | nil => simpa [rawStore] using h
  | cons p rest ih =>
    obtain ⟨k', v'⟩ := p
    simp only [rawStore] at h
    split_ifs at h with h1 h2
    · rcases List.mem_cons.mp h with h | h
      · exact Or.inl h
      · exact Or.inr (List.mem_cons_of_mem _ h)
    · rcases List.mem_cons.mp h with h | h
      · exact Or.inl h
      · exact Or.inr h
    · rcases List.mem_cons.mp h with h | h
      · exact Or.inr (h ▸ List.mem_cons_self _ _)
      · rcases ih h with h | h
        · exact Or.inl h
        · exact Or.inr (List.mem_cons_of_mem _ h)

theorem rawStore_sorted {V : Type} {l : List (String × V)} (hs : KeysSorted l)
    (k : String) (v : V) : KeysSorted (rawStore l k v) := by
  induction l with
  | nil => simp [rawStore, KeysSorted]
  | cons p rest ih =>
    obtain ⟨k', v'⟩ := p
    have hs' := List.pairwise_cons.mp hs
    simp only [rawStore]
    split_ifs with h1 h2
    · subst h1
      exact List.pairwise_cons.mpr ⟨hs'.1, hs'.2⟩
    · refine List.pairwise_cons.mpr ⟨?_, hs⟩
      intro e he
      rcases List.mem_cons.mp he with he | he
      · subst he; exact h2
      · exact strLt_trans h2 (hs'.1 e he)
    · refine List.pairwise_cons.mpr ⟨?_, ih hs'.2⟩
      intro e he
      rcases mem_rawStore he with he | he
      · subst he
        rcases strLt_total h1 with h | h
        · exact absurd h h2
        · exact h
      · exact hs'.1 e he

theorem rawDelete_sorted {V : Type} {l : List (String × V)} (hs : KeysSorted l)
    (k : String) : KeysSorted (rawDelete l k) :=
  List.Pairwise.filter _ hs

/-- A Go map (or `sync.Map`) with string keys. -/
structure GoMap (V : Type) where
  /-- The entries, in increasing key order. -/
  entries : List (String × V)
  /-- No key occurs twice and the keys increase. -/
  sorted : KeysSorted entries

namespace GoMap

variable {V : Type}

/-- The empty map: `make(map[string]V)`, `new(sync.Map)`. -/
def empty : GoMap V := ⟨[], List.Pairwise.nil⟩

/-- Lookup: `v, ok := m[k]`, `m.Load(k)`. -/
def Load (m : GoMap V) (k : String) : Option V := rawLoad m.entries k

/-- Assignment: `m[k] = v`, `m.Store(k, v)`. -/
def Store (m : GoMap V) (k : String) (v : V) : GoMap V :=
  ⟨rawStore m.entries k v, rawStore_sorted m.sorted k v⟩

/-- Removal: `delete(m, k)`, `m.Delete(k)`. -/
def Delete (m : GoMap V) (k : String) : GoMap V :=
  ⟨rawDelete m.entries k, rawDelete_sorted m.sorted k⟩

/-- Number of entries: `len(m)`. -/
def len (m : GoMap V) : Nat := m.entries.length

/-- The keys of the map. -/
def keys (m : GoMap V) : List String := m.entries.map Prod.fst

/-- The values of the map. -/
def values (m : GoMap V) : List V := m.entries.map Prod.snd

/-- Whether the key is present. -/
def contains (m : GoMap V) (k : String) : Bool := (m.Load k).isSome

/-- Apply `f` to every value: a `range` loop that updates each entry on its own. -/
def mapValues (f : V → V) (m : GoMap V) : GoMap V :=
  ⟨m.entries.map (fun e => (e.1, f e.2)), by
    have h := m.sorted
    unfold KeysSorted at h ⊢
    exact List.pairwise_map.mpr h⟩

end GoMap

instance GoMap.decidableEq {V : Type} [DecidableEq V] : DecidableEq (GoMap V) := fun a b =>
  decidable_of_iff (a.entries = b.entries) (by cases a; cases b; simp)

/-! ## Time values -/

/-- A `time.Time`: whole seconds since the unix epoch, an `int64` value that `t.Unix()`
returns, and the nanoseconds within the second. -/
structure Time where
  /-- Seconds since the unix epoch. -/
  sec : Int
  /-- Nanoseconds within the second. -/
  nsec : Nat
deriving DecidableEq, Repr

/-- The method `t.Unix()`: the time in whole seconds. -/
def Time.Unix (t : Time) : Int := t.sec

/-- The call `time.Unix(sec, 0)`. -/
def timeUnix (sec : Int) : Time := ⟨sec, 0⟩

/-! ## crypto/sha1 and encoding/hex (Go standard library) -/

/-- Rotate a 32-bit word left by `n` bits. -/
def rotl32 (n x : Nat) : Nat := ((x <<< n) % 2 ^ 32) ||| (x >>> (32 - n))

/-- The big-endian bytes of the low `8 * n` bits of `x`. -/
def beBytes : Nat → Nat → List Nat
  | 0, _ => []
  | n + 1, x => (x >>> (8 * n)) % 256 :: beBytes n x

/-- SHA-1 padding: a `0x80` byte, zero bytes up to 56 modulo 64, the bit length. -/
def sha1Pad (msg : List Nat) : List Nat :=
  msg ++ [0x80] ++ List.replicate ((119 - msg.length % 64) % 64) 0 ++ beBytes 8 (msg.length * 8)

/-- Big-endian 32-bit words of a byte sequence. -/
def beWords : List Nat → List Nat
  | b0 :: b1 :: b2 :: b3 :: rest => (b0 * 2 ^ 24 + b1 * 2 ^ 16 + b2 * 2 ^ 8 + b3) :: beWords rest
  | _ => []

/-- Message schedule, latest word first: `n` more words after the ones given. -/
def sha1Extend : Nat → List Nat → List Nat
  | 0, ws => ws
  | n + 1, ws =>
    sha1Extend n
      (rotl32 1 (ws.getD 2 0 ^^^ ws.getD 7 0 ^^^ ws.getD 13 0 ^^^ ws.getD 15 0) :: ws)

/-- The five chaining words of SHA-1. -/
structure Sha1State where
  /-- Word A. -/
  a : Nat
  /-- Word B. -/
  b : Nat
  /-- Word C. -/
  c : Nat
  /-- Word D. -/
  d : Nat
  /-- Word E. -/
  e : Nat

/-- One of the 80 rounds, with round index `i` and schedule word `w`. -/
def sha1Round (s : Sha1State) (i w : Nat) : Sha1State :=
  let f :=
    if i < 20 then (s.b &&& s.c) ||| ((s.b ^^^ 0xFFFFFFFF) &&& s.d)
    else if i < 40 then s.b ^^^ s.c ^^^ s.d
    else if i < 60 then (s.b &&& s.c) ||| (s.b &&& s.d) ||| (s.c &&& s.d)
    else s.b ^^^ s.c ^^^ s.d
  let k :=
    if i < 20 then 0x5A827999 else if i < 40 then 0x6ED9EBA1
    else if i < 60 then 0x8F1BBCDC else 0xCA62C1D6
  ⟨(rotl32 5 s.a + f + s.e + k + w) % 2 ^ 32, s.a, rotl32 30 s.b, s.c, s.d⟩

/-- The rounds over the schedule words `ws`, the first of them with index `i`. -/
def sha1Rounds : Sha1State → Nat → List Nat → Sha1State
  | s, _, [] => s
  | s, i, w :: ws => sha1Rounds (sha1Round s i w) (i + 1) ws

/-- Compress one 64-byte block into the chaining state. -/
def sha1Block (h : Sha1State) (block : List Nat) : Sha1State :=
  let s := sha1Rounds h 0 (sha1Extend 64 (beWords block).reverse).reverse
  ⟨(h.a + s.a) % 2 ^ 32, (h.b + s.b) % 2 ^ 32, (h.c + s.c) % 2 ^ 32,
   (h.d + s.d) % 2 ^ 32, (h.e + s.e) % 2 ^ 32⟩

/-- Compress `n` consecutive 64-byte blocks. -/
def sha1Blocks : Nat → Sha1State → List Nat → Sha1State
  | 0, h, _ => h
  | n + 1, h, bytes => sha1Blocks n (sha1Block h (bytes.take 64)) (bytes.drop 64)

/-- The SHA-1 digest (20 bytes) of a byte sequence. -/
def sha1 (msg : List UInt8) : List UInt8 :=
  let padded := sha1Pad (msg.map UInt8.toNat)
  let h := sha1Blocks (padded.length / 64)
    ⟨0x67452301, 0xEFCDAB89, 0x98BADCFE, 0x10325476, 0xC3D2E1F0⟩ padded
  ([h.a, h.b, h.c, h.d, h.e].flatMap (beBytes 4)).map UInt8.ofNat

/-- The lowercase hexadecimal digit of a value below 16. -/
def hexDigit (n : Nat) : Char := "0123456789abcdef".data.getD n '0'

/-- Lowercase hexadecimal encoding, two digits a byte: `hex.EncodeToString`. -/
def hexEncodeToString (bs : List UInt8) : String :=
  String.mk (bs.flatMap fun b => [hexDigit (b.toNat / 16), hexDigit (b.toNat % 16)])

/-- A `hash.Hash` made by `sha1.New()`: what has been written to it so far. -/
structure Hasher where
  /-- The bytes written so far. -/
  written : List UInt8

/-- The call `sha1.New()`. -/
def Hasher.new : Hasher := ⟨[]⟩

/-- The method `h.Write(p)`: the hash takes the bytes in; the error it returns is
always nil (`hash.Hash`: "It never returns an error"). -/
def Hasher.Write (h : Hasher) (p : List UInt8) : Hasher × Option String :=
  (⟨h.written ++ p⟩, none)

/-- The method `h.Sum(nil)`: the digest of everything written. -/
def Hasher.Sum (h : Hasher) : List UInt8 := sha1 h.written

/-- Sorting strings in increasing order: `sort.Strings`, `sort.StringSlice.Sort`. -/
def sortStrings (l : List String) : List String := l.insertionSort StrLe

/-! ## Data model (common/model/naming.go) -/

/-- The location message of an instance; an unset field reads as the empty string. -/
structure Location where
  /-- Value of `GetRegion().GetValue()`. -/
  Region : String
  /-- Value of `GetZone().GetValue()`. -/
  Zone : String
  /-- Value of `GetCampus().GetValue()`. -/
  Campus : String
deriving DecidableEq, Repr

/-- Modelled from the spec: the wire message behind `model.Instance.Proto` is declared
outside the sources at hand; these are the fields the cache reads ("Instance:
id, ..., port, healthy, isolate, ..., metadata, version, protocol, location, revision").
An unset wrapper reads as its zero value; `Metadata` may be nil. -/
structure InstanceProto where
  /-- Instance id. -/
  Id : String
  /-- Revision of the instance record. -/
  Revision : String
  /-- Health flag. -/
  Healthy : Bool
  /-- Isolation flag. -/
  Isolate : Bool
  /-- Port. -/
  Port : Nat
  /-- Version label. -/
  Version : String
  /-- Protocol label. -/
  Protocol : String
  /-- Location, nil when unset. -/
  Location : Option Location
  /-- Metadata, nil when unset. -/
  Metadata : Option (GoMap String)
deriving DecidableEq

/-- Modelled from the spec: `model.Instance` is declared outside the sources at hand;
these are the fields the cache reads ("Instance: id, serviceId, ..., mtime, valid"). -/
structure Instance where
  /-- The wire message. -/
  Proto : InstanceProto
  /-- Id of the service the instance belongs to. -/
  ServiceID : String
  /-- False for a tombstone. -/
  Valid : Bool
  /-- Modification time. -/
  ModifyTime : Time
deriving DecidableEq

/-- The method `ID()`. -/
def Instance.ID (i : Instance) : String := i.Proto.Id

/-- The method `Revision()`. -/
def Instance.Revision (i : Instance) : String := i.Proto.Revision

/-- The method `Version()`. -/
def Instance.Version (i : Instance) : String := i.Proto.Version

/-- The method `Protocol()`. -/
def Instance.Protocol (i : Instance) : String := i.Proto.Protocol

/-- The method `Location()`. -/
def Instance.Location (i : Instance) : Option Location := i.Proto.Location

/-- The method `Metadata()`: a nil map reads as an empty one. -/
def Instance.Metadata (i : Instance) : GoMap String := i.Proto.Metadata.getD GoMap.empty

/-- Embeds `InstanceCount`: service instance statistics.  The counters are `uint32` in
the source; a bucket is taken to hold fewer than `2 ^ 32` instances. -/
structure InstanceCount where
  /-- Instances in isolation. -/
  IsolateInstanceCount : Nat := 0
  /-- Healthy instances. -/
  HealthyInstanceCount : Nat := 0
  /-- All instances. -/
  TotalInstanceCount : Nat := 0
deriving DecidableEq, Repr

/-- Embeds `ServiceKey`: namespace and name of a service. -/
structure ServiceKey where
  /-- Namespace. -/
  Namespace : String
  /-- Name. -/
  Name : String
deriving DecidableEq, Repr

/-- Embeds `FaultDetectRule` (without the wire message `Proto`, which the cache never
reads). -/
structure FaultDetectRule where
  /-- Rule id. -/
  ID : String
  /-- Rule name. -/
  Name : String
  /-- Namespace of the rule. -/
  Namespace : String
  /-- Description. -/
  Description : String
  /-- Destination service, possibly the wildcard. -/
  DstService : String
  /-- Destination namespace, possibly the wildcard. -/
  DstNamespace : String
  /-- Destination method. -/
  DstMethod : String
  /-- Rule text. -/
  Rule : String
  /-- Revision of the rule record. -/
  Revision : String
  /-- False for a tombstone. -/
  Valid : Bool
  /-- Creation time. -/
  CreateTime : Time
  /-- Modification time. -/
  ModifyTime : Time
deriving DecidableEq

/-- Embeds `ServiceWithFaultDetectRules`: the rules bound to one service key and their
aggregate revision (the mutex is left out). -/
structure ServiceWithFaultDetectRules where
  /-- The service key of the bucket. -/
  Service : ServiceKey
  /-- Rule id to rule. -/
  faultDetectRules : GoMap FaultDetectRule
  /-- Aggregate revision. -/
  Revision : String
deriving DecidableEq

/-- Embeds `NewServiceWithFaultDetectRules`. -/
def NewServiceWithFaultDetectRules (svcKey : ServiceKey) : ServiceWithFaultDetectRules :=
  { Service := svcKey, faultDetectRules := GoMap.empty, Revision := "" }

/-- Embeds `AddFaultDetectRule`. -/
def ServiceWithFaultDetectRules.AddFaultDetectRule (s : ServiceWithFaultDetectRules)
    (rule : FaultDetectRule) : ServiceWithFaultDetectRules :=
  { s with faultDetectRules := s.faultDetectRules.Store rule.ID rule }

/-- Embeds `DelFaultDetectRule`. -/
def ServiceWithFaultDetectRules.DelFaultDetectRule (s : ServiceWithFaultDetectRules)
    (id : String) : ServiceWithFaultDetectRules :=
  { s with faultDetectRules := s.faultDetectRules.Delete id }

/-- Embeds `CountFaultDetectRules`. -/
def ServiceWithFaultDetectRules.CountFaultDetectRules (s : ServiceWithFaultDetectRules) : Nat :=
  s.faultDetectRules.len

/-- Embeds `ComputeRevisionBySlice`: write every revision to the hash, return the digest in
hexadecimal. -/
def ComputeRevisionBySlice (h : Hasher) : List String → Except String String
  | [] => .ok (hexEncodeToString h.Sum)
  | revision :: rest =>
    match h.Write (goBytes revision) with
    | (_, some err) => .error err
    | (h1, none) => ComputeRevisionBySlice h1 rest

/-- Embeds `ComputeRevision`: the digest over the service revision followed by the sorted
instance revisions. -/
def ComputeRevision (serviceRevision : String) (instances : List Instance) :
    Except String String :=
  match Hasher.new.Write (goBytes serviceRevision) with
  | (_, some err) => .error err
  | (h, none) =>
    let slice := instances.map Instance.Revision
    let slice := if slice.length > 0 then sortStrings slice else slice
    ComputeRevisionBySlice h slice

/-- Embeds `revisionNotify`: a revision job. -/
structure revisionNotify where
  /-- The service whose revision is due. -/
  serviceID : String
  /-- False when the revision is to be removed. -/
  valid : Bool
deriving DecidableEq, Repr

/-- Embeds `newRevisionNotify`. -/
def newRevisionNotify (serviceID : String) (valid : Bool) : revisionNotify :=
  { serviceID := serviceID, valid := valid }

/-! ## Base cache (cache/cache.go) -/

/-- Embeds `baseCache`: the watermarks every typed cache shares (store handle, lock and
listeners left out). -/
structure baseCache where
  /-- Whether the cache has not completed a refresh yet. -/
  firtstUpdate : Bool
  /-- Store clock, in unix seconds, when the last refresh started. -/
  lastFetchTime : Int
  /-- Label to highest modify time seen. -/
  lastMtimes : GoMap Time
deriving DecidableEq

/-- Embeds `newBaseCache`, that is `baseCache.initialize`. -/
def newBaseCache : baseCache :=
  { firtstUpdate := true, lastFetchTime := 1, lastMtimes := GoMap.empty }

/-- Embeds `baseCache.LastMtime`. -/
def baseCache.LastMtime (bc : baseCache) (label : String) : Time :=
  match bc.lastMtimes.Load label with
  | some v => v
  | none => timeUnix 0

/-! ## Fault-detect rule cache (cache/faultdetect.go) -/

/-- Modelled from the spec: the constant `allMatched` is declared outside the sources
at hand; the wildcard is written `"*"` ("`dstNamespace="*"` and/or `dstService="*"`
indicate wildcards"). -/
def allMatched : String := "*"

/-- Embeds `FaultDetectRuleName`. -/
def FaultDetectRuleName : String := "faultDetectRule"

/-- Embeds `faultDetectCache` (store handle, lock and single-flight group left out). -/
structure faultDetectCache where
  /-- The embedded base cache. -/
  base : baseCache
  /-- Namespace, then service, to the rules of that service. -/
  svcSpecificRules : GoMap (GoMap ServiceWithFaultDetectRules)
  /-- Namespace to the rules of all services of the namespace. -/
  nsWildcardRules : GoMap ServiceWithFaultDetectRules
  /-- The rules of all services. -/
  allWildcardRules : ServiceWithFaultDetectRules
deriving DecidableEq

/-- Embeds `newFaultDetectCache`. -/
def newFaultDetectCache : faultDetectCache :=
  { base := newBaseCache
    svcSpecificRules := GoMap.empty
    nsWildcardRules := GoMap.empty
    allWildcardRules := NewServiceWithFaultDetectRules ⟨allMatched, allMatched⟩ }

/-- Embeds `checkServiceSpecificCache`. -/
def faultDetectCache.checkServiceSpecificCache (f : faultDetectCache) (name : String)
    (ns : String) : Option ServiceWithFaultDetectRules :=
  match f.svcSpecificRules.Load ns with
  | some svcRules => svcRules.Load name
  | none => none

/-- Embeds `checkNamespaceSpecificCache`. -/
def faultDetectCache.checkNamespaceSpecificCache (f : faultDetectCache) (ns : String) :
    Option ServiceWithFaultDetectRules :=
  f.nsWildcardRules.Load ns

/-- Embeds `GetFaultDetectConfig`. -/
def faultDetectCache.GetFaultDetectConfig (f : faultDetectCache) (name : String)
    (ns : String) : ServiceWithFaultDetectRules :=
  match f.checkServiceSpecificCache name ns with
  | some rules => rules
  | none =>
    match f.checkNamespaceSpecificCache ns with
    | some rules => rules
    | none => f.allWildcardRules

/-- Embeds `reloadRevision`: the bucket revision is empty for an empty bucket, else the
digest over the sorted rule revisions. -/
def reloadRevision (svcRules : ServiceWithFaultDetectRules) : ServiceWithFaultDetectRules :=
  let rulesCount := svcRules.CountFaultDetectRules
  if rulesCount = 0 then { svcRules with Revision := "" }
  else
    let revisions := svcRules.faultDetectRules.values.map (fun rule => rule.Revision)
    let revisions := sortStrings revisions
    match ComputeRevisionBySlice Hasher.new revisions with
    | .error _ => svcRules
    | .ok revision => { svcRules with Revision := revision }

/-- Embeds `deleteAndReloadFaultDetectRules`. -/
def deleteAndReloadFaultDetectRules (svcRules : ServiceWithFaultDetectRules) (id : String) :
    ServiceWithFaultDetectRules :=
  reloadRevision (svcRules.DelFaultDetectRule id)

/-- Embeds `storeAndReloadFaultDetectRules`. -/
def storeAndReloadFaultDetectRules (svcRules : ServiceWithFaultDetectRules)
    (cbRule : FaultDetectRule) : ServiceWithFaultDetectRules :=
  reloadRevision (svcRules.AddFaultDetectRule cbRule)

/-- The service keys of the services of namespace `ns` that have a bucket: what the
loop `for svc := range svcRules` adds to `svcToReloads`. -/
def addNamespaceServices (f : faultDetectCache) (ns : String)
    (svcToReloads : List ServiceKey) : List ServiceKey :=
  match f.svcSpecificRules.Load ns with
  | some svcRules =>
    svcRules.keys.foldl (fun acc svc => acc.insert { Namespace := ns, Name := svc }) svcToReloads
  | none => svcToReloads

/-- Body of the first loop of `deleteFaultDetectRuleFromServiceCache`. -/
def deleteKeyStep (id : String) (st : faultDetectCache × List ServiceKey)
    (svcKey : ServiceKey) : faultDetectCache × List ServiceKey :=
  if svcKey.Name = allMatched then
    let f :=
      match st.1.nsWildcardRules.Load svcKey.Namespace with
      | some rules =>
        { st.1 with
          nsWildcardRules :=
            st.1.nsWildcardRules.Store svcKey.Namespace
              (deleteAndReloadFaultDetectRules rules id) }
      | none => st.1
    (f, addNamespaceServices f svcKey.Namespace st.2)
  else (st.1, st.2.insert svcKey)

/-- Body of the second loop of `deleteFaultDetectRuleFromServiceCache`. -/
def deleteReloadStep (id : String) (f : faultDetectCache) (svcToReload : ServiceKey) :
    faultDetectCache :=
  match f.svcSpecificRules.Load svcToReload.Namespace with
  | some svcRules =>
    match svcRules.Load svcToReload.Name with
    | some rules =>
      { f with
        svcSpecificRules :=
          f.svcSpecificRules.Store svcToReload.Namespace
            (svcRules.Store svcToReload.Name (deleteAndReloadFaultDetectRules rules id)) }
    | none => f
  | none => f

/-- Embeds `deleteFaultDetectRuleFromServiceCache`; `svcKeys` lists the keys of the Go set. -/
def faultDetectCache.deleteFaultDetectRuleFromServiceCache (f : faultDetectCache)
    (id : String) (svcKeys : List ServiceKey) : faultDetectCache :=
  if svcKeys.length = 0 then
    { f with
      allWildcardRules := deleteAndReloadFaultDetectRules f.allWildcardRules id,
      nsWildcardRules :=
        f.nsWildcardRules.mapValues (fun rules => deleteAndReloadFaultDetectRules rules id),
      svcSpecificRules :=
        f.svcSpecificRules.mapValues (fun svcRules =>
          svcRules.mapValues (fun rules => deleteAndReloadFaultDetectRules rules id)) }
  else
    let st := svcKeys.foldl (deleteKeyStep id) (f, [])
    if st.2.length > 0 then st.2.foldl (deleteReloadStep id) st.1 else st.1

/-- Embeds `createAndStoreServiceWithFaultDetectRules`: the new bucket and the map holding it. -/
def createAndStoreServiceWithFaultDetectRules (svcKey : ServiceKey) (key : String)
    (values : GoMap ServiceWithFaultDetectRules) :
    ServiceWithFaultDetectRules × GoMap ServiceWithFaultDetectRules :=
  let rules := NewServiceWithFaultDetectRules svcKey
  (rules, values.Store key rules)

/-- Body of the first loop of `storeFaultDetectRuleToServiceCache`. -/
def storeKeyStep (entry : FaultDetectRule) (st : faultDetectCache × List ServiceKey)
    (svcKey : ServiceKey) : faultDetectCache × List ServiceKey :=
  if svcKey.Name = allMatched then
    let created :=
      match st.1.nsWildcardRules.Load svcKey.Namespace with
      | some wildcardRules => (wildcardRules, st.1.nsWildcardRules)
      | none =>
        createAndStoreServiceWithFaultDetectRules svcKey svcKey.Namespace st.1.nsWildcardRules
    let f :=
      { st.1 with
        nsWildcardRules :=
          created.2.Store svcKey.Namespace (storeAndReloadFaultDetectRules created.1 entry) }
    (f, addNamespaceServices f svcKey.Namespace st.2)
  else (st.1, st.2.insert svcKey)

/-- Body of the second loop of `storeFaultDetectRuleToServiceCache`. -/
def storeReloadStep (entry : FaultDetectRule) (f : faultDetectCache)
    (svcToReload : ServiceKey) : faultDetectCache :=
  let svcRules :=
    match f.svcSpecificRules.Load svcToReload.Namespace with
    | some svcRules => svcRules
    | none => GoMap.empty
  let created :=
    match svcRules.Load svcToReload.Name with
    | some rules => (rules, svcRules)
    | none => createAndStoreServiceWithFaultDetectRules svcToReload svcToReload.Name svcRules
  { f with
    svcSpecificRules :=
      f.svcSpecificRules.Store svcToReload.Namespace
        (created.2.Store svcToReload.Name (storeAndReloadFaultDetectRules created.1 entry)) }

/-- Embeds `storeFaultDetectRuleToServiceCache`; `svcKeys` lists the keys of the Go set. -/
def faultDetectCache.storeFaultDetectRuleToServiceCache (f : faultDetectCache)
    (entry : FaultDetectRule) (svcKeys : List ServiceKey) : faultDetectCache :=
  if svcKeys.length = 0 then
    { f with
      allWildcardRules := storeAndReloadFaultDetectRules f.allWildcardRules entry,
      nsWildcardRules :=
        f.nsWildcardRules.mapValues (fun rules => storeAndReloadFaultDetectRules rules entry),
      svcSpecificRules :=
        f.svcSpecificRules.mapValues (fun svcRules =>
          svcRules.mapValues (fun rules => storeAndReloadFaultDetectRules rules entry)) }
  else
    let st := svcKeys.foldl (storeKeyStep entry) (f, [])
    if st.2.length > 0 then st.2.foldl (storeReloadStep entry) st.1 else st.1

/-- Embeds `getServicesInvolveByFaultDetectRule`: the keys of the set it returns. -/
def getServicesInvolveByFaultDetectRule (fdRule : FaultDetectRule) : List ServiceKey :=
  let addService := fun (svcKeys : List ServiceKey) (name : String) (ns : String) =>
    if name = allMatched ∧ ns = allMatched then svcKeys
    else svcKeys.insert { Namespace := ns, Name := name }
  addService [] fdRule.DstService fdRule.DstNamespace

/-- Body of the loop of `setFaultDetectRules`, on the cache and the running
`lastMtime`. -/
def setFaultDetectRulesStep (st : faultDetectCache × Int) (fdRule : FaultDetectRule) :
    faultDetectCache × Int :=
  let lastMtime := if fdRule.ModifyTime.Unix > st.2 then fdRule.ModifyTime.Unix else st.2
  let svcKeys := getServicesInvolveByFaultDetectRule fdRule
  if !fdRule.Valid then
    (st.1.deleteFaultDetectRuleFromServiceCache fdRule.ID svcKeys, lastMtime)
  else
    (st.1.storeFaultDetectRuleToServiceCache fdRule svcKeys, lastMtime)

/-- Embeds `setFaultDetectRules`: the cache afterwards and the map it returns (nil for an
empty batch). -/
def faultDetectCache.setFaultDetectRules (f : faultDetectCache)
    (fdRules : List FaultDetectRule) : faultDetectCache × Option (GoMap Time) :=
  if fdRules.length = 0 then (f, none)
  else
    let st := fdRules.foldl setFaultDetectRulesStep
      (f, (f.base.LastMtime FaultDetectRuleName).Unix)
    (st.1, some (GoMap.empty.Store FaultDetectRuleName (timeUnix st.2)))

/-! ## Instance cache (cache/instance.go) -/

/-- Embeds `InstanceName`. -/
def InstanceName : String := "instance"

/-- Embeds `instanceCache`: the by-id index, the by-service index, the per-service counts,
the queue of revision jobs and the running instance count.  The store handle, the
options and the single-flight group are left out, and so is `servicePortsBucket`,
whose code is not among the sources at hand and which nothing stated here reads.
The job channel is an unbounded queue. -/
structure instanceCache where
  /-- The embedded base cache. -/
  base : baseCache
  /-- Instance id to instance. -/
  ids : GoMap Instance
  /-- Service id, then instance id, to instance. -/
  services : GoMap (GoMap Instance)
  /-- Service id to instance statistics. -/
  instanceCounts : GoMap InstanceCount
  /-- Revision jobs sent and not yet taken. -/
  revisionCh : List revisionNotify
  /-- Number of live instances (`int64` in the source). -/
  instanceCount : Int
  /-- Unix second of the last count check. -/
  lastCheckAllTime : Int
deriving DecidableEq

/-- Embeds `newInstanceCache` followed by `initialize(nil)`. -/
def newInstanceCache : instanceCache :=
  { base := newBaseCache
    ids := GoMap.empty
    services := GoMap.empty
    instanceCounts := GoMap.empty
    revisionCh := []
    instanceCount := 0
    lastCheckAllTime := 0 }

/-- Embeds `instanceCache.LastMtime`. -/
def instanceCache.LastMtime (ic : instanceCache) : Time := ic.base.LastMtime InstanceName

/-- The assignment `item.Proto.Metadata[k] = v`. -/
def setMetadata (item : Instance) (k v : String) : Instance :=
  { item with Proto := { item.Proto with Metadata := some (item.Metadata.Store k v) } }

/-- Embeds `fillInternalLabels`. -/
def fillInternalLabels (item : Instance) : Instance :=
  let item := if item.Version ≠ "" then setMetadata item "version" item.Version else item
  let item := if item.Protocol ≠ "" then setMetadata item "protocol" item.Protocol else item
  match item.Location with
  | some loc =>
    setMetadata (setMetadata (setMetadata item "region" loc.Region) "zone" loc.Zone)
      "campus" loc.Campus
  | none => item

/-- Embeds `isInstanceHealthy`. -/
def isInstanceHealthy (inst : Instance) : Bool := inst.Proto.Healthy && !inst.Proto.Isolate

/-- The callback that `postProcessUpdatedServices` runs on every instance of a bucket. -/
def countInstance (count : InstanceCount) (inst : Instance) : InstanceCount :=
  { TotalInstanceCount := count.TotalInstanceCount + 1
    HealthyInstanceCount :=
      if isInstanceHealthy inst then count.HealthyInstanceCount + 1
      else count.HealthyInstanceCount
    IsolateInstanceCount :=
      if inst.Proto.Isolate then count.IsolateInstanceCount + 1
      else count.IsolateInstanceCount }

/-- Body of the loop of `postProcessUpdatedServices`: send the revision job, then
rebuild or drop the count of the service. -/
def postProcessService (ic : instanceCache) (serviceID : String) : instanceCache :=
  let ic := { ic with revisionCh := ic.revisionCh ++ [newRevisionNotify serviceID true] }
  match ic.services.Load serviceID with
  | none => { ic with instanceCounts := ic.instanceCounts.Delete serviceID }
  | some value =>
    let count := value.values.foldl countInstance {}
    if count.TotalInstanceCount = 0 then
      { ic with instanceCounts := ic.instanceCounts.Delete serviceID }
    else { ic with instanceCounts := ic.instanceCounts.Store serviceID count }

/-- Embeds `postProcessUpdatedServices`.  The jobs of one call enter the queue in the
key order of `affect`; Go leaves that order open. -/
def instanceCache.postProcessUpdatedServices (ic : instanceCache) (affect : GoMap Bool) :
    instanceCache :=
  affect.keys.foldl postProcessService ic

/-- The variables that the loop of `setInstances` carries. -/
structure setInstancesLoop where
  /-- The cache. -/
  ic : instanceCache
  /-- Highest modify time so far, in unix seconds. -/
  lastMtime : Int
  /-- Number of records stored. -/
  update : Nat
  /-- Number of tombstones. -/
  del : Nat
  /-- The service ids touched. -/
  affect : GoMap Bool
  /-- The running instance count. -/
  instanceCount : Int

/-- Body of the loop of `setInstances`. -/
def setInstancesStep (st : setInstancesLoop) (item : Instance) : setInstancesLoop :=
  let modifyTime := item.ModifyTime.Unix
  let lastMtime := if st.lastMtime < modifyTime then modifyTime else st.lastMtime
  let affect := st.affect.Store item.ServiceID true
  let itemExist := (st.ic.ids.Load item.ID).isSome
  if !item.Valid then
    let ids := st.ic.ids.Delete item.ID
    let instanceCount := if itemExist then st.instanceCount - 1 else st.instanceCount
    let services :=
      match st.ic.services.Load item.ServiceID with
      | none => st.ic.services
      | some value => st.ic.services.Store item.ServiceID (value.Delete item.ID)
    { ic := { st.ic with ids := ids, services := services }
      lastMtime := lastMtime
      update := st.update
      del := st.del + 1
      affect := affect
      instanceCount := instanceCount }
  else
    let item :=
      if item.Proto.Metadata = none then
        { item with Proto := { item.Proto with Metadata := some GoMap.empty } }
      else item
    let item := fillInternalLabels item
    let ids := st.ic.ids.Store item.ID item
    let instanceCount := if !itemExist then st.instanceCount + 1 else st.instanceCount
    let value :=
      match st.ic.services.Load item.ServiceID with
      | some value => value
      | none => GoMap.empty
    let services := st.ic.services.Store item.ServiceID (value.Store item.ID item)
    { ic := { st.ic with ids := ids, services := services }
      lastMtime := lastMtime
      update := st.update + 1
      del := st.del
      affect := affect
      instanceCount := instanceCount }

/-- What `setInstances` leaves and returns. -/
structure setInstancesResult where
  /-- The cache afterwards. -/
  ic : instanceCache
  /-- The returned map of last modify times, nil for an empty batch. -/
  lastMtimes : Option (GoMap Time)
  /-- Number of records stored. -/
  update : Nat
  /-- Number of tombstones. -/
  del : Nat

/-- Embeds `setInstances`.  The argument lists the records of the Go map `ins` in the order
in which the `range` loop visits them, which Go leaves open: a statement about
`setInstances` holds for every such order. -/
def instanceCache.setInstances (ic : instanceCache) (ins : List Instance) :
    setInstancesResult :=
  if ins.length = 0 then { ic := ic, lastMtimes := none, update := 0, del := 0 }
  else
    let st := ins.foldl setInstancesStep
      { ic := ic
        lastMtime := ic.LastMtime.Unix
        update := 0
        del := 0
        affect := GoMap.empty
        instanceCount := ic.instanceCount }
    let ic1 :=
      if st.ic.instanceCount ≠ st.instanceCount then
        { st.ic with instanceCount := st.instanceCount }
      else st.ic
    { ic := ic1.postProcessUpdatedServices st.affect
      lastMtimes := some (GoMap.empty.Store InstanceName (timeUnix st.lastMtime))
      update := st.update
      del := st.del }

/-- Embeds `GetInstance`. -/
def instanceCache.GetInstance (ic : instanceCache) (instanceID : String) : Option Instance :=
  if instanceID = "" then none
  else ic.ids.Load instanceID

/-- Embeds `GetInstancesByServiceID`: the instances of the bucket, here in key order (Go
leaves the order open); nil is the empty list. -/
def instanceCache.GetInstancesByServiceID (ic : instanceCache) (serviceID : String) :
    List Instance :=
  if serviceID = "" then []
  else
    match ic.services.Load serviceID with
    | none => []
    | some value => value.values

/-- Embeds `GetInstancesCountByServiceID`. -/
def instanceCache.GetInstancesCountByServiceID (ic : instanceCache) (serviceID : String) :
    InstanceCount :=
  if serviceID = "" then {}
  else
    match ic.instanceCounts.Load serviceID with
    | none => {}
    | some value => value

/-- Embeds `GetInstancesCount`. -/
def instanceCache.GetInstancesCount (ic : instanceCache) : Int :=
  ic.ids.values.foldl (fun count _ => count + 1) 0

/-! ## Base refresh round (cache/cache.go) -/

/-- Embeds `baseCache.isFirstUpdate`. -/
def baseCache.isFirstUpdate (bc : baseCache) : Bool := bc.firtstUpdate

/-- Embeds `baseCache.doCacheUpdate`.  `storeTime` is what `GetUnixSecond` returns and
`executed` what the executor returns (the map of last modify times, nil or not, and
the total; or an error); the executors of the caches change the typed indexes, not
the fields of `baseCache`.  The result is the base cache afterwards and the returned
error, nil being `none`. -/
def baseCache.doCacheUpdate (bc : baseCache) (storeTime : Except String Int)
    (executed : Except String (Option (GoMap Time) × Int)) : baseCache × Option String :=
  let curStoreTime :=
    match storeTime with
    | .ok t => t
    | .error _ => bc.lastFetchTime
  match executed with
  | .error err => ({ bc with lastFetchTime := curStoreTime }, some err)
  | .ok (lastMtimes, _) =>
    let bc1 :=
      match lastMtimes with
      | some m => if m.len ≠ 0 then { bc with lastMtimes := m } else bc
      | none => bc
    ({ bc1 with firtstUpdate := false, lastFetchTime := curStoreTime }, none)

/-- Embeds `instanceCache.realUpdate`, the executor of the instance cache.  `fetched` is
what `GetMoreInstances` returns; the result is the cache afterwards and what the
executor returns. -/
def instanceCache.realUpdate (ic : instanceCache) (fetched : Except String (List Instance)) :
    instanceCache × Except String (Option (GoMap Time) × Int) :=
  match fetched with
  | .error err => (ic, .error err)
  | .ok instances =>
    let r := ic.setInstances instances
    (r.ic, .ok (r.lastMtimes, (instances.length : Int)))

/-- The call `ic.doCacheUpdate(ic.name(), ic.realUpdate)` that `update` makes: one
refresh round of the instance cache, given the reading of the store clock and the
result of the fetch from the store. -/
def instanceCache.doCacheUpdate (ic : instanceCache) (storeTime : Except String Int)
    (fetched : Except String (List Instance)) : instanceCache × Option String :=
  let r := ic.realUpdate fetched
  let b := r.1.base.doCacheUpdate storeTime r.2
  ({ r.1 with base := b.1 }, b.2)

/-! ## Cache manager and revision worker (cache/cache.go) -/

/-- The loop of `CompositeComputeRevision`: write every revision to the hash, return
the digest in hexadecimal. -/
def compositeWrite (h : Hasher) : List String → Except String String
  | [] => .ok (hexEncodeToString h.Sum)
  | revision :: rest =>
    match h.Write (goBytes revision) with
    | (_, some err) => .error err
    | (h1, none) => compositeWrite h1 rest

/-- Embeds `CompositeComputeRevision`: the returned digest and error (the source also
leaves the slice of the caller sorted). -/
def CompositeComputeRevision (revisions : List String) : Except String String :=
  compositeWrite Hasher.new (sortStrings revisions)

/-- Embeds `Service`: the service record. -/
structure Service where
  /-- Service id. -/
  ID : String
  /-- Name. -/
  Name : String
  /-- Namespace. -/
  Namespace : String
  /-- Business. -/
  Business : String
  /-- Ports. -/
  Ports : String
  /-- Metadata, nil when unset. -/
  Meta : Option (GoMap String)
  /-- Comment. -/
  Comment : String
  /-- Department. -/
  Department : String
  /-- First module field. -/
  CmdbMod1 : String
  /-- Second module field. -/
  CmdbMod2 : String
  /-- Third module field. -/
  CmdbMod3 : String
  /-- Token. -/
  Token : String
  /-- Owner. -/
  Owner : String
  /-- Revision of the service record. -/
  Revision : String
  /-- Id of the service an alias points at, empty for a service proper. -/
  Reference : String
  /-- Filter of an alias. -/
  ReferFilter : String
  /-- Platform id. -/
  PlatformID : String
  /-- False for a tombstone. -/
  Valid : Bool
  /-- Creation time. -/
  CreateTime : Time
  /-- Modification time. -/
  ModifyTime : Time
  /-- Modification time in unix seconds. -/
  Mtime : Int
  /-- Creation time in unix seconds. -/
  Ctime : Int

/-- Embeds `Service.IsAlias`. -/
def Service.IsAlias (s : Service) : Bool := decide (s.Reference ≠ "")

/-- Embeds `CacheManager`: the revision map and the two typed caches the revision worker
reads.  The job channel `comRevisionCh` is the queue `revisionCh` of the instance
cache. -/
structure CacheManager where
  /-- The lookup `Service().GetServiceByID` of the service cache, nil being `none`.  The
  service cache is declared outside the sources at hand, so its lookup is a parameter:
  every statement holds for every such function. -/
  GetServiceByID : String → Option Service
  /-- The instance cache, `Instance()`. -/
  Instance : instanceCache
  /-- Service id to revision over the instances of the service. -/
  revisions : GoMap String

/-- Embeds `deleteRevisions`. -/
def CacheManager.deleteRevisions (nc : CacheManager) (id : String) : CacheManager :=
  { nc with revisions := nc.revisions.Delete id }

/-- Embeds `setRevisions`. -/
def CacheManager.setRevisions (nc : CacheManager) (key val : String) : CacheManager :=
  { nc with revisions := nc.revisions.Store key val }

/-- Embeds `readRevisions`: the entry, none when `ok` is false. -/
def CacheManager.readRevisions (nc : CacheManager) (key : String) : Option String :=
  nc.revisions.Load key

/-- Embeds `processRevisionWorker`; a nil request is `none`.  The result is the manager
afterwards and the returned flag. -/
def CacheManager.processRevisionWorker (nc : CacheManager) (req : Option revisionNotify) :
    CacheManager × Bool :=
  match req with
  | none => (nc, false)
  | some req =>
    if req.serviceID = "" then (nc, false)
    else if !req.valid then (nc.deleteRevisions req.serviceID, true)
    else
      match nc.GetServiceByID req.serviceID with
      | none => (nc, false)
      | some service =>
        let instances := nc.Instance.GetInstancesByServiceID req.serviceID
        match ComputeRevision service.Revision instances with
        | .error _ => (nc, false)
        | .ok revision => (nc.setRevisions req.serviceID revision, true)

/-- Embeds `GetServiceInstanceRevision`. -/
def CacheManager.GetServiceInstanceRevision (nc : CacheManager) (serviceID : String) : String :=
  match nc.readRevisions serviceID with
  | none => ""
  | some value => value

/-- Embeds `GetServiceRevisionCount`. -/
def CacheManager.GetServiceRevisionCount (nc : CacheManager) : Nat := nc.revisions.len

/-- Concatenation of a list of strings, in order. -/
def concatStrings : List String → String
  | [] => ""
  | a :: rest => a ++ concatStrings rest

/-! ## Resets of the base cache (cache/cache.go) -/

/-- Embeds `DefaultTimeDiff` as declared, in nanoseconds: five seconds back.  The
manager replaces it by the configured value when one is set, so the functions below
take the value in force as an argument. -/
def DefaultTimeDiff : Int := -5 * 1000000000

/-- Embeds `zeroTime`. -/
def zeroTime : Time := timeUnix 0

/-- Embeds `unixToInternal` of package time: the seconds from January 1 of year 1 to the
unix epoch. -/
def unixToInternal : Int := 62135596800

/-- The largest `int64`. -/
def maxInt64 : Int := 9223372036854775807

/-- The smallest `int64`. -/
def minInt64 : Int := -9223372036854775808

/-- The `int64` that an integer wraps around to (two's complement). -/
def wrapInt64 (x : Int) : Int :=
  (x + 9223372036854775808) % 18446744073709551616 - 9223372036854775808

/-- The field `ext` of a `time.Time` without monotonic clock reading, which `t.sec()`
returns: the seconds since January 1 of year 1.  `time.Unix(sec, nsec)` stores
`sec + unixToInternal` in it, an `int64` sum that wraps around. -/
def Time.ext (t : Time) : Int := wrapInt64 (t.sec + unixToInternal)

/-- Embeds `addSec` of package time for a time without monotonic clock reading: the sum
of the seconds, and `1<<63 - 1` or `-(1<<63 - 1)` when the `int64` sum overflows, which
is what the test `(sum > t.ext) == (d > 0)` of the function detects. -/
def addSec (ext d : Int) : Int :=
  let sum := ext + d
  if minInt64 ≤ sum ∧ sum ≤ maxInt64 then sum
  else if d > 0 then maxInt64 else -maxInt64

/-- The method `t.Add(d)`, with `d` in nanoseconds: the seconds and the nanoseconds of
`d` by truncated division, one second carried when the nanoseconds leave the range, the
seconds added with `addSec`. -/
def Time.Add (t : Time) (d : Int) : Time :=
  let dsec := Int.tdiv d 1000000000
  let nsec := (t.nsec : Int) + Int.tmod d 1000000000
  let carried : Int × Int :=
    if nsec ≥ 1000000000 then (dsec + 1, nsec - 1000000000)
    else if nsec < 0 then (dsec - 1, nsec + 1000000000)
    else (dsec, nsec)
  ⟨wrapInt64 (addSec t.ext carried.1 - unixToInternal), carried.2.toNat⟩

/-- The method `t.After(u)`: `t` is later than `u`, compared on the seconds since
year 1 and then on the nanoseconds. -/
def Time.After (t u : Time) : Bool :=
  decide (t.ext > u.ext ∨ (t.ext = u.ext ∧ t.nsec > u.nsec))

/-- Embeds `baseCache.resetLastMtime`. -/
def baseCache.resetLastMtime (bc : baseCache) (label : String) : baseCache :=
  { bc with lastMtimes := bc.lastMtimes.Store label (timeUnix 0) }

/-- Embeds `baseCache.resetLastFetchTime`. -/
def baseCache.resetLastFetchTime (bc : baseCache) : baseCache :=
  { bc with lastFetchTime := 1 }

/-- Embeds `baseCache.LastFetchTime`; `timeDiff` is the value of `DefaultTimeDiff` in
force. -/
def baseCache.LastFetchTime (bc : baseCache) (timeDiff : Int) : Time :=
  let lastTime := timeUnix bc.lastFetchTime
  let tmp := lastTime.Add timeDiff
  if zeroTime.After tmp then lastTime else tmp

/-- Embeds `baseCache.clear`. -/
def baseCache.clear (bc : baseCache) : baseCache :=
  { bc with lastMtimes := GoMap.empty, lastFetchTime := 1, firtstUpdate := true }

/-! ## Clearing and checking the instance cache (cache/instance.go) -/

/-- Embeds `instanceCache.clear`, which returns nil.  The job queue and the time of the
last count check are not among the fields it assigns. -/
def instanceCache.clear (ic : instanceCache) : instanceCache :=
  { ic with
    base := ic.base.clear,
    ids := GoMap.empty,
    services := GoMap.empty,
    instanceCounts := GoMap.empty,
    instanceCount := 0 }

/-- Embeds `checkAllIntervalSec`. -/
def checkAllIntervalSec : Int := 60

/-- Embeds `instanceCache.checkAll`.  `curTimeSec` is `time.Now().Unix()` and `stored`
what `storage.GetInstancesCount()` returns, which is read only when the interval has
elapsed. -/
def instanceCache.checkAll (ic : instanceCache) (curTimeSec : Int)
    (stored : Except String Nat) : instanceCache :=
  if curTimeSec - ic.lastCheckAllTime < checkAllIntervalSec then ic
  else
    match stored with
    | .error _ => { ic with lastCheckAllTime := curTimeSec }
    | .ok count =>
      if ic.instanceCount = (count : Int) then { ic with lastCheckAllTime := curTimeSec }
      else
        { ic with
          base := (ic.base.resetLastMtime InstanceName).resetLastFetchTime,
          lastCheckAllTime := curTimeSec }

/-- The message `apimodel.StringList`, declared outside the sources at hand: the field
that `GetInstanceLabels` writes. -/
structure StringList where
  /-- The values. -/
  Values : List String
deriving DecidableEq, Repr

/-- The message `apiservice.InstanceLabels`, declared outside the sources at hand: the
field that `GetInstanceLabels` writes; a nil map is `none`. -/
structure InstanceLabels where
  /-- Label key to the values seen for it. -/
  Labels : Option (GoMap StringList)

/-- The body `tmp[k][v] = struct{}{}` of the loop over the metadata of one instance,
with the creation of the set of `k` when it is missing. -/
def labelStep (tmp : GoMap (GoMap Unit)) (kv : String × String) : GoMap (GoMap Unit) :=
  let tmp :=
    match tmp.Load kv.1 with
    | some _ => tmp
    | none => tmp.Store kv.1 GoMap.empty
  tmp.Store kv.1 (((tmp.Load kv.1).getD GoMap.empty).Store kv.2 ())

/-- The body of the loop over `tmp`: the values of one key are appended to its list. -/
def labelCollect (ret : GoMap StringList) (kv : String × GoMap Unit) : GoMap StringList :=
  let ret :=
    match ret.Load kv.1 with
    | some _ => ret
    | none => ret.Store kv.1 { Values := [] }
  kv.2.keys.foldl
    (fun ret vv => ret.Store kv.1 { Values := ((ret.Load kv.1).getD { Values := [] }).Values ++ [vv] })
    ret

/-- Embeds `GetInstanceLabels`.  The loops over the instances, over the metadata and
over the sets visit the entries in key order; Go leaves the order open, and with it the
order of the values of a label. -/
def instanceCache.GetInstanceLabels (ic : instanceCache) (serviceID : String) : InstanceLabels :=
  if serviceID = "" then { Labels := none }
  else
    match ic.services.Load serviceID with
    | none => { Labels := none }
    | some value =>
      let tmp := value.values.foldl
        (fun tmp inst => inst.Metadata.entries.foldl labelStep tmp) GoMap.empty
      { Labels := some (tmp.entries.foldl labelCollect GoMap.empty) }

/-! ## Clearing the manager (cache/cache.go) -/

/-- Embeds `CacheManager.clear` on the two caches of the manager at hand.  The service
cache comes before the instance cache in the list of caches; its code is not among
the sources, so `serviceCleared` is what its `clear` gives: an error, or the lookup of
the cleared service cache.  `instanceCache.clear` returns nil. -/
def CacheManager.clear (nc : CacheManager)
    (serviceCleared : Except String (String → Option Service)) : CacheManager × Option String :=
  match serviceCleared with
  | .error err => (nc, some err)
  | .ok lookup => ({ nc with GetServiceByID := lookup, Instance := nc.Instance.clear }, none)

/-- The enumeration `apitraffic.MatchArgument_Type`, declared outside the sources at
hand: the six constants that `Arguments2Labels` names, and `other` for every further
value of the underlying `int32`, which the `default` branch of the switch takes. -/
inductive MatchArgument_Type where
  | CUSTOM
  | METHOD
  | HEADER
  | QUERY
  | CALLER_SERVICE
  | CALLER_IP
  | other (n : Int)
deriving DecidableEq, Repr

/-- The message `apitraffic.MatchArgument`, declared outside the sources at hand: the
fields the code reads.  `M` stands for `*apimodel.MatchString`. -/
structure MatchArgument (M : Type) where
  /-- The field `Type`. -/
  Type_ : MatchArgument_Type
  /-- The field `Key`. -/
  Key : String
  /-- The field `Value`. -/
  Value : M

/-- The message `apitraffic.Rule`, declared outside the sources at hand: the fields the
code reads; a nil map is `none`. -/
structure Rule (M : Type) where
  /-- The arguments list. -/
  Arguments : List (MatchArgument M)
  /-- The labels in the legacy form. -/
  Labels : Option (GoMap M)

/-- Embeds `RateLimit`. -/
structure RateLimit (M : Type) where
  /-- The wire message. -/
  Proto : Rule M
  /-- Rule id. -/
  ID : String
  /-- Service id. -/
  ServiceID : String
  /-- Rule name. -/
  Name : String
  /-- Method. -/
  Method : String
  /-- The legacy labels, as JSON text. -/
  Labels : String
  /-- Priority. -/
  Priority : Nat
  /-- Rule text. -/
  Rule : String
  /-- Revision. -/
  Revision : String
  /-- Whether the rule is disabled. -/
  Disable : Bool
  /-- False for a tombstone. -/
  Valid : Bool
  /-- Creation time. -/
  CreateTime : Time
  /-- Modification time. -/
  ModifyTime : Time
  /-- Time of enabling. -/
  EnableTime : Time

/-- The call `len(m)` on a map that may be nil. -/
def lenOfMap {V : Type} (m : Option (GoMap V)) : Nat :=
  match m with
  | some m => m.len
  | none => 0

/-- Embeds `Labels2Arguments`: the rule afterwards, the returned labels and the returned
error.  `unmarshal` is `json.Unmarshal` into a fresh map: an error, or the map
afterwards.  The new arguments follow the key order of the labels; Go leaves the
order open. -/
def RateLimit.Labels2Arguments {M : Type} (r : RateLimit M)
    (unmarshal : String → Except String (Option (GoMap M))) :
    RateLimit M × Option (GoMap M) × Option String :=
  if r.Proto.Arguments.length = 0 ∧ r.Labels ≠ "" then
    match unmarshal r.Labels with
    | .error err => (r, none, some err)
    | .ok labels =>
      let added : List (MatchArgument M) :=
        match labels with
        | some m =>
          m.entries.map fun kv =>
            { Type_ := MatchArgument_Type.CUSTOM, Key := kv.1, Value := kv.2 }
        | none => []
      ({ r with Proto := { r.Proto with Arguments := r.Proto.Arguments ++ added } }, labels, none)
  else (r, none, none)

/-- Embeds `LabelKeyPath`. -/
def LabelKeyPath : String := "$path"

/-- Embeds `LabelKeyMethod`. -/
def LabelKeyMethod : String := "$method"

/-- Embeds `LabelKeyHeader`. -/
def LabelKeyHeader : String := "$header"

/-- Embeds `LabelKeyQuery`. -/
def LabelKeyQuery : String := "$query"

/-- Embeds `LabelKeyCallerService`. -/
def LabelKeyCallerService : String := "$caller_service"

/-- Embeds `LabelKeyCallerIP`. -/
def LabelKeyCallerIP : String := "$caller_ip"

/-- Body of the loop of `Arguments2Labels`. -/
def arguments2LabelsStep {M : Type} (labels : GoMap M) (argument : MatchArgument M) : GoMap M :=
  match argument.Type_ with
  | .CUSTOM => labels.Store argument.Key argument.Value
  | .METHOD => labels.Store LabelKeyMethod argument.Value
  | .HEADER => labels.Store (LabelKeyHeader ++ "." ++ argument.Key) argument.Value
  | .QUERY => labels.Store (LabelKeyQuery ++ "." ++ argument.Key) argument.Value
  | .CALLER_SERVICE => labels.Store (LabelKeyCallerService ++ "." ++ argument.Key) argument.Value
  | .CALLER_IP => labels.Store LabelKeyCallerIP argument.Value
  | .other _ => labels

/-- Embeds `Arguments2Labels`. -/
def Arguments2Labels {M : Type} (arguments : List (MatchArgument M)) : Option (GoMap M) :=
  if arguments.length > 0 then some (arguments.foldl arguments2LabelsStep GoMap.empty)
  else none

/-- The call `strings.Split(s, sep)` for a separator of one character, on the characters
of `s`. -/
def splitChars (sep : Char) : List Char → List (List Char)
  | [] => [[]]
  | c :: cs =>
    if c = sep then [] :: splitChars sep cs
    else
      match splitChars sep cs with
      | h :: t => (c :: h) :: t
      | [] => [[c]]

/-- The call `strings.Split(s, ",")`. -/
def splitComma (s : String) : List String := (splitChars ',' s.data).map String.mk

/-- The decimal value of a sequence of digits after the value `n`; none when a
character is not a digit. -/
def parseDigits : List Char → Nat → Option Nat
  | [], n => some n
  | c :: cs, n =>
    if 48 ≤ c.toNat ∧ c.toNat ≤ 57 then parseDigits cs (n * 10 + (c.toNat - 48)) else none

/-- The call `strconv.ParseUint(s, 10, 32)`: the value of a non-empty sequence of
decimal digits below `2 ^ 32`, else an error.  The error stands for the `*NumError` of
Go: its text here is not the message of Go, which also quotes the input, and a string
with digits beyond the range followed by another character is reported here as a syntax
error. -/
def ParseUint32 (s : String) : Except String Nat :=
  if s = "" then .error "invalid syntax"
  else
    match parseDigits s.data 0 with
    | none => .error "invalid syntax"
    | some n => if n < 2 ^ 32 then .ok n else .error "value out of range"

/-- The record `store.InstanceArgs`, declared outside the sources at hand: the fields
that `ParseInstanceArgs` writes; a nil slice is the empty list, a nil map `none`. -/
structure InstanceArgs where
  /-- The hosts. -/
  Hosts : List String
  /-- The ports. -/
  Ports : List Nat
  /-- The metadata. -/
  Meta : Option (GoMap String)

/-- The loop of `ParseInstanceArgs` over the segments of the port value. -/
def parsePorts : List String → List Nat → Except String (List Nat)
  | [], ports => .ok ports
  | portStr :: rest, ports =>
    match ParseUint32 portStr with
    | .error err => .error (portStr ++ " can not parse as uint, err is " ++ err)
    | .ok port => parsePorts rest (ports ++ [port])

/-- Embeds `ParseInstanceArgs`; the result nil is `none`. -/
def ParseInstanceArgs (query : GoMap String) (metadata : Option (GoMap String)) :
    Except String (Option InstanceArgs) :=
  if query.len = 0 ∧ metadata.isNone then .ok none
  else
    let res : InstanceArgs := { Hosts := [], Ports := [], Meta := metadata }
    if query.len = 0 then .ok (some res)
    else
      match query.Load "host" with
      | none => .error "port parameter can not be used alone without host"
      | some hosts =>
        let res := { res with Hosts := splitComma hosts }
        match query.Load "port" with
        | none => .ok (some res)
        | some ports =>
          match parsePorts (splitComma ports) res.Ports with
          | .error err => .error err
          | .ok parsed => .ok (some { res with Ports := parsed })

/-! ## Wildcard names and slices (common/utils/funcs.go) -/

/-- Embeds `IsPrefixWildName`: the name ends in `*`. -/
def IsPrefixWildName (name : String) : Bool :=
  decide (name.length ≥ 1) && decide (name.data.getLast? = some '*')

/-- Embeds `IsSuffixWildName`: the name starts with `*`. -/
def IsSuffixWildName (name : String) : Bool :=
  decide (name.length ≥ 1) && decide (name.data.head? = some '*')

/-- The call `strings.TrimRight(s, cutset)`. -/
def TrimRight (s cutset : String) : String :=
  String.mk (s.data.rdropWhile fun c => cutset.data.contains c)

/-- The call `strings.TrimLeft(s, cutset)`. -/
def TrimLeft (s cutset : String) : String :=
  String.mk (s.data.dropWhile fun c => cutset.data.contains c)

/-- The call `strings.HasPrefix(s, p)`. -/
def HasPrefix (s p : String) : Bool := p.data.isPrefixOf s.data

/-- The call `strings.HasSuffix(s, p)`. -/
def HasSuffix (s p : String) : Bool := p.data.isSuffixOf s.data

/-- The call `strings.Contains(s, sub)`. -/
def Contains (s sub : String) : Bool := s.data.tails.any fun t => sub.data.isPrefixOf t

/-- Embeds `IsWildMatch`. -/
def IsWildMatch (name pattern : String) : Bool :=
  if IsPrefixWildName pattern then
    let pattern := TrimRight pattern "*"
    if HasPrefix name pattern then true
    else if IsSuffixWildName pattern then
      let pattern := TrimLeft pattern "*"
      Contains name pattern
    else false
  else if IsSuffixWildName pattern then
    let pattern := TrimLeft pattern "*"
    if HasSuffix name pattern then true else false
  else decide (pattern = name)

/-- Body of the loop of `StringSliceDeDuplication`, on the set `m` and the result. -/
def deDuplicationStep (st : GoMap Unit × List String) (x : String) : GoMap Unit × List String :=
  match st.1.Load x with
  | some _ => st
  | none => (st.1.Store x (), st.2 ++ [x])

/-- Embeds `StringSliceDeDuplication`. -/
def StringSliceDeDuplication (s : List String) : List String :=
  (s.foldl deDuplicationStep (GoMap.empty, [])).2

/-! ## Config-file releases (config/config_file_release.go) -/

/-- The message `apiconfig.ConfigFileRelease`, declared outside the sources at hand: the
fields the code names.  A wrapper field that is nil is `none`. -/
structure ApiConfigFileRelease where
  /-- The field `Id`. -/
  Id : Option Nat
  /-- The field `Name`. -/
  Name : Option String
  /-- The field `Namespace`. -/
  Namespace : Option String
  /-- The field `Group`. -/
  Group : Option String
  /-- The field `FileName`. -/
  FileName : Option String
  /-- The field `Content`. -/
  Content : Option String
  /-- The field `Comment`. -/
  Comment : Option String
  /-- The field `Md5`. -/
  Md5 : Option String
  /-- The field `Version`. -/
  Version : Option Nat
  /-- The field `CreateBy`. -/
  CreateBy : Option String
  /-- The field `CreateTime`. -/
  CreateTime : Option String
  /-- The field `ModifyBy`. -/
  ModifyBy : Option String
  /-- The field `ModifyTime`. -/
  ModifyTime : Option String
deriving DecidableEq, Repr

/-- The record `model.ConfigFileRelease`, declared outside the sources at hand: the
fields the code names. -/
structure ConfigFileRelease where
  /-- The field `Id`. -/
  Id : Nat
  /-- The field `Name`. -/
  Name : String
  /-- The field `Namespace`. -/
  Namespace : String
  /-- The field `Group`. -/
  Group : String
  /-- The field `FileName`. -/
  FileName : String
  /-- The field `Content`. -/
  Content : String
  /-- The field `Comment`. -/
  Comment : String
  /-- The field `Md5`. -/
  Md5 : String
  /-- The field `Version`. -/
  Version : Nat
  /-- The field `CreateBy`. -/
  CreateBy : String
  /-- The field `CreateTime`. -/
  CreateTime : Time
  /-- The field `ModifyBy`. -/
  ModifyBy : String
  /-- The field `ModifyTime`. -/
  ModifyTime : Time
deriving DecidableEq, Repr

/-- The getter `GetValue()` of a string wrapper: the empty string for nil. -/
def GetValue (w : Option String) : String :=
  match w with
  | some v => v
  | none => ""

/-- The zero value `time.Time{}`: January 1 of year 1, whose `Unix()` is
`-62135596800`. -/
def timeZeroValue : Time := ⟨-unixToInternal, 0⟩

/-- Embeds `transferConfigFileReleaseAPIModel2StoreModel`; nil is `none`.  The fields of
the result that the composite literal does not name have their zero values. -/
def transferConfigFileReleaseAPIModel2StoreModel (release : Option ApiConfigFileRelease) :
    Option ConfigFileRelease :=
  match release with
  | none => none
  | some release =>
    let comment := match release.Comment with
      | some v => v
      | none => ""
    let content := match release.Content with
      | some v => v
      | none => ""
    let md5 := match release.Md5 with
      | some v => v
      | none => ""
    let version := match release.Version with
      | some v => v
      | none => 0
    let createBy := match release.CreateBy with
      | some v => v
      | none => ""
    let modifyBy := ""
    let createBy := match release.ModifyBy with
      | some v => v
      | none => createBy
    let id := match release.Id with
      | some v => v
      | none => 0
    some
      { Id := id
        Name := ""
        Namespace := GetValue release.Namespace
        Group := GetValue release.Group
        FileName := GetValue release.FileName
        Content := content
        Comment := comment
        Md5 := md5
        Version := version
        CreateBy := createBy
        CreateTime := timeZeroValue
        ModifyBy := modifyBy
        ModifyTime := timeZeroValue }

/-! ## Sample records -/

/-- A valid fault-detect rule with the given id and destination, modified at unix
second 1. -/
def sampleRule (id ns svc : String) : FaultDetectRule :=
  { ID := id, Name := id, Namespace := "default", Description := "", DstService := svc,
    DstNamespace := ns, DstMethod := "", Rule := "", Revision := id, Valid := true,
    CreateTime := timeUnix 1, ModifyTime := timeUnix 1 }

/-- An instance record with the given id, service id, revision and validity, healthy
and not isolated, modified at unix second 1. -/
def sampleInstance (id svc rev : String) (valid : Bool) : Instance :=
  { Proto :=
      { Id := id, Revision := rev, Healthy := true, Isolate := false, Port := 8080,
        Version := "", Protocol := "", Location := none, Metadata := none }
    ServiceID := svc
    Valid := valid
    ModifyTime := timeUnix 1 }

/-- The fault-detect cache after a global-wildcard rule, a namespace-wildcard rule for
`N`, a rule for `(N, Svc1)` and the tombstone of that last rule. -/
def emptyBucketCache : faultDetectCache :=
  (newFaultDetectCache.setFaultDetectRules
    [sampleRule "G" "*" "*", sampleRule "W" "N" "*", sampleRule "R" "N" "Svc1",
     { sampleRule "R" "N" "Svc1" with Valid := false }]).1

/-! ## Notions used to state the properties of the instance cache -/

/-- The record that `setInstances` stores for a valid record `item`: `item` with a
metadata map and the internal labels filled in. -/
def storedInstance (item : Instance) : Instance :=
  fillInternalLabels
    (if item.Proto.Metadata = none then
      { item with Proto := { item.Proto with Metadata := some GoMap.empty } }
    else item)

/-- The entry `services[s][id]`, none when the bucket or the entry is missing. -/
def bucketLoad (services : GoMap (GoMap Instance)) (s id : String) : Option Instance :=
  match services.Load s with
  | some bucket => bucket.Load id
  | none => none

/-- The states of the instance cache reachable from the initialized cache by calls of
`setInstances` on batches whose records all satisfy `allowed`.  Between two calls the
parts of the cache that `setInstances` does not own may change: the watermarks
(`doCacheUpdate`, `checkAll`), the job queue (the revision workers) and the time of
the last count check. -/
inductive ReachableBy (allowed : Instance → Prop) : instanceCache → Prop
  | init : ReachableBy allowed newInstanceCache
  | setInstances {ic : instanceCache} (ins : List Instance) :
    ReachableBy allowed ic → (∀ item ∈ ins, allowed item) →
    ReachableBy allowed (ic.setInstances ins).ic
  | frame {ic : instanceCache} (bc : baseCache) (ch : List revisionNotify) (t : Int) :
    ReachableBy allowed ic →
    ReachableBy allowed { ic with base := bc, revisionCh := ch, lastCheckAllTime := t }

/-- The states reachable by `setInstances` calls on arbitrary batches. -/
def Reachable (ic : instanceCache) : Prop := ReachableBy (fun _ => True) ic

/-- The effect of one record on the by-id index. -/
def stepIds (ids : GoMap Instance) (item : Instance) : GoMap Instance :=
  if item.Valid then ids.Store item.ID (storedInstance item) else ids.Delete item.ID

/-- The effect of one record on the by-service index. -/
def stepServices (services : GoMap (GoMap Instance)) (item : Instance) :
    GoMap (GoMap Instance) :=
  if item.Valid then
    services.Store item.ServiceID
      (((services.Load item.ServiceID).getD GoMap.empty).Store item.ID (storedInstance item))
  else
    match services.Load item.ServiceID with
    | none => services
    | some value => services.Store item.ServiceID (value.Delete item.ID)

/-- The statistics that `postProcessUpdatedServices` computes for a bucket. -/
def countBucket (bucket : GoMap Instance) : InstanceCount :=
  bucket.values.foldl countInstance {}

/-- Assign one location of a partial function. -/
def assign {K V : Type} [DecidableEq K] (g : K → Option V) (k : K) (v : Option V) :
    K → Option V :=
  fun k2 => if k2 = k then v else g k2

/-- What a record leaves at its locations of the indexes: the stored record for a
valid one, nothing for a tombstone. -/
def recordValue (item : Instance) : Option Instance :=
  if item.Valid then some (storedInstance item) else none

/-- Every entry of the by-id index is filed under its own id and is also the entry of
that id in the bucket of its service. -/
def IdsInServices (ids : GoMap Instance) (services : GoMap (GoMap Instance)) : Prop :=
  ∀ id ins, ids.Load id = some ins → ins.ID = id ∧ bucketLoad services ins.ServiceID id = some ins

/-- Every entry of a service bucket belongs to that service and is the entry of its
id in the by-id index. -/
def ServicesInIds (ids : GoMap Instance) (services : GoMap (GoMap Instance)) : Prop :=
  ∀ s id ins, bucketLoad services s id = some ins → ins.ServiceID = s ∧ ids.Load id = some ins

/-- Every stored instance carries the service id that `svcOf` gives its instance id. -/
def ServiceFixed (svcOf : String → String) (ids : GoMap Instance) : Prop :=
  ∀ id ins, ids.Load id = some ins → ins.ServiceID = svcOf id

/-- The count entry that `postProcessUpdatedServices` leaves for a service, given its
bucket: none when the bucket is missing or empty. -/
def countsFor : Option (GoMap Instance) → Option InstanceCount
  | none => none
  | some bucket =>
    if (countBucket bucket).TotalInstanceCount = 0 then none else some (countBucket bucket)

/-- The instance cache after one batch with two healthy instances of service `S1`, of
which `i2` is isolated. -/
def countedCache : instanceCache :=
  (newInstanceCache.setInstances
    [sampleInstance "i1" "S1" "a" true,
     { sampleInstance "i2" "S1" "b" true with
       Proto := { (sampleInstance "i2" "S1" "b" true).Proto with Isolate := true } }]).ic

/-- The highest modify time, in unix seconds, among `m` and the records of a batch: the
running `lastMtime` of the loop of `setInstances`. -/
def batchLastMtime (m : Int) (l : List Instance) : Int :=
  l.foldl (fun m r => if m < r.ModifyTime.Unix then r.ModifyTime.Unix else m) m

/-- A batch with the instance `i1` of service `S1`, the instance `i2` of service `S2`
and the tombstone of an instance `i3` of service `S1`. -/
def sampleBatch : List Instance :=
  [sampleInstance "i1" "S1" "a" true, sampleInstance "i2" "S2" "b" true,
   sampleInstance "i3" "S1" "c" false]

/-- The watermarks after a successful refresh at store time 100 that stored the map
returned for `sampleBatch`. -/
def sampleWatermarks : baseCache :=
  { firtstUpdate := false
    lastFetchTime := 100
    lastMtimes := GoMap.empty.Store InstanceName (timeUnix 1) }

/-! ## Notions used to state the properties of the refresh round and the revision worker -/

/-- A service record with the given id and revision, in namespace `default`. -/
def sampleService (id rev : String) : Service :=
  { ID := id, Name := id, Namespace := "default", Business := "", Ports := "", Meta := none,
    Comment := "", Department := "", CmdbMod1 := "", CmdbMod2 := "", CmdbMod3 := "",
    Token := "", Owner := "", Revision := rev, Reference := "", ReferFilter := "",
    PlatformID := "", Valid := true, CreateTime := timeUnix 1, ModifyTime := timeUnix 1,
    Mtime := 1, Ctime := 1 }

/-- A service cache that knows the service `S1`, with revision `svc`, and no other. -/
def sampleServiceCache (id : String) : Option Service :=
  if id = "S1" then some (sampleService "S1" "svc") else none

/-- The revision worker handling the given jobs one after the other. -/
def CacheManager.handleJobs (nc : CacheManager) (jobs : List revisionNotify) : CacheManager :=
  jobs.foldl (fun nc req => (nc.processRevisionWorker (some req)).1) nc

/-- The states of the cache manager reachable from an empty revision map (the manager
as started or after `Clear`) by the revision worker handling requests, while the
service cache and the instance cache change in any way. -/
inductive RevisionsReachable : CacheManager → Prop
  | init (lookup : String → Option Service) (ic : instanceCache) :
    RevisionsReachable { GetServiceByID := lookup, Instance := ic, revisions := GoMap.empty }
  | work {nc : CacheManager} (req : Option revisionNotify) :
    RevisionsReachable nc → RevisionsReachable (nc.processRevisionWorker req).1
  | caches {nc : CacheManager} (lookup : String → Option Service) (ic : instanceCache) :
    RevisionsReachable nc →
    RevisionsReachable { nc with GetServiceByID := lookup, Instance := ic }

/-- The instance cache after `setInstances` on each of the batches, in order. -/
def applyBatches (ic : instanceCache) (batches : List (List Instance)) : instanceCache :=
  batches.foldl (fun ic b => (ic.setInstances b).ic) ic

/-- The instances that `GetInstancesByServiceID` finds in the bucket of a service. -/
def bucketInstances (ic : instanceCache) (serviceID : String) : List Instance :=
  match ic.services.Load serviceID with
  | some bucket => bucket.values
  | none => []

/-- The entry of the revision map for the service id `s` after a job with `valid = true`
for `s`, when the entry before the job is `old`: the job is dropped for an empty id and
for a service that the service cache does not know. -/
def jobOutcome (nc : CacheManager) (s : String) (old : Option String) : Option String :=
  if s = "" then old
  else
    match nc.GetServiceByID s with
    | none => old
    | some service =>
      some (hexEncodeToString (sha1 (goBytes (service.Revision ++ concatStrings
        (sortStrings ((bucketInstances nc.Instance s).map Instance.Revision))))))

/-- The manager after `setInstances` on a batch and after the revision worker has
handled the jobs that the call put in the queue.  The queue itself is left as the call
left it. -/
def CacheManager.ingest (nc : CacheManager) (ins : List Polaris.Instance) : CacheManager :=
  ({ nc with Instance := (nc.Instance.setInstances ins).ic }).handleJobs
    ((nc.Instance.setInstances ins).ic.revisionCh.drop nc.Instance.revisionCh.length)

/-- A manager whose service cache knows `S1`, after the batch with the instance `i1` of
`S1` and the handling of its revision job. -/
def sampleManager : CacheManager :=
  ({ GetServiceByID := sampleServiceCache
     Instance := newInstanceCache
     revisions := GoMap.empty } : CacheManager).ingest [sampleInstance "i1" "S1" "a" true]

/-! ## Notions used to state the properties of the rule buckets -/

/-- The states of the fault-detect cache reachable from the new cache by calls of
`setFaultDetectRules`.  Between two calls the watermarks may change
(`doCacheUpdate`). -/
inductive RulesReachable : faultDetectCache → Prop
  | init : RulesReachable newFaultDetectCache
  | setFaultDetectRules {f : faultDetectCache} (fdRules : List FaultDetectRule) :
    RulesReachable f → RulesReachable (f.setFaultDetectRules fdRules).1
  | frame {f : faultDetectCache} (bc : baseCache) :
    RulesReachable f → RulesReachable { f with base := bc }

/-- The bucket `b` is one of the buckets of the cache: the global-wildcard bucket, a
namespace-wildcard bucket or a service-specific bucket. -/
def IsBucketOf (f : faultDetectCache) (b : ServiceWithFaultDetectRules) : Prop :=
  b = f.allWildcardRules ∨ (∃ ns, f.nsWildcardRules.Load ns = some b) ∨
    ∃ ns svcRules svc, f.svcSpecificRules.Load ns = some svcRules ∧ svcRules.Load svc = some b

/-- The revision of the bucket is the one that `reloadRevision` gives its rules: empty
for no rule, else the digest of the rule revisions in sorted order. -/
def RevisionLoaded (b : ServiceWithFaultDetectRules) : Prop :=
  b.Revision =
    if b.faultDetectRules.len = 0 then ""
    else
      hexEncodeToString (sha1 (goBytes (concatStrings
        (sortStrings (b.faultDetectRules.values.map fun rule => rule.Revision)))))

/-- A rate-limit rule with the given arguments and legacy labels, all other fields
at their zero values. -/
def sampleRateLimit (arguments : List (MatchArgument String)) (labels : String) :
    RateLimit String :=
  { Proto := { Arguments := arguments, Labels := none }
    ID := "r1", ServiceID := "S1", Name := "r1", Method := "", Labels := labels, Priority := 0,
    Rule := "", Revision := "", Disable := false, Valid := true, CreateTime := timeUnix 0,
    ModifyTime := timeUnix 0, EnableTime := timeUnix 0 }

/-- A `json.Unmarshal` that reads the one label `k` with value `v` from every text. -/
def sampleUnmarshal (_ : String) : Except String (Option (GoMap String)) :=
  .ok (some (GoMap.empty.Store "k" "v"))

/-! ## Notions used to state the properties of the query arguments -/

/-- The value of a string of decimal digits. -/
def decimalValue (s : String) : Nat :=
  Nat.ofDigits 10 (s.data.map fun c => c.toNat - 48).reverse

/-- The string is a base-10 unsigned 32-bit integer: not empty, decimal digits only,
with a value below `2 ^ 32`. -/
def IsDecimalUint32 (s : String) : Prop :=
  s ≠ "" ∧ (∀ c ∈ s.data, 48 ≤ c.toNat ∧ c.toNat ≤ 57) ∧ decimalValue s < 2 ^ 32

/-! ## Notions used to state the properties of the instance labels -/

/-- The value `v` is in the set that `tmp` holds for the key `k`. -/
def hasLabel (tmp : GoMap (GoMap Unit)) (k v : String) : Prop :=
  ∃ set, tmp.Load k = some set ∧ (set.Load v).isSome = true

/-- The instance `sampleInstance`, with the given metadata. -/
def labelledInstance (id svc : String) (metadata : GoMap String) : Instance :=
  { sampleInstance id svc "r" true with
    Proto := { (sampleInstance id svc "r" true).Proto with Metadata := some metadata } }

/-- Every bucket of the cache carries the revision that `reloadRevision` gives its
rules. -/
def BucketsLoaded (f : faultDetectCache) : Prop :=
  RevisionLoaded f.allWildcardRules ∧
  (∀ ns b, f.nsWildcardRules.Load ns = some b → RevisionLoaded b) ∧
  ∀ ns svcRules svc b, f.svcSpecificRules.Load ns = some svcRules →
    svcRules.Load svc = some b → RevisionLoaded b

/-! ## Notions used to state the fan-out of the fault-detect rules -/

/-- The place of a bucket in the fault-detect cache. -/
inductive BucketLoc where
  | all
  | ns (ns : String)
  | svc (ns svc : String)
deriving DecidableEq, Repr

/-- The bucket at a place: the global-wildcard bucket, `nsWildcardRules[ns]` or
`svcSpecificRules[ns][svc]`; none when the bucket does not exist. -/
def faultDetectCache.bucketAt (f : faultDetectCache) : BucketLoc → Option ServiceWithFaultDetectRules
  | .all => some f.allWildcardRules
  | .ns ns => f.nsWildcardRules.Load ns
  | .svc ns svc => f.checkServiceSpecificCache svc ns

/-- The places that a record with destination `(ns0, svc0)` addresses: all of them for
the global wildcard; for `(ns0, *)` the namespace-wildcard bucket of `ns0` and the
service buckets of `ns0`; else the service bucket `(ns0, svc0)`. -/
def covers (ns0 svc0 : String) : BucketLoc → Prop
  | .all => ns0 = allMatched ∧ svc0 = allMatched
  | .ns ns => svc0 = allMatched ∧ (ns0 = allMatched ∨ ns0 = ns)
  | .svc ns svc => (svc0 = allMatched ∧ (ns0 = allMatched ∨ ns0 = ns)) ∨ (ns0 = ns ∧ svc0 = svc)

/-- The bucket, when there is one, holds a rule with the id. -/
def holdsRule (b : Option ServiceWithFaultDetectRules) (id : String) : Prop :=
  ∃ bucket, b = some bucket ∧ (bucket.faultDetectRules.Load id).isSome = true

/-- The states of the fault-detect cache reachable from the new cache by calls of
`setFaultDetectRules` on batches whose records all satisfy `allowed`; the watermarks
may change between two calls. -/
inductive RulesReachableBy (allowed : FaultDetectRule → Prop) : faultDetectCache → Prop
  | init : RulesReachableBy allowed newFaultDetectCache
  | setFaultDetectRules {f : faultDetectCache} (fdRules : List FaultDetectRule) :
    RulesReachableBy allowed f → (∀ r ∈ fdRules, allowed r) →
    RulesReachableBy allowed (f.setFaultDetectRules fdRules).1
  | frame {f : faultDetectCache} (bc : baseCache) :
    RulesReachableBy allowed f → RulesReachableBy allowed { f with base := bc }

/-- An API release with every field set. -/
def sampleApiRelease : ApiConfigFileRelease :=
  { Id := some 7, Name := some "rel", Namespace := some "ns", Group := some "g",
    FileName := some "app.yaml", Content := some "k: v", Comment := some "first",
    Md5 := some "d41d", Version := some 3, CreateBy := some "alice", CreateTime := some "t0",
    ModifyBy := some "bob", ModifyTime := some "t1" }

/-- The effect of one record on the buckets of the fault-detect cache: the cache part
of the body of the loop of `setFaultDetectRules`. -/
def stepRule (f : faultDetectCache) (fdRule : FaultDetectRule) : faultDetectCache :=
  if !fdRule.Valid then
    f.deleteFaultDetectRuleFromServiceCache fdRule.ID (getServicesInvolveByFaultDetectRule fdRule)
  else f.storeFaultDetectRuleToServiceCache fdRule (getServicesInvolveByFaultDetectRule fdRule)

/-- Every bucket that holds a rule with the id `id` is one of the buckets that a record
with the destination `(ns0, svc0)` is addressed to. -/
def FannedWithin (id ns0 svc0 : String) (f : faultDetectCache) : Prop :=
  ∀ loc, holdsRule (f.bucketAt loc) id → covers ns0 svc0 loc

/-- The record carries the destination `(ns0, svc0)` if its id is `id`. -/
def DestinationFixed (id ns0 svc0 : String) (r : FaultDetectRule) : Prop :=
  r.ID = id → r.DstNamespace = ns0 ∧ r.DstService = svc0

/-- A tombstone for the rule with the given id and destination. -/
def sampleTombstone (id ns svc : String) : FaultDetectRule :=
  { sampleRule id ns svc with Valid := false }

/-! ## Properties of the string order and of Go maps -/

instance StrLe.isTotal : IsTotal String StrLe where
  total a b := by
    unfold StrLe
    cases h : strLt b a with
    | false => exact Or.inl rfl
    | true => exact Or.inr (strLt_asymm h)

instance StrLe.isTrans : IsTrans String StrLe where
  trans a b c hab hbc := by
    unfold StrLe at *
    cases h : strLt c a with
    | false => rfl
    | true =>
      by_cases hab2 : a = b
      · subst hab2; rw [h] at hbc; cases hbc
      · rcases strLt_total hab2 with h1 | h1
        · have := strLt_trans h h1; rw [this] at hbc; cases hbc
        · rw [h1] at hab; cases hab

instance StrLe.isAntisymm : IsAntisymm String StrLe where
  antisymm a b hab hba := by
    unfold StrLe at *
    by_contra hne
    rcases strLt_total hne with h | h
    · rw [h] at hba; cases hba
    · rw [h] at hab; cases hab

theorem goBytes_append (a b : String) : goBytes (a ++ b) = goBytes a ++ goBytes b := by
  simp [goBytes, String.data_append, List.flatMap_append]

theorem rawLoad_rawStore {V : Type} (l : List (String × V)) (k : String) (v : V)
    (k2 : String) : rawLoad (rawStore l k v) k2 = if k2 = k then some v else rawLoad l k2 := by
  induction l with
  | nil => simp [rawStore, rawLoad]
  | cons p rest ih =>
    obtain ⟨k1, v1⟩ := p
    simp only [rawStore]
    by_cases h1 : k = k1
    · subst h1
      by_cases h3 : k2 = k
      · simp [rawLoad, h3]
      · simp [rawLoad, h3]
    · simp only [h1, if_false]
      by_cases h2 : strLt k k1 = true
      · simp only [h2, if_true]
        by_cases h3 : k2 = k
        · simp [rawLoad, h3]
        · simp [rawLoad, h3]
      · simp only [h2]
        by_cases h3 : k2 = k
        · subst h3
          simp [rawLoad, h1, ih]
        · by_cases h4 : k2 = k1
          · subst h4
            simp [rawLoad, h3]
          · simp [rawLoad, h4, h3, ih]

theorem rawLoad_rawDelete {V : Type} (l : List (String × V)) (k : String) (k2 : String) :
    rawLoad (rawDelete l k) k2 = if k2 = k then none else rawLoad l k2 := by
  induction l with
  | nil => simp [rawDelete, rawLoad]
  | cons p rest ih =>
    obtain ⟨k1, v1⟩ := p
    unfold rawDelete at ih ⊢
    by_cases h1 : k1 = k
    · subst h1
      by_cases h2 : k2 = k1
      · simpa [List.filter_cons, h2] using ih
      · simpa [List.filter_cons, rawLoad, h2] using ih
    · by_cases h2 : k2 = k
      · subst h2
        have h3 : ¬ k2 = k1 := fun e => h1 e.symm
        simpa [List.filter_cons, h1, rawLoad, h3] using ih
      · by_cases h3 : k2 = k1
        · simp [List.filter_cons, h1, rawLoad, h3, h2]
        · simpa [List.filter_cons, h1, rawLoad, h3, h2] using ih

theorem rawLoad_eq_none_of_lt {V : Type} {l : List (String × V)} {k : String}
    (h : ∀ e ∈ l, strLt k e.1 = true) : rawLoad l k = none := by
  induction l with
  | nil => rfl
  | cons p rest ih =>
    obtain ⟨k1, v1⟩ := p
    have h1 : k ≠ k1 := strLt_ne (h (k1, v1) (List.mem_cons_self _ _))
    simp only [rawLoad, h1, if_false]
    exact ih (fun e he => h e (List.mem_cons_of_mem _ he))

theorem rawLoad_mem {V : Type} {l : List (String × V)} {k : String} {v : V}
    (h : rawLoad l k = some v) : (k, v) ∈ l := by
  induction l with
  | nil => simp [rawLoad] at h
  | cons p rest ih =>
    obtain ⟨k1, v1⟩ := p
    simp only [rawLoad] at h
    split_ifs at h with h1
    · cases h; subst h1; exact List.mem_cons_self _ _
    · exact List.mem_cons_of_mem _ (ih h)

theorem rawLoad_of_mem {V : Type} {l : List (String × V)} (hs : KeysSorted l) {k : String}
    {v : V} (h : (k, v) ∈ l) : rawLoad l k = some v := by
  induction l with
  | nil => cases h
  | cons p rest ih =>
    obtain ⟨k1, v1⟩ := p
    have hs2 := List.pairwise_cons.mp hs
    rcases List.mem_cons.mp h with h | h
    · cases h; simp [rawLoad]
    · have h1 : k ≠ k1 := (strLt_ne (hs2.1 (k, v) h)).symm
      simp only [rawLoad, h1, if_false]
      exact ih hs2.2 h

theorem rawLoad_ext {V : Type} : ∀ {l1 l2 : List (String × V)}, KeysSorted l1 →
    KeysSorted l2 → (∀ k, rawLoad l1 k = rawLoad l2 k) → l1 = l2
  | [], [], _, _, _ => rfl
  | [], (k2, v2) :: _, _, _, h => by
    have := h k2; simp [rawLoad] at this
  | (k1, v1) :: _, [], _, _, h => by
    have := h k1; simp [rawLoad] at this
  | (k1, v1) :: t1, (k2, v2) :: t2, hs1, hs2, h => by
    have hs1c := List.pairwise_cons.mp hs1
    have hs2c := List.pairwise_cons.mp hs2
    by_cases hk : k1 = k2
    · subst hk
      have hv : v1 = v2 := by have := h k1; simpa [rawLoad] using this
      subst hv
      have ht : t1 = t2 := by
        apply rawLoad_ext hs1c.2 hs2c.2
        intro k
        by_cases hkk : k = k1
        · subst hkk
          rw [rawLoad_eq_none_of_lt hs1c.1, rawLoad_eq_none_of_lt hs2c.1]
        · have := h k; simpa [rawLoad, hkk] using this
      rw [ht]
    · exfalso
      rcases strLt_total hk with hlt | hlt
      · have h1 := h k1
        have h2 : rawLoad ((k2, v2) :: t2) k1 = none :=
          rawLoad_eq_none_of_lt (by
            intro e he
            rcases List.mem_cons.mp he with he | he
            · subst he; exact hlt
            · exact strLt_trans hlt (hs2c.1 e he))
        rw [h2] at h1; simp [rawLoad] at h1
      · have h1 := h k2
        have h2 : rawLoad ((k1, v1) :: t1) k2 = none :=
          rawLoad_eq_none_of_lt (by
            intro e he
            rcases List.mem_cons.mp he with he | he
            · subst he; exact hlt
            · exact strLt_trans hlt (hs1c.1 e he))
        rw [h2] at h1; simp [rawLoad] at h1

namespace GoMap

variable {V : Type}

theorem ext_entries {m1 m2 : GoMap V} (h : m1.entries = m2.entries) : m1 = m2 := by
  cases m1; cases m2; simp at h; subst h; rfl

/-- Two maps with the same lookups are the same map. -/
theorem ext_Load {m1 m2 : GoMap V} (h : ∀ k, m1.Load k = m2.Load k) : m1 = m2 :=
  ext_entries (rawLoad_ext m1.sorted m2.sorted h)

@[simp] theorem Load_empty (k : String) : (GoMap.empty : GoMap V).Load k = none := rfl

theorem Load_Store (m : GoMap V) (k : String) (v : V) (k2 : String) :
    (m.Store k v).Load k2 = if k2 = k then some v else m.Load k2 :=
  rawLoad_rawStore m.entries k v k2

@[simp] theorem Load_Store_self (m : GoMap V) (k : String) (v : V) :
    (m.Store k v).Load k = some v := by
  simp [Load_Store]

theorem Load_Store_ne (m : GoMap V) {k k2 : String} (v : V) (h : k2 ≠ k) :
    (m.Store k v).Load k2 = m.Load k2 := by
  simp [Load_Store, h]

theorem Load_Delete (m : GoMap V) (k : String) (k2 : String) :
    (m.Delete k).Load k2 = if k2 = k then none else m.Load k2 :=
  rawLoad_rawDelete m.entries k k2

@[simp] theorem Load_Delete_self (m : GoMap V) (k : String) : (m.Delete k).Load k = none := by
  simp [Load_Delete]

theorem Load_Delete_ne (m : GoMap V) {k k2 : String} (h : k2 ≠ k) :
    (m.Delete k).Load k2 = m.Load k2 := by
  simp [Load_Delete, h]

theorem Load_mapValues (f : V → V) (m : GoMap V) (k : String) :
    (m.mapValues f).Load k = (m.Load k).map f := by
  unfold mapValues Load
  simp only
  induction m.entries with
  | nil => rfl
  | cons p rest ih =>
    obtain ⟨k1, v1⟩ := p
    by_cases h : k = k1
    · simp [rawLoad, h]
    · simpa [rawLoad, h] using ih

theorem mem_entries_iff (m : GoMap V) (k : String) (v : V) :
    (k, v) ∈ m.entries ↔ m.Load k = some v :=
  ⟨rawLoad_of_mem m.sorted, rawLoad_mem⟩

theorem mem_values_iff (m : GoMap V) (v : V) : v ∈ m.values ↔ ∃ k, m.Load k = some v := by
  unfold values
  constructor
  · intro h
    obtain ⟨⟨k, v1⟩, hmem, hv⟩ := List.mem_map.mp h
    simp only at hv; subst hv
    exact ⟨k, (mem_entries_iff m k v1).mp hmem⟩
  · rintro ⟨k, hk⟩
    exact List.mem_map.mpr ⟨(k, v), (mem_entries_iff m k v).mpr hk, rfl⟩

end GoMap

/-! ## Revision digests -/

theorem sortStrings_perm (l : List String) : (sortStrings l).Perm l :=
  List.perm_insertionSort StrLe l

theorem sortStrings_sorted (l : List String) : (sortStrings l).Sorted StrLe :=
  List.sorted_insertionSort StrLe l

theorem sortStrings_eq_of_perm {l1 l2 : List String} (h : l1.Perm l2) :
    sortStrings l1 = sortStrings l2 :=
  List.eq_of_perm_of_sorted (((sortStrings_perm l1).trans h).trans (sortStrings_perm l2).symm)
    (sortStrings_sorted l1) (sortStrings_sorted l2)

theorem sortStrings_eq_of_sorted {l sorted : List String} (hp : sorted.Perm l)
    (hs : sorted.Sorted StrLe) : sortStrings l = sorted :=
  List.eq_of_perm_of_sorted ((sortStrings_perm l).trans hp.symm) (sortStrings_sorted l) hs

theorem goBytes_empty : goBytes "" = [] := rfl

theorem ComputeRevisionBySlice_eq (h : Hasher) (l : List String) :
    ComputeRevisionBySlice h l =
      Except.ok (hexEncodeToString (sha1 (h.written ++ goBytes (concatStrings l)))) := by
  induction l generalizing h with
  | nil => simp [ComputeRevisionBySlice, Hasher.Sum, concatStrings, goBytes_empty]
  | cons a rest ih =>
    simp only [ComputeRevisionBySlice, Hasher.Write, concatStrings]
    rw [ih, goBytes_append, List.append_assoc]

theorem ComputeRevision_eq (r : String) (instances : List Instance) :
    ComputeRevision r instances =
      Except.ok (hexEncodeToString (sha1 (goBytes
        (r ++ concatStrings (sortStrings (instances.map Instance.Revision)))))) := by
  unfold ComputeRevision
  simp only [Hasher.Write, Hasher.new, List.nil_append]
  rw [ComputeRevisionBySlice_eq, goBytes_append]
  cases instances with
  | nil => simp [sortStrings]
  | cons a rest => simp

/-- C1: for every service revision `r` and every list of instances, `ComputeRevision`
returns, without error, the lowercase hexadecimal SHA-1 digest of `r` followed by the
concatenation of the instance revisions sorted in Go's string order; for `r = "svc"`
and instance revisions `a`, `b`, `c` (in any order) that is the digest of `"svcabc"`. -/
theorem ComputeRevision_hex_sha1_of_sorted (r : String) (instances : List Instance) :
    (∃ sorted : List String,
      sorted.Perm (instances.map Instance.Revision) ∧ sorted.Sorted StrLe ∧
      ComputeRevision r instances =
        Except.ok (hexEncodeToString (sha1 (goBytes (r ++ concatStrings sorted))))) ∧
    ((instances.map Instance.Revision).Perm ["a", "b", "c"] →
      ComputeRevision "svc" instances =
        Except.ok (hexEncodeToString (sha1 (goBytes "svcabc")))) := by
  refine ⟨⟨sortStrings (instances.map Instance.Revision), sortStrings_perm _,
    sortStrings_sorted _, ComputeRevision_eq r instances⟩, ?_⟩
  intro hp
  have hs : sortStrings (instances.map Instance.Revision) = ["a", "b", "c"] :=
    sortStrings_eq_of_sorted hp.symm (by decide)
  rw [ComputeRevision_eq, hs]
  rfl

/-- C2: `ComputeRevision` does not depend on the order of the instances. -/
theorem ComputeRevision_perm (r : String) (l1 l2 : List Instance) (h : l1.Perm l2) :
    ComputeRevision r l1 = ComputeRevision r l2 := by
  rw [ComputeRevision_eq, ComputeRevision_eq,
    sortStrings_eq_of_perm (h.map Instance.Revision)]

set_option maxRecDepth 100000 in
/-- Witness for C1 (scenario (a) of the specification): service revision `svc` and
instances with revisions `c`, `a`, `b` give the SHA-1 digest of `svcabc`. -/
theorem ComputeRevision_svc_abc :
    ComputeRevision "svc"
      [sampleInstance "i3" "S1" "c" true, sampleInstance "i1" "S1" "a" true,
       sampleInstance "i2" "S1" "b" true] =
      Except.ok "422f0691d4aeb0ee46762091caedeeea32e72755" := by
  rw [(ComputeRevision_hex_sha1_of_sorted "svc" _).2 (by decide)]
  rfl

/-- Witness for C2: two orders of the same two instances. -/
theorem ComputeRevision_perm_witness :
    [sampleInstance "i1" "S1" "a" true, sampleInstance "i2" "S1" "b" true].Perm
      [sampleInstance "i2" "S1" "b" true, sampleInstance "i1" "S1" "a" true] ∧
    ComputeRevision "svc" [sampleInstance "i1" "S1" "a" true, sampleInstance "i2" "S1" "b" true] =
      ComputeRevision "svc"
        [sampleInstance "i2" "S1" "b" true, sampleInstance "i1" "S1" "a" true] :=
  ⟨List.Perm.swap _ _ _, ComputeRevision_perm "svc" _ _ (List.Perm.swap _ _ _)⟩

/-! ## Fault-detect rule cache -/

/-- C3: `GetFaultDetectConfig` returns the service-specific bucket `(ns, name)` when it
exists, otherwise the namespace-wildcard bucket of `ns` when it exists, otherwise the
global-wildcard bucket; an existing service-specific bucket is returned whatever it
holds, also when it holds no rule and the two wildcard buckets hold some. -/
theorem GetFaultDetectConfig_precedence (f : faultDetectCache) (name ns : String) :
    (∀ svcRules rules, f.svcSpecificRules.Load ns = some svcRules →
      svcRules.Load name = some rules → f.GetFaultDetectConfig name ns = rules) ∧
    ((∀ svcRules, f.svcSpecificRules.Load ns = some svcRules → svcRules.Load name = none) →
      ∀ rules, f.nsWildcardRules.Load ns = some rules →
        f.GetFaultDetectConfig name ns = rules) ∧
    ((∀ svcRules, f.svcSpecificRules.Load ns = some svcRules → svcRules.Load name = none) →
      f.nsWildcardRules.Load ns = none →
        f.GetFaultDetectConfig name ns = f.allWildcardRules) ∧
    (∀ svcRules rules, f.svcSpecificRules.Load ns = some svcRules →
      svcRules.Load name = some rules → rules.CountFaultDetectRules = 0 →
      ∀ nsRules, f.nsWildcardRules.Load ns = some nsRules →
        0 < nsRules.CountFaultDetectRules → 0 < f.allWildcardRules.CountFaultDetectRules →
        f.GetFaultDetectConfig name ns = rules) := by
  have first : ∀ svcRules rules, f.svcSpecificRules.Load ns = some svcRules →
      svcRules.Load name = some rules → f.GetFaultDetectConfig name ns = rules := by
    intro svcRules rules h1 h2
    simp [faultDetectCache.GetFaultDetectConfig, faultDetectCache.checkServiceSpecificCache,
      h1, h2]
  have miss : (∀ svcRules, f.svcSpecificRules.Load ns = some svcRules →
      svcRules.Load name = none) → f.checkServiceSpecificCache name ns = none := by
    intro h
    unfold faultDetectCache.checkServiceSpecificCache
    cases h1 : f.svcSpecificRules.Load ns with
    | none => rfl
    | some svcRules => exact h svcRules h1
  refine ⟨first, ?_, ?_, ?_⟩
  · intro h rules h2
    simp [faultDetectCache.GetFaultDetectConfig, miss h,
      faultDetectCache.checkNamespaceSpecificCache, h2]
  · intro h h2
    simp [faultDetectCache.GetFaultDetectConfig, miss h,
      faultDetectCache.checkNamespaceSpecificCache, h2]
  · intro svcRules rules h1 h2 _ _ _ _ _
    exact first svcRules rules h1 h2

/-- Witness for C3: after a global-wildcard rule, a namespace-wildcard rule, a rule
for `(N, Svc1)` and the tombstone of that last rule, the bucket of `(N, Svc1)` exists
and is empty, both wildcard buckets hold a rule, and the lookup returns the empty
bucket. -/
theorem GetFaultDetectConfig_precedence_witness :
    emptyBucketCache.svcSpecificRules.Load "N" =
      some (GoMap.empty.Store "Svc1" (NewServiceWithFaultDetectRules ⟨"N", "Svc1"⟩)) ∧
    (NewServiceWithFaultDetectRules ⟨"N", "Svc1"⟩).CountFaultDetectRules = 0 ∧
    (emptyBucketCache.nsWildcardRules.Load "N").map
      (fun rules => rules.CountFaultDetectRules) = some 1 ∧
    emptyBucketCache.allWildcardRules.CountFaultDetectRules = 1 ∧
    emptyBucketCache.GetFaultDetectConfig "Svc1" "N" =
      NewServiceWithFaultDetectRules ⟨"N", "Svc1"⟩ :=
  ⟨by decide, by decide, by decide, by decide,
    (GetFaultDetectConfig_precedence emptyBucketCache "Svc1" "N").1
      (GoMap.empty.Store "Svc1" (NewServiceWithFaultDetectRules ⟨"N", "Svc1"⟩))
      (NewServiceWithFaultDetectRules ⟨"N", "Svc1"⟩) (by decide) (by decide)⟩

/-- C4, evaluated on the code: after the valid rules `R1` for `(N, *)` and then `R2`
for `(N, Svc1)`, stored from an empty cache in one batch or in two, the lookup of
`(Svc1, N)` returns a bucket that holds `R2` only (`R1` is missing from it), the
lookup of `(Svc2, N)` returns the bucket that holds `R1` only, and the lookup of
`(Svc1, M)` returns the global-wildcard bucket. -/
theorem fanOut_scenario_R1_then_R2 :
    ((newFaultDetectCache.setFaultDetectRules
        [sampleRule "R1" "N" "*", sampleRule "R2" "N" "Svc1"]).1.GetFaultDetectConfig
        "Svc1" "N").faultDetectRules.keys = ["R2"] ∧
    (((newFaultDetectCache.setFaultDetectRules [sampleRule "R1" "N" "*"]).1.setFaultDetectRules
        [sampleRule "R2" "N" "Svc1"]).1.GetFaultDetectConfig
        "Svc1" "N").faultDetectRules.keys = ["R2"] ∧
    ((newFaultDetectCache.setFaultDetectRules
        [sampleRule "R1" "N" "*", sampleRule "R2" "N" "Svc1"]).1.GetFaultDetectConfig
        "Svc2" "N").faultDetectRules.keys = ["R1"] ∧
    (newFaultDetectCache.setFaultDetectRules
        [sampleRule "R1" "N" "*", sampleRule "R2" "N" "Svc1"]).1.GetFaultDetectConfig
        "Svc1" "M" =
      (newFaultDetectCache.setFaultDetectRules
        [sampleRule "R1" "N" "*", sampleRule "R2" "N" "Svc1"]).1.allWildcardRules ∧
    ((newFaultDetectCache.setFaultDetectRules
        [sampleRule "R2" "N" "Svc1", sampleRule "R1" "N" "*"]).1.GetFaultDetectConfig
        "Svc1" "N").faultDetectRules.keys = ["R1", "R2"] := by
  refine ⟨?_, ?_, ?_, ?_, ?_⟩ <;> decide

/-- C5, evaluated on the code: a wildcard rule is not in a matching bucket that was
created after it.  After `R1` for `(N, *)` and then `R2` for `(N, Svc1)`, rule `R1` is
in `nsWildcardRules[N]` and not in the existing bucket `svcSpecificRules[N][Svc1]`;
after `G` for `(*, *)` and then `R1` for `(N, *)`, rule `G` is in `allWildcardRules`
and not in the existing bucket `nsWildcardRules[N]`.  In the opposite orders the
wildcard rule is in the bucket. -/
theorem fanOut_misses_later_buckets :
    (((newFaultDetectCache.setFaultDetectRules
        [sampleRule "R1" "N" "*", sampleRule "R2" "N" "Svc1"]).1.nsWildcardRules.Load "N").map
        (fun rules => rules.faultDetectRules.keys) = some ["R1"] ∧
     (((newFaultDetectCache.setFaultDetectRules
        [sampleRule "R1" "N" "*", sampleRule "R2" "N" "Svc1"]).1.svcSpecificRules.Load "N").bind
        (fun svcRules => svcRules.Load "Svc1")).map
        (fun rules => rules.faultDetectRules.keys) = some ["R2"]) ∧
    ((newFaultDetectCache.setFaultDetectRules
        [sampleRule "G" "*" "*", sampleRule "R1" "N" "*"]).1.allWildcardRules.faultDetectRules.keys
        = ["G"] ∧
     ((newFaultDetectCache.setFaultDetectRules
        [sampleRule "G" "*" "*", sampleRule "R1" "N" "*"]).1.nsWildcardRules.Load "N").map
        (fun rules => rules.faultDetectRules.keys) = some ["R1"]) ∧
    ((((newFaultDetectCache.setFaultDetectRules
        [sampleRule "R2" "N" "Svc1", sampleRule "R1" "N" "*"]).1.svcSpecificRules.Load "N").bind
        (fun svcRules => svcRules.Load "Svc1")).map
        (fun rules => rules.faultDetectRules.keys) = some ["R1", "R2"] ∧
     ((newFaultDetectCache.setFaultDetectRules
        [sampleRule "R1" "N" "*", sampleRule "G" "*" "*"]).1.nsWildcardRules.Load "N").map
        (fun rules => rules.faultDetectRules.keys) = some ["G", "R1"]) := by
  refine ⟨⟨?_, ?_⟩, ⟨?_, ?_⟩, ⟨?_, ?_⟩⟩ <;> decide

/-! ## Instance cache -/

theorem fillInternalLabels_ID (item : Instance) : (fillInternalLabels item).ID = item.ID := by
  unfold fillInternalLabels
  simp only [Instance.Location, Instance.Version, Instance.Protocol]
  split <;> split_ifs <;> rfl

theorem fillInternalLabels_ServiceID (item : Instance) :
    (fillInternalLabels item).ServiceID = item.ServiceID := by
  unfold fillInternalLabels
  simp only [Instance.Location, Instance.Version, Instance.Protocol]
  split <;> split_ifs <;> rfl

theorem fillInternalLabels_Healthy (item : Instance) :
    (fillInternalLabels item).Proto.Healthy = item.Proto.Healthy := by
  unfold fillInternalLabels
  simp only [Instance.Location, Instance.Version, Instance.Protocol]
  split <;> split_ifs <;> rfl

theorem fillInternalLabels_Isolate (item : Instance) :
    (fillInternalLabels item).Proto.Isolate = item.Proto.Isolate := by
  unfold fillInternalLabels
  simp only [Instance.Location, Instance.Version, Instance.Protocol]
  split <;> split_ifs <;> rfl

@[simp] theorem storedInstance_ID (item : Instance) : (storedInstance item).ID = item.ID := by
  unfold storedInstance
  rw [fillInternalLabels_ID]
  split_ifs <;> rfl

@[simp] theorem storedInstance_ServiceID (item : Instance) :
    (storedInstance item).ServiceID = item.ServiceID := by
  unfold storedInstance
  rw [fillInternalLabels_ServiceID]
  split_ifs <;> rfl

theorem setInstancesStep_ic (st : setInstancesLoop) (item : Instance) :
    (setInstancesStep st item).ic =
      { st.ic with
        ids := stepIds st.ic.ids item, services := stepServices st.ic.services item } := by
  have h1 := storedInstance_ID item
  have h2 := storedInstance_ServiceID item
  unfold setInstancesStep stepIds stepServices
  unfold storedInstance at h1 h2 ⊢
  by_cases hv : item.Valid = true
  · simp only [hv] at h1 h2 ⊢
    simp only [Bool.not_true, Bool.false_eq_true, if_false, if_true, h1, h2]
    cases st.ic.services.Load item.ServiceID <;> rfl
  · have hv2 : item.Valid = false := by simpa using hv
    simp only [hv2, Bool.not_false, if_true, Bool.false_eq_true, if_false]

theorem foldl_setInstancesStep_ic (l : List Instance) (st : setInstancesLoop) :
    (l.foldl setInstancesStep st).ic =
      { st.ic with
        ids := l.foldl stepIds st.ic.ids, services := l.foldl stepServices st.ic.services } := by
  induction l generalizing st with
  | nil => rfl
  | cons item rest ih =>
    simp only [List.foldl_cons]
    rw [ih, setInstancesStep_ic]

theorem postProcessService_frame (ic : instanceCache) (s : String) :
    (postProcessService ic s).ids = ic.ids ∧ (postProcessService ic s).services = ic.services ∧
    (postProcessService ic s).base = ic.base ∧
    (postProcessService ic s).instanceCount = ic.instanceCount := by
  unfold postProcessService
  simp only
  cases ic.services.Load s with
  | none => exact ⟨rfl, rfl, rfl, rfl⟩
  | some value => simp only; split_ifs <;> exact ⟨rfl, rfl, rfl, rfl⟩

theorem postProcessUpdatedServices_frame (keys : List String) (ic : instanceCache) :
    (keys.foldl postProcessService ic).ids = ic.ids ∧
    (keys.foldl postProcessService ic).services = ic.services ∧
    (keys.foldl postProcessService ic).base = ic.base ∧
    (keys.foldl postProcessService ic).instanceCount = ic.instanceCount := by
  induction keys generalizing ic with
  | nil => exact ⟨rfl, rfl, rfl, rfl⟩
  | cons k rest ih =>
    simp only [List.foldl_cons]
    obtain ⟨h1, h2, h3, h4⟩ := ih (postProcessService ic k)
    obtain ⟨g1, g2, g3, g4⟩ := postProcessService_frame ic k
    exact ⟨h1.trans g1, h2.trans g2, h3.trans g3, h4.trans g4⟩

theorem setInstances_ids (ic : instanceCache) (ins : List Instance) :
    (ic.setInstances ins).ic.ids = ins.foldl stepIds ic.ids := by
  unfold instanceCache.setInstances
  split_ifs with h
  · have : ins = [] := List.length_eq_zero.mp h
    subst this; rfl
  · simp only [instanceCache.postProcessUpdatedServices]
    rw [(postProcessUpdatedServices_frame _ _).1]
    split_ifs <;> simp [foldl_setInstancesStep_ic]

theorem setInstances_services (ic : instanceCache) (ins : List Instance) :
    (ic.setInstances ins).ic.services = ins.foldl stepServices ic.services := by
  unfold instanceCache.setInstances
  split_ifs with h
  · have : ins = [] := List.length_eq_zero.mp h
    subst this; rfl
  · simp only [instanceCache.postProcessUpdatedServices]
    rw [(postProcessUpdatedServices_frame _ _).2.1]
    split_ifs <;> simp [foldl_setInstancesStep_ic]

theorem setInstances_base (ic : instanceCache) (ins : List Instance) :
    (ic.setInstances ins).ic.base = ic.base := by
  unfold instanceCache.setInstances
  split_ifs with h
  · rfl
  · simp only [instanceCache.postProcessUpdatedServices]
    rw [(postProcessUpdatedServices_frame _ _).2.2.1]
    split_ifs <;> simp [foldl_setInstancesStep_ic]

/-! ### Folds of assignments

Every record of a batch assigns one location of an index (or clears it); the
lemmas below are about folds of such assignments over partial functions. -/

theorem foldl_assign_untouched {K V R : Type} [DecidableEq K] (key : R → K)
    (val : R → Option V) (l : List R) (g : K → Option V) (k : K)
    (h : ∀ r ∈ l, key r ≠ k) :
    l.foldl (fun g r => assign g (key r) (val r)) g k = g k := by
  induction l generalizing g with
  | nil => rfl
  | cons r rest ih =>
    simp only [List.foldl_cons]
    rw [ih _ (fun r2 h2 => h r2 (List.mem_cons_of_mem _ h2))]
    have : k ≠ key r := fun e => h r (List.mem_cons_self _ _) e.symm
    simp [assign, this]

theorem foldl_assign_touched {K V R : Type} [DecidableEq K] (key : R → K)
    (val : R → Option V) (l : List R) (g1 g2 : K → Option V) (k : K)
    (h : ∃ r ∈ l, key r = k) :
    l.foldl (fun g r => assign g (key r) (val r)) g1 k =
      l.foldl (fun g r => assign g (key r) (val r)) g2 k := by
  induction l generalizing g1 g2 with
  | nil => obtain ⟨r, hr, _⟩ := h; cases hr
  | cons r rest ih =>
    simp only [List.foldl_cons]
    by_cases hrest : ∃ r2 ∈ rest, key r2 = k
    · exact ih _ _ hrest
    · have hun : ∀ r2 ∈ rest, key r2 ≠ k := fun r2 h2 e => hrest ⟨r2, h2, e⟩
      rw [foldl_assign_untouched key val rest _ k hun,
        foldl_assign_untouched key val rest _ k hun]
      obtain ⟨r2, hr2, e⟩ := h
      rcases List.mem_cons.mp hr2 with hr2 | hr2
      · subst hr2; simp [assign, e]
      · exact absurd ⟨r2, hr2, e⟩ hrest

theorem foldl_assign_idem {K V R : Type} [DecidableEq K] (key : R → K)
    (val : R → Option V) (l : List R) (g : K → Option V) :
    l.foldl (fun g r => assign g (key r) (val r))
        (l.foldl (fun g r => assign g (key r) (val r)) g) =
      l.foldl (fun g r => assign g (key r) (val r)) g := by
  funext k
  by_cases h : ∃ r ∈ l, key r = k
  · exact foldl_assign_touched key val l _ _ k h
  · exact foldl_assign_untouched key val l _ k (fun r hr e => h ⟨r, hr, e⟩)

/-- The value a record leaves at its own location of an index. -/
theorem stepIds_Load (ids : GoMap Instance) (item : Instance) :
    (stepIds ids item).Load = assign ids.Load item.ID (recordValue item) := by
  funext k
  unfold stepIds assign recordValue
  by_cases hv : item.Valid = true
  · simp [hv, GoMap.Load_Store]
  · simp [hv, GoMap.Load_Delete]

theorem stepServices_bucketLoad (services : GoMap (GoMap Instance)) (item : Instance) :
    (fun p : String × String => bucketLoad (stepServices services item) p.1 p.2) =
      assign (fun p : String × String => bucketLoad services p.1 p.2)
        (item.ServiceID, item.ID) (recordValue item) := by
  funext p
  obtain ⟨s, id⟩ := p
  unfold stepServices assign recordValue bucketLoad
  by_cases hv : item.Valid = true
  · simp only [hv, if_true]
    by_cases hs : s = item.ServiceID
    · subst hs
      by_cases hid : id = item.ID
      · subst hid; simp [GoMap.Load_Store]
      · cases hb : services.Load item.ServiceID <;> simp [GoMap.Load_Store, hid, hb]
    · have : ¬ ((s, id) = (item.ServiceID, item.ID)) := by simp [hs]
      simp [GoMap.Load_Store, hs, this]
  · simp only [hv, Bool.false_eq_true, if_false]
    by_cases hs : s = item.ServiceID
    · subst hs
      by_cases hid : id = item.ID
      · subst hid; cases hb : services.Load item.ServiceID <;> simp [GoMap.Load_Store, hb]
      · cases hb : services.Load item.ServiceID <;> simp [GoMap.Load_Store, GoMap.Load_Delete, hid, hb]
    · have : ¬ ((s, id) = (item.ServiceID, item.ID)) := by simp [hs]
      cases hb : services.Load item.ServiceID <;> simp [GoMap.Load_Store, hs, this]

theorem stepServices_isSome (services : GoMap (GoMap Instance)) (item : Instance)
    (s : String) :
    ((stepServices services item).Load s).isSome =
      ((services.Load s).isSome || (item.Valid && decide (item.ServiceID = s))) := by
  unfold stepServices
  by_cases hv : item.Valid = true
  · simp only [hv, if_true]
    by_cases hs : s = item.ServiceID
    · subst hs; simp
    · have hs2 : ¬ item.ServiceID = s := fun e => hs e.symm
      simp [GoMap.Load_Store, hs, hs2]
  · have hv2 : item.Valid = false := by simpa using hv
    simp only [hv2, Bool.false_eq_true, if_false, Bool.false_and, Bool.or_false]
    cases hb : services.Load item.ServiceID with
    | none => rfl
    | some value =>
      by_cases hs : s = item.ServiceID
      · subst hs; simp [hb]
      · simp [GoMap.Load_Store, hs]

theorem foldl_stepIds_Load (l : List Instance) (ids : GoMap Instance) :
    (l.foldl stepIds ids).Load =
      l.foldl (fun g r => assign g r.ID (recordValue r)) ids.Load := by
  induction l generalizing ids with
  | nil => rfl
  | cons item rest ih => simp only [List.foldl_cons]; rw [ih, stepIds_Load]

theorem foldl_stepServices_bucketLoad (l : List Instance) (services : GoMap (GoMap Instance)) :
    (fun p : String × String => bucketLoad (l.foldl stepServices services) p.1 p.2) =
      l.foldl (fun g r => assign g (r.ServiceID, r.ID) (recordValue r))
        (fun p : String × String => bucketLoad services p.1 p.2) := by
  induction l generalizing services with
  | nil => rfl
  | cons item rest ih => simp only [List.foldl_cons]; rw [ih, stepServices_bucketLoad]

theorem foldl_stepServices_isSome (l : List Instance) (services : GoMap (GoMap Instance))
    (s : String) :
    ((l.foldl stepServices services).Load s).isSome =
      ((services.Load s).isSome || l.any (fun r => r.Valid && decide (r.ServiceID = s))) := by
  induction l generalizing services with
  | nil => simp
  | cons item rest ih =>
    simp only [List.foldl_cons, List.any_cons]
    rw [ih, stepServices_isSome, Bool.or_assoc]

/-- Two by-service indexes with the same buckets and the same entries are equal. -/
theorem services_ext {m1 m2 : GoMap (GoMap Instance)}
    (h1 : ∀ s, (m1.Load s).isSome = (m2.Load s).isSome)
    (h2 : ∀ s id, bucketLoad m1 s id = bucketLoad m2 s id) : m1 = m2 := by
  apply GoMap.ext_Load
  intro s
  have e1 := h1 s
  cases hb1 : m1.Load s with
  | none =>
    cases hb2 : m2.Load s with
    | none => rfl
    | some b2 => rw [hb1, hb2] at e1; cases e1
  | some b1 =>
    cases hb2 : m2.Load s with
    | none => rw [hb1, hb2] at e1; cases e1
    | some b2 =>
      congr 1
      apply GoMap.ext_Load
      intro id
      have := h2 s id
      simpa [bucketLoad, hb1, hb2] using this

/-! ### Invariants of the two indexes -/

theorem foldl_step_preserves (P : GoMap Instance → GoMap (GoMap Instance) → Prop)
    (Q : Instance → Prop)
    (hstep : ∀ ids services item, Q item → P ids services →
      P (stepIds ids item) (stepServices services item)) :
    ∀ (l : List Instance) (ids : GoMap Instance) (services : GoMap (GoMap Instance)),
      (∀ item ∈ l, Q item) → P ids services →
      P (l.foldl stepIds ids) (l.foldl stepServices services)
  | [], _, _, _, h => h
  | item :: rest, ids, services, hq, h => by
    simp only [List.foldl_cons]
    exact foldl_step_preserves P Q hstep rest _ _
      (fun r hr => hq r (List.mem_cons_of_mem _ hr))
      (hstep ids services item (hq item (List.mem_cons_self _ _)) h)

theorem ReachableBy_preserves (P : GoMap Instance → GoMap (GoMap Instance) → Prop)
    (Q : Instance → Prop) (hinit : P GoMap.empty GoMap.empty)
    (hstep : ∀ ids services item, Q item → P ids services →
      P (stepIds ids item) (stepServices services item))
    {ic : instanceCache} (h : ReachableBy Q ic) : P ic.ids ic.services := by
  induction h with
  | init => exact hinit
  | setInstances ins _ hq ih =>
    rw [setInstances_ids, setInstances_services]
    exact foldl_step_preserves P Q hstep ins _ _ hq ih
  | frame bc ch t _ ih => exact ih

theorem recordValue_eq_some {item ins : Instance} (h : recordValue item = some ins) :
    ins = storedInstance item := by
  unfold recordValue at h
  split_ifs at h
  exact (Option.some.inj h).symm

theorem IdsInServices_step (ids : GoMap Instance) (services : GoMap (GoMap Instance))
    (item : Instance) (h : IdsInServices ids services) :
    IdsInServices (stepIds ids item) (stepServices services item) := by
  intro id ins hid
  have hb := congrFun (stepServices_bucketLoad services item) (ins.ServiceID, id)
  simp only at hb
  rw [hb]
  rw [stepIds_Load] at hid
  unfold assign at hid ⊢
  by_cases e : id = item.ID
  · subst e
    simp only [if_true] at hid
    have hins := recordValue_eq_some hid
    subst hins
    simp [hid]
  · simp only [e, if_false] at hid
    have hne : ¬ ((ins.ServiceID, id) = (item.ServiceID, item.ID)) := by simp [e]
    simp only [hne, if_false]
    exact h id ins hid

theorem IdsInServices_of_Reachable {Q : Instance → Prop} {ic : instanceCache}
    (h : ReachableBy Q ic) : IdsInServices ic.ids ic.services :=
  ReachableBy_preserves IdsInServices Q
    (by intro id ins hid; simp at hid)
    (fun ids services item _ hP => IdsInServices_step ids services item hP) h

theorem ServicesInIds_step (svcOf : String → String) (ids : GoMap Instance)
    (services : GoMap (GoMap Instance)) (item : Instance)
    (hitem : item.ServiceID = svcOf item.ID)
    (h : ServicesInIds ids services ∧ ServiceFixed svcOf ids) :
    ServicesInIds (stepIds ids item) (stepServices services item) ∧
      ServiceFixed svcOf (stepIds ids item) := by
  obtain ⟨hb, hf⟩ := h
  constructor
  · intro s id ins hs
    have hb2 := congrFun (stepServices_bucketLoad services item) (s, id)
    simp only at hb2
    rw [hb2] at hs
    rw [stepIds_Load]
    unfold assign at hs ⊢
    by_cases e : (s, id) = (item.ServiceID, item.ID)
    · simp only [e, if_true] at hs
      have hins := recordValue_eq_some hs
      obtain ⟨e1, e2⟩ := Prod.mk.inj e
      subst e1 e2 hins
      simp [hs]
    · simp only [e, if_false] at hs
      obtain ⟨h1, h2⟩ := hb s id ins hs
      refine ⟨h1, ?_⟩
      by_cases e2 : id = item.ID
      · exfalso
        apply e
        have h3 := hf id ins h2
        rw [e2, ← hitem] at h3
        rw [← h1, h3, e2]
      · simp only [e2, if_false]; exact h2
  · intro id ins hid
    rw [stepIds_Load] at hid
    unfold assign at hid
    by_cases e : id = item.ID
    · simp only [e, if_true] at hid
      have hins := recordValue_eq_some hid
      subst hins
      rw [storedInstance_ServiceID, hitem, e]
    · simp only [e, if_false] at hid
      exact hf id ins hid

theorem ServicesInIds_of_Reachable (svcOf : String → String) {ic : instanceCache}
    (h : ReachableBy (fun item => item.ServiceID = svcOf item.ID) ic) :
    ServicesInIds ic.ids ic.services ∧ ServiceFixed svcOf ic.ids :=
  ReachableBy_preserves (fun ids services => ServicesInIds ids services ∧ ServiceFixed svcOf ids)
    (fun item => item.ServiceID = svcOf item.ID)
    ⟨by intro s id ins hs; simp [bucketLoad] at hs, by intro id ins hid; simp at hid⟩
    (fun ids services item hq hP => ServicesInIds_step svcOf ids services item hq hP) h

theorem bucketLoad_eq_some_iff (services : GoMap (GoMap Instance)) (s id : String)
    (ins : Instance) :
    bucketLoad services s id = some ins ↔
      ∃ bucket, services.Load s = some bucket ∧ bucket.Load id = some ins := by
  unfold bucketLoad
  cases services.Load s <;> simp

/-- C6: in every state reachable from the initialized instance cache by `setInstances`
calls, for every id of the by-id index with stored instance `ins`, the bucket of
`ins.ServiceID` exists and maps the id to `ins`. -/
theorem ids_entry_in_service_bucket (ic : instanceCache) (h : Reachable ic) (id : String)
    (ins : Instance) (hid : ic.ids.Load id = some ins) :
    ∃ bucket, ic.services.Load ins.ServiceID = some bucket ∧ bucket.Load id = some ins :=
  (bucketLoad_eq_some_iff _ _ _ _).mp ((IdsInServices_of_Reachable h id ins hid).2)

/-- Witness for C6: the cache after one batch with the instance `i1` of service `S1`. -/
theorem ids_entry_in_service_bucket_witness :
    Reachable (newInstanceCache.setInstances [sampleInstance "i1" "S1" "a" true]).ic ∧
    (newInstanceCache.setInstances [sampleInstance "i1" "S1" "a" true]).ic.ids.Load "i1" =
      some (storedInstance (sampleInstance "i1" "S1" "a" true)) ∧
    ∃ bucket,
      (newInstanceCache.setInstances [sampleInstance "i1" "S1" "a" true]).ic.services.Load "S1" =
        some bucket ∧
      bucket.Load "i1" = some (storedInstance (sampleInstance "i1" "S1" "a" true)) :=
  ⟨ReachableBy.setInstances _ ReachableBy.init (fun _ _ => trivial), by decide,
    ids_entry_in_service_bucket _
      (ReachableBy.setInstances _ ReachableBy.init (fun _ _ => trivial)) "i1"
      (storedInstance (sampleInstance "i1" "S1" "a" true)) (by decide)⟩

/-- Counterexample to C7 as stated: after the record of instance `i1` under service
`S1` and then a record of `i1` under service `S2`, the bucket of `S1` still maps `i1`
to the first record, whose service id is `S1`, while the by-id index maps `i1` to the
second. -/
theorem stale_bucket_entry_after_service_change :
    Reachable
      ((newInstanceCache.setInstances [sampleInstance "i1" "S1" "a" true]).ic.setInstances
        [sampleInstance "i1" "S2" "b" true]).ic ∧
    (storedInstance (sampleInstance "i1" "S1" "a" true)).ServiceID = "S1" ∧
    bucketLoad
      ((newInstanceCache.setInstances [sampleInstance "i1" "S1" "a" true]).ic.setInstances
        [sampleInstance "i1" "S2" "b" true]).ic.services "S1" "i1" =
      some (storedInstance (sampleInstance "i1" "S1" "a" true)) ∧
    ((newInstanceCache.setInstances [sampleInstance "i1" "S1" "a" true]).ic.setInstances
        [sampleInstance "i1" "S2" "b" true]).ic.ids.Load "i1" ≠
      some (storedInstance (sampleInstance "i1" "S1" "a" true)) :=
  ⟨ReachableBy.setInstances _
      (ReachableBy.setInstances _ ReachableBy.init (fun _ _ => trivial)) (fun _ _ => trivial),
    by decide, by decide, by decide⟩

/-- C7, amended: in every state reachable from the initialized instance cache by
`setInstances` calls whose records carry, for every instance id, one and the same
service id (`svcOf`), the two indexes agree in both directions, and every entry of a
service bucket is the entry of its id in the by-id index and belongs to that
service. -/
theorem indexes_agree_of_fixed_service (svcOf : String → String) (ic : instanceCache)
    (h : ReachableBy (fun item => item.ServiceID = svcOf item.ID) ic) :
    (∀ id ins, ic.ids.Load id = some ins ↔
      ∃ bucket, ic.services.Load ins.ServiceID = some bucket ∧ bucket.Load id = some ins) ∧
    (∀ s bucket id ins, ic.services.Load s = some bucket → bucket.Load id = some ins →
      ic.ids.Load id = some ins ∧ ins.ServiceID = s) := by
  have hfwd := IdsInServices_of_Reachable h
  obtain ⟨hbwd, _⟩ := ServicesInIds_of_Reachable svcOf h
  constructor
  · intro id ins
    rw [← bucketLoad_eq_some_iff]
    exact ⟨fun hid => (hfwd id ins hid).2, fun hb => (hbwd _ id ins hb).2⟩
  · intro s bucket id ins hs hb
    have := hbwd s id ins ((bucketLoad_eq_some_iff _ _ _ _).mpr ⟨bucket, hs, hb⟩)
    exact ⟨this.2, this.1⟩

/-- Witness for C7: every instance id belongs to service `S1`; the cache after one
batch with the instance `i1` of service `S1`. -/
theorem indexes_agree_of_fixed_service_witness :
    ReachableBy (fun item => item.ServiceID = (fun _ => "S1") item.ID)
      (newInstanceCache.setInstances [sampleInstance "i1" "S1" "a" true]).ic ∧
    (∀ id ins,
      (newInstanceCache.setInstances [sampleInstance "i1" "S1" "a" true]).ic.ids.Load id =
        some ins ↔
      ∃ bucket,
        (newInstanceCache.setInstances
          [sampleInstance "i1" "S1" "a" true]).ic.services.Load ins.ServiceID = some bucket ∧
        bucket.Load id = some ins) :=
  ⟨ReachableBy.setInstances _ ReachableBy.init (by intro item hitem; simp at hitem; subst hitem; rfl),
    (indexes_agree_of_fixed_service (fun _ => "S1") _
      (ReachableBy.setInstances _ ReachableBy.init
        (by intro item hitem; simp at hitem; subst hitem; rfl))).1⟩

theorem foldl_assign_of_all {K V R : Type} [DecidableEq K] (key : R → K)
    (val : R → Option V) (l : List R) (g : K → Option V) (k : K) (v : Option V)
    (h1 : ∃ r ∈ l, key r = k) (h2 : ∀ r ∈ l, key r = k → val r = v) :
    l.foldl (fun g r => assign g (key r) (val r)) g k = v := by
  induction l generalizing g with
  | nil => obtain ⟨r, hr, _⟩ := h1; cases hr
  | cons r rest ih =>
    simp only [List.foldl_cons]
    by_cases hrest : ∃ r2 ∈ rest, key r2 = k
    · exact ih _ hrest (fun r2 hr2 => h2 r2 (List.mem_cons_of_mem _ hr2))
    · have hun : ∀ r2 ∈ rest, key r2 ≠ k := fun r2 hr2 e => hrest ⟨r2, hr2, e⟩
      rw [foldl_assign_untouched key val rest _ k hun]
      obtain ⟨r2, hr2, e⟩ := h1
      rcases List.mem_cons.mp hr2 with hr2 | hr2
      · subst hr2
        simp [assign, e, h2 r2 (List.mem_cons_self _ _) e]
      · exact absurd ⟨r2, hr2, e⟩ hrest

/-- Counterexample to C9 as stated: instance `i1` is stored under service `S1`; a
batch with the tombstone of `i1` that carries service id `S2` removes `i1` from the
by-id index and leaves it in the bucket of `S1`. -/
theorem tombstone_with_other_service_leaves_entry :
    Reachable (newInstanceCache.setInstances [sampleInstance "i1" "S1" "a" true]).ic ∧
    (sampleInstance "i1" "S2" "a" false).Valid = false ∧
    ((newInstanceCache.setInstances [sampleInstance "i1" "S1" "a" true]).ic.setInstances
        [sampleInstance "i1" "S2" "a" false]).ic.GetInstance "i1" = none ∧
    bucketLoad
      ((newInstanceCache.setInstances [sampleInstance "i1" "S1" "a" true]).ic.setInstances
        [sampleInstance "i1" "S2" "a" false]).ic.services "S1" "i1" =
      some (storedInstance (sampleInstance "i1" "S1" "a" true)) :=
  ⟨ReachableBy.setInstances _ ReachableBy.init (fun _ _ => trivial),
    by decide, by decide, by decide⟩

/-- C9, amended: for every state of the cache, reachable or not, and every batch that
contains a tombstone `t` and no other record for the id of `t`, after `setInstances`
the id is absent from
the by-id index (`GetInstance` returns nil) and from the bucket of the service id that
`t` carries; and when all records, of the batch and of the batches that led to the
state, carry for every instance id one and the same service id (`svcOf`), no service
bucket holds the id. -/
theorem tombstone_removes_instance (svcOf : String → String) (ic : instanceCache)
    (ins : List Instance) (t : Instance) (ht : t ∈ ins)
    (hval : t.Valid = false) (honly : ∀ r ∈ ins, r.ID = t.ID → r = t) :
    (ic.setInstances ins).ic.GetInstance t.ID = none ∧
    bucketLoad (ic.setInstances ins).ic.services t.ServiceID t.ID = none ∧
    (ReachableBy (fun item => item.ServiceID = svcOf item.ID) ic →
      (∀ item ∈ ins, item.ServiceID = svcOf item.ID) →
      ∀ s bucket, (ic.setInstances ins).ic.services.Load s = some bucket →
        bucket.Load t.ID = none) := by
  have hnone : recordValue t = none := by simp [recordValue, hval]
  have hids : (ic.setInstances ins).ic.ids.Load t.ID = none := by
    rw [setInstances_ids, foldl_stepIds_Load]
    exact foldl_assign_of_all _ _ ins _ t.ID none ⟨t, ht, rfl⟩
      (fun r hr e => by rw [honly r hr e]; exact hnone)
  refine ⟨?_, ?_, ?_⟩
  · unfold instanceCache.GetInstance
    split_ifs
    · rfl
    · exact hids
  · rw [setInstances_services]
    have := congrFun (foldl_stepServices_bucketLoad ins ic.services) (t.ServiceID, t.ID)
    simp only at this
    rw [this]
    exact foldl_assign_of_all _ _ ins _ (t.ServiceID, t.ID) none ⟨t, ht, rfl⟩
      (fun r hr e => by rw [honly r hr (Prod.mk.inj e).2]; exact hnone)
  · intro hfix hall s bucket hs
    have hr2 : ReachableBy (fun item => item.ServiceID = svcOf item.ID)
        (ic.setInstances ins).ic := ReachableBy.setInstances ins hfix hall
    obtain ⟨hbwd, _⟩ := ServicesInIds_of_Reachable svcOf hr2
    cases hb : bucket.Load t.ID with
    | none => rfl
    | some x =>
      have := (hbwd s t.ID x ((bucketLoad_eq_some_iff _ _ _ _).mpr ⟨bucket, hs, hb⟩)).2
      rw [hids] at this
      cases this

/-- Witness for C9: instance `i1` of service `S1` is stored, the batch is its
tombstone under `S1`; afterwards `i1` is in no index. -/
theorem tombstone_removes_instance_witness :
    Reachable (newInstanceCache.setInstances [sampleInstance "i1" "S1" "a" true]).ic ∧
    (sampleInstance "i1" "S1" "a" false).Valid = false ∧
    ((newInstanceCache.setInstances [sampleInstance "i1" "S1" "a" true]).ic.setInstances
        [sampleInstance "i1" "S1" "a" false]).ic.GetInstance "i1" = none ∧
    (∀ s bucket,
      ((newInstanceCache.setInstances [sampleInstance "i1" "S1" "a" true]).ic.setInstances
        [sampleInstance "i1" "S1" "a" false]).ic.services.Load s = some bucket →
      bucket.Load "i1" = none) :=
  have hfix : ReachableBy (fun item => item.ServiceID = (fun _ => "S1") item.ID)
      (newInstanceCache.setInstances [sampleInstance "i1" "S1" "a" true]).ic :=
    ReachableBy.setInstances _ ReachableBy.init
      (by intro item hitem; simp at hitem; subst hitem; rfl)
  have hthm := tombstone_removes_instance (fun _ => "S1")
    (newInstanceCache.setInstances [sampleInstance "i1" "S1" "a" true]).ic
    [sampleInstance "i1" "S1" "a" false] (sampleInstance "i1" "S1" "a" false)
    (List.mem_singleton.mpr rfl) rfl
    (by intro r hr _; exact List.mem_singleton.mp hr)
  ⟨ReachableBy.setInstances _ ReachableBy.init (fun _ _ => trivial), rfl, hthm.1,
    hthm.2.2 hfix (by intro item hitem; simp at hitem; subst hitem; rfl)⟩

/-! ### Per-service counts -/

theorem foldl_countInstance (l : List Instance) (c : InstanceCount) :
    l.foldl countInstance c =
      { TotalInstanceCount := c.TotalInstanceCount + l.length
        HealthyInstanceCount :=
          c.HealthyInstanceCount + l.countP (fun i => i.Proto.Healthy && !i.Proto.Isolate)
        IsolateInstanceCount := c.IsolateInstanceCount + l.countP (fun i => i.Proto.Isolate) } := by
  induction l generalizing c with
  | nil => simp
  | cons i rest ih =>
    simp only [List.foldl_cons, ih, countInstance, isInstanceHealthy, List.length_cons,
      List.countP_cons, InstanceCount.mk.injEq]
    refine ⟨?_, ?_, ?_⟩
    · split_ifs <;> omega
    · split_ifs <;> omega
    · omega

theorem countBucket_eq (bucket : GoMap Instance) :
    countBucket bucket =
      { TotalInstanceCount := bucket.len
        HealthyInstanceCount :=
          bucket.values.countP (fun i => i.Proto.Healthy && !i.Proto.Isolate)
        IsolateInstanceCount := bucket.values.countP (fun i => i.Proto.Isolate) } := by
  unfold countBucket
  rw [foldl_countInstance]
  simp [GoMap.len, GoMap.values]

theorem postProcessService_instanceCounts (ic : instanceCache) (k s : String) :
    (postProcessService ic k).instanceCounts.Load s =
      if s = k then countsFor (ic.services.Load k) else ic.instanceCounts.Load s := by
  unfold postProcessService countsFor
  simp only
  cases ic.services.Load k with
  | none => simp only [GoMap.Load_Delete]
  | some value =>
    simp only [countBucket]
    split_ifs <;> simp_all [GoMap.Load_Delete, GoMap.Load_Store]

theorem foldl_postProcessService_instanceCounts (keys : List String) (ic : instanceCache)
    (s : String) :
    (keys.foldl postProcessService ic).instanceCounts.Load s =
      if s ∈ keys then countsFor (ic.services.Load s) else ic.instanceCounts.Load s := by
  induction keys generalizing ic with
  | nil => simp
  | cons k rest ih =>
    simp only [List.foldl_cons]
    rw [ih, (postProcessService_frame ic k).2.1, postProcessService_instanceCounts]
    by_cases h1 : s ∈ rest
    · simp [h1]
    · by_cases h2 : s = k
      · subst h2; simp [h1]
      · simp [h1, h2]

theorem GoMap.mem_keys_iff {V : Type} (m : GoMap V) (k : String) :
    k ∈ m.keys ↔ (m.Load k).isSome = true := by
  unfold GoMap.keys
  constructor
  · intro h
    obtain ⟨⟨k1, v⟩, hmem, hk⟩ := List.mem_map.mp h
    simp only at hk; subst hk
    rw [(GoMap.mem_entries_iff m k1 v).mp hmem]; rfl
  · intro h
    cases hv : m.Load k with
    | none => rw [hv] at h; cases h
    | some v => exact List.mem_map.mpr ⟨(k, v), (GoMap.mem_entries_iff m k v).mpr hv, rfl⟩

theorem setInstancesStep_affect (st : setInstancesLoop) (item : Instance) :
    (setInstancesStep st item).affect = st.affect.Store item.ServiceID true := by
  unfold setInstancesStep
  simp only
  split_ifs <;> rfl

theorem foldl_setInstancesStep_affect (l : List Instance) (st : setInstancesLoop) (s : String) :
    ((l.foldl setInstancesStep st).affect.Load s).isSome =
      ((st.affect.Load s).isSome || l.any (fun r => decide (r.ServiceID = s))) := by
  induction l generalizing st with
  | nil => simp
  | cons item rest ih =>
    simp only [List.foldl_cons, List.any_cons]
    rw [ih, setInstancesStep_affect, GoMap.Load_Store]
    by_cases h : s = item.ServiceID
    · subst h; simp
    · have h2 : ¬ item.ServiceID = s := fun e => h e.symm
      simp [h, h2]

theorem setInstancesStep_instanceCounts (st : setInstancesLoop) (item : Instance) :
    (setInstancesStep st item).ic.instanceCounts = st.ic.instanceCounts := by
  rw [setInstancesStep_ic]

theorem foldl_setInstancesStep_instanceCounts (l : List Instance) (st : setInstancesLoop) :
    (l.foldl setInstancesStep st).ic.instanceCounts = st.ic.instanceCounts := by
  rw [foldl_setInstancesStep_ic]

theorem setInstances_instanceCounts (ic : instanceCache) (ins : List Instance) (s : String) :
    (ic.setInstances ins).ic.instanceCounts.Load s =
      if (∃ r ∈ ins, r.ServiceID = s) then countsFor ((ins.foldl stepServices ic.services).Load s)
      else ic.instanceCounts.Load s := by
  unfold instanceCache.setInstances
  split_ifs with h h2 h3
  · have : ins = [] := List.length_eq_zero.mp h
    subst this; obtain ⟨r, hr, _⟩ := h2; cases hr
  · rfl
  · simp only [instanceCache.postProcessUpdatedServices]
    rw [foldl_postProcessService_instanceCounts]
    have hk : s ∈ (ins.foldl setInstancesStep
        { ic := ic, lastMtime := ic.LastMtime.Unix, update := 0, del := 0,
          affect := GoMap.empty, instanceCount := ic.instanceCount }).affect.keys := by
      rw [GoMap.mem_keys_iff, foldl_setInstancesStep_affect]
      obtain ⟨r, hr, e⟩ := h3
      simp only [GoMap.Load_empty, Option.isSome_none, Bool.false_or, List.any_eq_true,
        decide_eq_true_eq]
      exact ⟨r, hr, e⟩
    rw [if_pos hk]
    split_ifs <;> simp [foldl_setInstancesStep_ic]
  · simp only [instanceCache.postProcessUpdatedServices]
    rw [foldl_postProcessService_instanceCounts]
    have hk : ¬ s ∈ (ins.foldl setInstancesStep
        { ic := ic, lastMtime := ic.LastMtime.Unix, update := 0, del := 0,
          affect := GoMap.empty, instanceCount := ic.instanceCount }).affect.keys := by
      rw [GoMap.mem_keys_iff, foldl_setInstancesStep_affect]
      simp only [GoMap.Load_empty, Option.isSome_none, Bool.false_or, List.any_eq_true,
        decide_eq_true_eq]
      exact h3
    rw [if_neg hk]
    split_ifs <;> simp [foldl_setInstancesStep_ic]

theorem stepServices_Load_ne (services : GoMap (GoMap Instance)) (item : Instance) (s : String)
    (h : item.ServiceID ≠ s) : (stepServices services item).Load s = services.Load s := by
  unfold stepServices
  have h2 : s ≠ item.ServiceID := fun e => h e.symm
  split_ifs
  · exact GoMap.Load_Store_ne _ _ h2
  · cases services.Load item.ServiceID with
    | none => rfl
    | some value => exact GoMap.Load_Store_ne _ _ h2

theorem foldl_stepServices_Load_untouched (l : List Instance)
    (services : GoMap (GoMap Instance)) (s : String) (h : ∀ r ∈ l, r.ServiceID ≠ s) :
    (l.foldl stepServices services).Load s = services.Load s := by
  induction l generalizing services with
  | nil => rfl
  | cons item rest ih =>
    simp only [List.foldl_cons]
    rw [ih _ (fun r hr => h r (List.mem_cons_of_mem _ hr)),
      stepServices_Load_ne _ _ _ (h item (List.mem_cons_self _ _))]

/-- In every reachable state the count entry of every service is the one computed
from its bucket. -/
theorem counts_of_Reachable {Q : Instance → Prop} {ic : instanceCache}
    (h : ReachableBy Q ic) : ∀ s, ic.instanceCounts.Load s = countsFor (ic.services.Load s) := by
  induction h with
  | init => intro s; rfl
  | setInstances ins _ _ ih =>
    intro s
    rw [setInstances_instanceCounts, setInstances_services]
    split_ifs with h1
    · rfl
    · rw [foldl_stepServices_Load_untouched ins _ s (fun r hr e => h1 ⟨r, hr, e⟩)]
      exact ih s
  | frame bc ch t _ ih => exact ih

/-- Counterexample to C8 as stated: after a batch with one instance whose service id is
the empty string, the bucket of that service id holds one instance and
`GetInstancesCountByServiceID("")` reports a total of zero. -/
theorem empty_service_id_count_is_zero :
    Reachable (newInstanceCache.setInstances [sampleInstance "i1" "" "a" true]).ic ∧
    ((newInstanceCache.setInstances [sampleInstance "i1" "" "a" true]).ic.services.Load "").map
      GoMap.len = some 1 ∧
    ((newInstanceCache.setInstances
      [sampleInstance "i1" "" "a" true]).ic.GetInstancesCountByServiceID "").TotalInstanceCount
      = 0 :=
  ⟨ReachableBy.setInstances _ ReachableBy.init (fun _ _ => trivial), by decide, by decide⟩

/-- C8, amended: in every state reachable from the initialized instance cache by
`setInstances` calls, for every service id other than the empty string whose bucket
holds at least one instance, `GetInstancesCountByServiceID` reports as total the number
of entries of the bucket, as healthy the number of entries that are healthy and not
isolated, and as isolated the number of isolated entries; for every service id whose
bucket is missing or empty, and for the empty service id, it reports the all-zero
count. -/
theorem counts_match_buckets (ic : instanceCache) (h : Reachable ic) (s : String) :
    (s ≠ "" → ∀ bucket, ic.services.Load s = some bucket → 0 < bucket.len →
      (ic.GetInstancesCountByServiceID s).TotalInstanceCount = bucket.len ∧
      (ic.GetInstancesCountByServiceID s).HealthyInstanceCount =
        bucket.values.countP (fun i => i.Proto.Healthy && !i.Proto.Isolate) ∧
      (ic.GetInstancesCountByServiceID s).IsolateInstanceCount =
        bucket.values.countP (fun i => i.Proto.Isolate)) ∧
    ((ic.services.Load s = none ∨
        ∃ bucket, ic.services.Load s = some bucket ∧ bucket.len = 0) →
      ic.GetInstancesCountByServiceID s = {}) ∧
    ic.GetInstancesCountByServiceID "" = {} := by
  have hc := counts_of_Reachable h s
  refine ⟨?_, ?_, rfl⟩
  · intro hs bucket hb hpos
    have htot : (countBucket bucket).TotalInstanceCount ≠ 0 := by
      rw [countBucket_eq]; simp only; omega
    unfold instanceCache.GetInstancesCountByServiceID
    rw [if_neg hs, hc, hb]
    simp only [countsFor, htot, if_false]
    rw [countBucket_eq]
    exact ⟨rfl, rfl, rfl⟩
  · intro hb
    unfold instanceCache.GetInstancesCountByServiceID
    split_ifs
    · rfl
    · rw [hc]
      rcases hb with hb | ⟨bucket, hb, hlen⟩
      · rw [hb]; rfl
      · rw [hb]
        have htot : (countBucket bucket).TotalInstanceCount = 0 := by
          rw [countBucket_eq]; exact hlen
        simp [countsFor, htot]

/-- Witness for C8: after a batch with two healthy instances of service `S1`, one of
them isolated, the counts of `S1` are 2 in total, 1 healthy and 1 isolated. -/
theorem counts_match_buckets_witness :
    Reachable countedCache ∧
    (∃ bucket, countedCache.services.Load "S1" = some bucket ∧ 0 < bucket.len ∧
      (countedCache.GetInstancesCountByServiceID "S1").TotalInstanceCount = bucket.len ∧
      (countedCache.GetInstancesCountByServiceID "S1").HealthyInstanceCount =
        bucket.values.countP (fun i => i.Proto.Healthy && !i.Proto.Isolate) ∧
      (countedCache.GetInstancesCountByServiceID "S1").IsolateInstanceCount =
        bucket.values.countP (fun i => i.Proto.Isolate)) ∧
    countedCache.GetInstancesCountByServiceID "S1" =
      { TotalInstanceCount := 2, HealthyInstanceCount := 1, IsolateInstanceCount := 1 } ∧
    countedCache.GetInstancesCountByServiceID "S2" = {} :=
  have hr : Reachable countedCache :=
    ReachableBy.setInstances _ ReachableBy.init (fun _ _ => trivial)
  ⟨hr,
    ⟨(GoMap.empty.Store "i1" (storedInstance (sampleInstance "i1" "S1" "a" true))).Store "i2"
        (storedInstance
          { sampleInstance "i2" "S1" "b" true with
            Proto := { (sampleInstance "i2" "S1" "b" true).Proto with Isolate := true } }),
      by decide, by decide,
      (counts_match_buckets countedCache hr "S1").1 (by decide) _ (by decide) (by decide)⟩,
    by decide, (counts_match_buckets countedCache hr "S2").2.1 (Or.inl (by decide))⟩

/-! ### Applying a batch twice -/

theorem rawStore_length {V : Type} {l : List (String × V)} (hs : KeysSorted l) (k : String)
    (v : V) :
    (rawStore l k v).length = if (rawLoad l k).isSome then l.length else l.length + 1 := by
  induction l with
  | nil => simp [rawStore, rawLoad]
  | cons p rest ih =>
    obtain ⟨k1, v1⟩ := p
    have hs2 := List.pairwise_cons.mp hs
    simp only [rawStore, rawLoad]
    by_cases h1 : k = k1
    · simp [h1]
    · simp only [h1, if_false]
      by_cases h2 : strLt k k1 = true
      · have hn : rawLoad rest k = none :=
          rawLoad_eq_none_of_lt (fun e he => strLt_trans h2 (hs2.1 e he))
        simp [h2, hn]
      · have h2f : strLt k k1 = false := by simpa using h2
        simp only [h2f, Bool.false_eq_true, if_false, List.length_cons, ih hs2.2]
        split_ifs <;> rfl

theorem rawDelete_length {V : Type} {l : List (String × V)} (hs : KeysSorted l) (k : String) :
    (rawDelete l k).length + (if (rawLoad l k).isSome then 1 else 0) = l.length := by
  induction l with
  | nil => simp [rawDelete, rawLoad]
  | cons p rest ih =>
    obtain ⟨k1, v1⟩ := p
    have hs2 := List.pairwise_cons.mp hs
    have ih2 := ih hs2.2
    unfold rawDelete at ih2 ⊢
    by_cases h1 : k1 = k
    · subst h1
      have hn : rawLoad rest k1 = none := rawLoad_eq_none_of_lt hs2.1
      rw [hn] at ih2
      simp only [Option.isSome_none, Bool.false_eq_true, if_false, Nat.add_zero] at ih2
      have hf : List.filter (fun e : String × V => decide (e.1 ≠ k1)) ((k1, v1) :: rest) =
          List.filter (fun e : String × V => decide (e.1 ≠ k1)) rest := by
        simp [List.filter_cons]
      rw [hf, ih2]
      simp [rawLoad]
    · have h2 : ¬ k = k1 := fun e => h1 e.symm
      have hf : List.filter (fun e : String × V => decide (e.1 ≠ k)) ((k1, v1) :: rest) =
          (k1, v1) :: List.filter (fun e : String × V => decide (e.1 ≠ k)) rest := by
        simp [List.filter_cons, h1]
      rw [hf]
      simp only [List.length_cons, rawLoad, h2, if_false]
      omega

theorem GoMap.len_Store {V : Type} (m : GoMap V) (k : String) (v : V) :
    (m.Store k v).len = if (m.Load k).isSome then m.len else m.len + 1 :=
  rawStore_length m.sorted k v

theorem GoMap.len_Delete {V : Type} (m : GoMap V) (k : String) :
    (m.Delete k).len + (if (m.Load k).isSome then 1 else 0) = m.len :=
  rawDelete_length m.sorted k

theorem setInstancesStep_instanceCount (st : setInstancesLoop) (item : Instance) :
    (setInstancesStep st item).instanceCount - ((setInstancesStep st item).ic.ids.len : Int) =
      st.instanceCount - (st.ic.ids.len : Int) := by
  have hic := setInstancesStep_ic st item
  have hids : (setInstancesStep st item).ic.ids = stepIds st.ic.ids item := by rw [hic]
  rw [hids]
  unfold stepIds
  have hcount : (setInstancesStep st item).instanceCount =
      if item.Valid then
        (if (st.ic.ids.Load item.ID).isSome then st.instanceCount else st.instanceCount + 1)
      else
        (if (st.ic.ids.Load item.ID).isSome then st.instanceCount - 1 else st.instanceCount) := by
    unfold setInstancesStep
    by_cases hv : item.Valid = true
    · simp only [hv, Bool.not_true, Bool.false_eq_true, if_false, if_true]
      cases (st.ic.ids.Load item.ID).isSome <;> simp
    · have hv2 : item.Valid = false := by simpa using hv
      simp only [hv2, Bool.not_false, if_true, Bool.false_eq_true, if_false]
  rw [hcount]
  by_cases hv : item.Valid = true
  · simp only [hv, if_true]
    have hl := GoMap.len_Store st.ic.ids item.ID (storedInstance item)
    by_cases he : (st.ic.ids.Load item.ID).isSome = true
    · rw [if_pos he] at hl; rw [if_pos he, hl]
    · rw [if_neg he] at hl; rw [if_neg he, hl]; push_cast; ring
  · simp only [hv, Bool.false_eq_true, if_false]
    have hd := GoMap.len_Delete st.ic.ids item.ID
    by_cases he : (st.ic.ids.Load item.ID).isSome = true
    · rw [if_pos he] at hd; rw [if_pos he]; omega
    · rw [if_neg he] at hd; rw [if_neg he]; omega

theorem foldl_setInstancesStep_instanceCount (l : List Instance) (st : setInstancesLoop) :
    (l.foldl setInstancesStep st).instanceCount -
        ((l.foldl setInstancesStep st).ic.ids.len : Int) =
      st.instanceCount - (st.ic.ids.len : Int) := by
  induction l generalizing st with
  | nil => rfl
  | cons item rest ih =>
    simp only [List.foldl_cons]
    rw [ih, setInstancesStep_instanceCount]

theorem setInstances_instanceCount (ic : instanceCache) (ins : List Instance) :
    (ic.setInstances ins).ic.instanceCount - ((ic.setInstances ins).ic.ids.len : Int) =
      ic.instanceCount - (ic.ids.len : Int) := by
  unfold instanceCache.setInstances
  split_ifs with h
  · rfl
  · simp only [instanceCache.postProcessUpdatedServices]
    rw [(postProcessUpdatedServices_frame _ _).1, (postProcessUpdatedServices_frame _ _).2.2.2]
    have := foldl_setInstancesStep_instanceCount ins
      { ic := ic, lastMtime := ic.LastMtime.Unix, update := 0, del := 0,
        affect := GoMap.empty, instanceCount := ic.instanceCount }
    simp only at this
    split_ifs with hne
    · simpa using this
    · rw [not_not.mp hne]; exact this

theorem setInstancesStep_lastMtime (st : setInstancesLoop) (item : Instance) :
    (setInstancesStep st item).lastMtime =
      if st.lastMtime < item.ModifyTime.Unix then item.ModifyTime.Unix else st.lastMtime := by
  unfold setInstancesStep
  simp only
  split_ifs <;> rfl

theorem foldl_setInstancesStep_lastMtime (l : List Instance) (st : setInstancesLoop) :
    (l.foldl setInstancesStep st).lastMtime = batchLastMtime st.lastMtime l := by
  unfold batchLastMtime
  induction l generalizing st with
  | nil => rfl
  | cons item rest ih =>
    simp only [List.foldl_cons]
    rw [ih, setInstancesStep_lastMtime]

theorem setInstances_lastMtimes (ic : instanceCache) (ins : List Instance) :
    (ic.setInstances ins).lastMtimes =
      if ins.length = 0 then none
      else some (GoMap.empty.Store InstanceName
        (timeUnix (batchLastMtime ic.LastMtime.Unix ins))) := by
  unfold instanceCache.setInstances
  split_ifs
  · rfl
  · simp only [foldl_setInstancesStep_lastMtime]

theorem batchLastMtime_ge (l : List Instance) (m : Int) :
    m ≤ batchLastMtime m l ∧ ∀ r ∈ l, r.ModifyTime.Unix ≤ batchLastMtime m l := by
  unfold batchLastMtime
  induction l generalizing m with
  | nil => exact ⟨le_refl _, fun r hr => by cases hr⟩
  | cons item rest ih =>
    simp only [List.foldl_cons]
    obtain ⟨h1, h2⟩ := ih (if m < item.ModifyTime.Unix then item.ModifyTime.Unix else m)
    constructor
    · refine le_trans ?_ h1
      split_ifs <;> omega
    · intro r hr
      rcases List.mem_cons.mp hr with hr | hr
      · subst hr
        refine le_trans ?_ h1
        split_ifs <;> omega
      · exact h2 r hr

theorem batchLastMtime_of_le (l : List Instance) (m : Int)
    (h : ∀ r ∈ l, r.ModifyTime.Unix ≤ m) : batchLastMtime m l = m := by
  unfold batchLastMtime
  induction l with
  | nil => rfl
  | cons item rest ih =>
    simp only [List.foldl_cons]
    have h1 : ¬ m < item.ModifyTime.Unix := by
      have := h item (List.mem_cons_self _ _); omega
    rw [if_neg h1]
    exact ih (fun r hr => h r (List.mem_cons_of_mem _ hr))

theorem batchLastMtime_idem (l : List Instance) (m : Int) :
    batchLastMtime (batchLastMtime m l) l = batchLastMtime m l :=
  batchLastMtime_of_le l _ (batchLastMtime_ge l m).2

theorem foldl_stepIds_idem (l : List Instance) (ids : GoMap Instance) :
    l.foldl stepIds (l.foldl stepIds ids) = l.foldl stepIds ids := by
  apply GoMap.ext_Load
  intro k
  rw [foldl_stepIds_Load, foldl_stepIds_Load, foldl_assign_idem]

theorem foldl_stepServices_idem (l : List Instance) (services : GoMap (GoMap Instance)) :
    l.foldl stepServices (l.foldl stepServices services) = l.foldl stepServices services := by
  apply services_ext
  · intro s
    rw [foldl_stepServices_isSome, foldl_stepServices_isSome]
    cases (services.Load s).isSome <;>
      cases l.any (fun r => r.Valid && decide (r.ServiceID = s)) <;> rfl
  · intro s id
    have h1 := congrFun (foldl_stepServices_bucketLoad l (l.foldl stepServices services)) (s, id)
    have h2 := congrFun (foldl_stepServices_bucketLoad l services) (s, id)
    simp only at h1 h2
    rw [h1, foldl_stepServices_bucketLoad, foldl_assign_idem, ← h2]

theorem baseCache_LastMtime_of_Store (bc : baseCache) (t : Time)
    (h : bc.lastMtimes = GoMap.empty.Store InstanceName t) : bc.LastMtime InstanceName = t := by
  unfold baseCache.LastMtime
  rw [h, GoMap.Load_Store_self]

/-- C10: `setInstances` is idempotent on the indexes.  For every state of the cache and
every batch (reachable or not, with or without repeated ids), applying the batch to
the state that a first application left, its watermarks `bc` being either as before
or holding the map that the first application returned (what `doCacheUpdate` stores),
leaves the by-id index, the by-service index, the per-service counts and the running
instance count as they are, and returns the same map of last modify times. -/
theorem setInstances_idempotent (ic : instanceCache) (ins : List Instance) (bc : baseCache)
    (hbc : bc.LastMtime InstanceName = ic.LastMtime ∨
      some bc.lastMtimes = (ic.setInstances ins).lastMtimes) :
    ({ (ic.setInstances ins).ic with base := bc }.setInstances ins).ic.ids =
      (ic.setInstances ins).ic.ids ∧
    ({ (ic.setInstances ins).ic with base := bc }.setInstances ins).ic.services =
      (ic.setInstances ins).ic.services ∧
    ({ (ic.setInstances ins).ic with base := bc }.setInstances ins).ic.instanceCounts =
      (ic.setInstances ins).ic.instanceCounts ∧
    ({ (ic.setInstances ins).ic with base := bc }.setInstances ins).ic.instanceCount =
      (ic.setInstances ins).ic.instanceCount ∧
    ({ (ic.setInstances ins).ic with base := bc }.setInstances ins).lastMtimes =
      (ic.setInstances ins).lastMtimes := by
  have hids : ({ (ic.setInstances ins).ic with base := bc }.setInstances ins).ic.ids =
      (ic.setInstances ins).ic.ids := by
    rw [setInstances_ids, setInstances_ids]
    exact foldl_stepIds_idem ins ic.ids
  have hsv : ({ (ic.setInstances ins).ic with base := bc }.setInstances ins).ic.services =
      (ic.setInstances ins).ic.services := by
    rw [setInstances_services, setInstances_services]
    exact foldl_stepServices_idem ins ic.services
  refine ⟨hids, hsv, ?_, ?_, ?_⟩
  · apply GoMap.ext_Load
    intro s
    rw [setInstances_instanceCounts]
    split_ifs with h
    · rw [← setInstances_services, hsv, setInstances_instanceCounts, if_pos h,
        setInstances_services]
    · rfl
  · have h1 : ({ (ic.setInstances ins).ic with base := bc }.setInstances ins).ic.instanceCount -
        (({ (ic.setInstances ins).ic with base := bc }.setInstances ins).ic.ids.len : Int) =
        (ic.setInstances ins).ic.instanceCount - ((ic.setInstances ins).ic.ids.len : Int) :=
      setInstances_instanceCount { (ic.setInstances ins).ic with base := bc } ins
    rw [hids] at h1
    exact sub_left_injective h1
  · rw [setInstances_lastMtimes, setInstances_lastMtimes]
    split_ifs with h
    · rfl
    · congr 3
      rcases hbc with hbc | hbc
      · show batchLastMtime (bc.LastMtime InstanceName).Unix ins = _
        rw [hbc]
      · rw [setInstances_lastMtimes, if_neg h] at hbc
        have := baseCache_LastMtime_of_Store bc _ (Option.some.inj hbc)
        show batchLastMtime (bc.LastMtime InstanceName).Unix ins = _
        rw [this]
        exact batchLastMtime_idem ins _

/-- Witness for C10: the sample batch applied to the initialized cache, the watermarks
updated with the returned map, and the batch applied again. -/
theorem setInstances_idempotent_witness :
    some sampleWatermarks.lastMtimes = (newInstanceCache.setInstances sampleBatch).lastMtimes ∧
    ({ (newInstanceCache.setInstances sampleBatch).ic with
        base := sampleWatermarks }.setInstances sampleBatch).ic.ids =
      (newInstanceCache.setInstances sampleBatch).ic.ids ∧
    ({ (newInstanceCache.setInstances sampleBatch).ic with
        base := sampleWatermarks }.setInstances sampleBatch).ic.services =
      (newInstanceCache.setInstances sampleBatch).ic.services ∧
    ({ (newInstanceCache.setInstances sampleBatch).ic with
        base := sampleWatermarks }.setInstances sampleBatch).ic.instanceCounts =
      (newInstanceCache.setInstances sampleBatch).ic.instanceCounts ∧
    ({ (newInstanceCache.setInstances sampleBatch).ic with
        base := sampleWatermarks }.setInstances sampleBatch).ic.instanceCount =
      (newInstanceCache.setInstances sampleBatch).ic.instanceCount ∧
    ({ (newInstanceCache.setInstances sampleBatch).ic with
        base := sampleWatermarks }.setInstances sampleBatch).lastMtimes =
      (newInstanceCache.setInstances sampleBatch).lastMtimes :=
  ⟨by decide,
    setInstances_idempotent newInstanceCache sampleBatch sampleWatermarks (Or.inr (by decide))⟩

/-! ## Revision worker -/

theorem GetInstancesByServiceID_eq (ic : instanceCache) (serviceID : String)
    (h : serviceID ≠ "") : ic.GetInstancesByServiceID serviceID = bucketInstances ic serviceID := by
  unfold instanceCache.GetInstancesByServiceID bucketInstances
  rw [if_neg h]
  cases ic.services.Load serviceID <;> rfl

theorem processRevisionWorker_valid_eq (nc : CacheManager) (req : revisionNotify)
    (service : Service) (h1 : req.serviceID ≠ "") (h2 : req.valid = true)
    (h3 : nc.GetServiceByID req.serviceID = some service) :
    nc.processRevisionWorker (some req) =
      (nc.setRevisions req.serviceID
        (hexEncodeToString (sha1 (goBytes (service.Revision ++ concatStrings
          (sortStrings ((bucketInstances nc.Instance req.serviceID).map Instance.Revision)))))),
       true) := by
  unfold CacheManager.processRevisionWorker
  simp only [h1, h2, h3, if_false, Bool.not_true, Bool.false_eq_true]
  rw [GetInstancesByServiceID_eq _ _ h1, ComputeRevision_eq]

/-- C14: for a revision job with a non-empty service id and `valid = true` whose
service the service cache finds, with revision `r`, `processRevisionWorker` returns
true, and afterwards the revision entry of the service id is the result of
`ComputeRevision` on `r` and the instances in the bucket `services[serviceID]` of the
instance cache, that is the hexadecimal SHA-1 digest of `r` followed by the sorted
revisions of the instances that the bucket holds under some instance id (of `r` alone
when the service has no bucket); the entries of all other service ids, the service
cache and the instance cache are as before. -/
theorem processRevisionWorker_valid (nc : CacheManager) (req : revisionNotify)
    (service : Service) (h1 : req.serviceID ≠ "") (h2 : req.valid = true)
    (h3 : nc.GetServiceByID req.serviceID = some service) :
    (nc.processRevisionWorker (some req)).2 = true ∧
    (∀ bucket, nc.Instance.services.Load req.serviceID = some bucket →
      ComputeRevision service.Revision bucket.values =
        Except.ok (hexEncodeToString (sha1 (goBytes (service.Revision ++
          concatStrings (sortStrings (bucket.values.map Instance.Revision)))))) ∧
      (nc.processRevisionWorker (some req)).1.revisions.Load req.serviceID =
        some (hexEncodeToString (sha1 (goBytes (service.Revision ++
          concatStrings (sortStrings (bucket.values.map Instance.Revision))))))) ∧
    (nc.Instance.services.Load req.serviceID = none →
      ComputeRevision service.Revision [] =
        Except.ok (hexEncodeToString (sha1 (goBytes service.Revision))) ∧
      (nc.processRevisionWorker (some req)).1.revisions.Load req.serviceID =
        some (hexEncodeToString (sha1 (goBytes service.Revision)))) ∧
    (∀ bucket, nc.Instance.services.Load req.serviceID = some bucket →
      ∀ i, i ∈ bucket.values ↔ ∃ id, bucket.Load id = some i) ∧
    (∀ s, s ≠ req.serviceID →
      (nc.processRevisionWorker (some req)).1.revisions.Load s = nc.revisions.Load s) ∧
    (nc.processRevisionWorker (some req)).1.Instance = nc.Instance ∧
    (nc.processRevisionWorker (some req)).1.GetServiceByID = nc.GetServiceByID := by
  rw [processRevisionWorker_valid_eq nc req service h1 h2 h3]
  have hempty : service.Revision ++
      concatStrings (sortStrings (([] : List Instance).map Instance.Revision)) =
      service.Revision := by
    show service.Revision ++ "" = service.Revision
    exact String.append_empty _
  refine ⟨rfl, ?_, ?_, fun bucket _ i => GoMap.mem_values_iff bucket i, ?_, rfl, rfl⟩
  · intro bucket hb
    refine ⟨ComputeRevision_eq _ _, ?_⟩
    simp [CacheManager.setRevisions, bucketInstances, hb]
  · intro hb
    refine ⟨?_, ?_⟩
    · rw [ComputeRevision_eq, hempty]
    · simp only [CacheManager.setRevisions, bucketInstances, hb, GoMap.Load_Store_self]
      rw [hempty]
  · intro s hs
    simp [CacheManager.setRevisions, GoMap.Load_Store, hs]

set_option maxRecDepth 100000 in
/-- Witness for C14: the service cache knows `S1` with revision `svc`, the bucket of
`S1` holds one instance with revision `a`; the job stores the SHA-1 digest of `svca`. -/
theorem processRevisionWorker_valid_witness :
    ({ GetServiceByID := sampleServiceCache
       Instance := (newInstanceCache.setInstances [sampleInstance "i1" "S1" "a" true]).ic
       revisions := GoMap.empty } : CacheManager).GetServiceByID "S1" =
      some (sampleService "S1" "svc") ∧
    ((newInstanceCache.setInstances [sampleInstance "i1" "S1" "a" true]).ic.services.Load
      "S1").map (fun bucket => bucket.values.map Instance.Revision) = some ["a"] ∧
    (({ GetServiceByID := sampleServiceCache
        Instance := (newInstanceCache.setInstances [sampleInstance "i1" "S1" "a" true]).ic
        revisions := GoMap.empty } : CacheManager).processRevisionWorker
      (some (newRevisionNotify "S1" true))).2 = true ∧
    (({ GetServiceByID := sampleServiceCache
        Instance := (newInstanceCache.setInstances [sampleInstance "i1" "S1" "a" true]).ic
        revisions := GoMap.empty } : CacheManager).processRevisionWorker
      (some (newRevisionNotify "S1" true))).1.revisions.Load "S1" =
      some "16c60a743edbc88a91527729e4a15458a49e1419" :=
  have h := processRevisionWorker_valid
    { GetServiceByID := sampleServiceCache
      Instance := (newInstanceCache.setInstances [sampleInstance "i1" "S1" "a" true]).ic
      revisions := GoMap.empty }
    (newRevisionNotify "S1" true) (sampleService "S1" "svc") (by decide) rfl rfl
  ⟨rfl, by decide, h.1,
    ((h.2.1 (GoMap.empty.Store "i1" (storedInstance (sampleInstance "i1" "S1" "a" true)))
      (by decide)).2).trans (by rfl)⟩

/-- C15: for a revision job with a non-empty service id and `valid = false`,
`processRevisionWorker` returns true, and afterwards the revision map has no entry for
the service id, so that `GetServiceInstanceRevision` returns the empty string for it,
while every other entry is as before. -/
theorem processRevisionWorker_invalid (nc : CacheManager) (req : revisionNotify)
    (h1 : req.serviceID ≠ "") (h2 : req.valid = false) :
    (nc.processRevisionWorker (some req)).2 = true ∧
    (nc.processRevisionWorker (some req)).1.revisions.Load req.serviceID = none ∧
    (nc.processRevisionWorker (some req)).1.GetServiceInstanceRevision req.serviceID = "" ∧
    (∀ s, s ≠ req.serviceID →
      (nc.processRevisionWorker (some req)).1.revisions.Load s = nc.revisions.Load s) := by
  have e : nc.processRevisionWorker (some req) = (nc.deleteRevisions req.serviceID, true) := by
    unfold CacheManager.processRevisionWorker
    simp [h1, h2]
  rw [e]
  refine ⟨rfl, ?_, ?_, ?_⟩
  · simp [CacheManager.deleteRevisions]
  · simp [CacheManager.GetServiceInstanceRevision, CacheManager.readRevisions,
      CacheManager.deleteRevisions]
  · intro s hs
    simp [CacheManager.deleteRevisions, GoMap.Load_Delete, hs]

/-- Witness for C15: the revision map holds an entry for `S1`; the job with
`valid = false` removes it. -/
theorem processRevisionWorker_invalid_witness :
    (({ GetServiceByID := sampleServiceCache
        Instance := newInstanceCache
        revisions := GoMap.empty.Store "S1" "r1" } : CacheManager).processRevisionWorker
      (some (newRevisionNotify "S1" false))).2 = true ∧
    (({ GetServiceByID := sampleServiceCache
        Instance := newInstanceCache
        revisions := GoMap.empty.Store "S1" "r1" } : CacheManager).processRevisionWorker
      (some (newRevisionNotify "S1" false))).1.revisions.Load "S1" = none :=
  have h := processRevisionWorker_invalid
    { GetServiceByID := sampleServiceCache
      Instance := newInstanceCache
      revisions := GoMap.empty.Store "S1" "r1" }
    (newRevisionNotify "S1" false) (by decide) rfl
  ⟨h.1, h.2.1⟩

/-- C16: a dropped revision job changes nothing.  When the request is nil, or its
service id is empty, or it has `valid = true` and the service cache has no service
with that id, `processRevisionWorker` returns false and the manager, its revision map
included, is as before. -/
theorem processRevisionWorker_dropped (nc : CacheManager) (req : Option revisionNotify)
    (h : req = none ∨ ∃ r, req = some r ∧
      (r.serviceID = "" ∨ (r.valid = true ∧ nc.GetServiceByID r.serviceID = none))) :
    (nc.processRevisionWorker req).2 = false ∧
    (nc.processRevisionWorker req).1.revisions = nc.revisions ∧
    (nc.processRevisionWorker req).1.Instance = nc.Instance := by
  rcases h with h | ⟨r, h, h2⟩
  · subst h; exact ⟨rfl, rfl, rfl⟩
  · subst h
    unfold CacheManager.processRevisionWorker
    rcases h2 with h2 | ⟨h2, h3⟩
    · simp [h2]
    · by_cases h4 : r.serviceID = ""
      · simp [h4]
      · simp [h4, h2, h3]

/-- Witness for C16: the service cache does not know `S2`; the job for `S2` is dropped
and the entry of `S1` stays. -/
theorem processRevisionWorker_dropped_witness :
    (({ GetServiceByID := sampleServiceCache
        Instance := newInstanceCache
        revisions := GoMap.empty.Store "S1" "r1" } : CacheManager).processRevisionWorker
      (some (newRevisionNotify "S2" true))).2 = false ∧
    (({ GetServiceByID := sampleServiceCache
        Instance := newInstanceCache
        revisions := GoMap.empty.Store "S1" "r1" } : CacheManager).processRevisionWorker
      (some (newRevisionNotify "S2" true))).1.revisions = GoMap.empty.Store "S1" "r1" :=
  have h := processRevisionWorker_dropped
    { GetServiceByID := sampleServiceCache
      Instance := newInstanceCache
      revisions := GoMap.empty.Store "S1" "r1" }
    (some (newRevisionNotify "S2" true))
    (Or.inr ⟨newRevisionNotify "S2" true, rfl, Or.inr ⟨rfl, rfl⟩⟩)
  ⟨h.1, h.2.1⟩

theorem compositeWrite_eq (h : Hasher) (l : List String) :
    compositeWrite h l =
      Except.ok (hexEncodeToString (sha1 (h.written ++ goBytes (concatStrings l)))) := by
  induction l generalizing h with
  | nil => simp [compositeWrite, Hasher.Sum, concatStrings, goBytes_empty]
  | cons a rest ih =>
    simp only [compositeWrite, Hasher.Write, concatStrings]
    rw [ih, goBytes_append, List.append_assoc]

/-- C18: for every list of revision strings `CompositeComputeRevision` returns, without
error, the lowercase hexadecimal SHA-1 digest of the concatenation of the revisions
sorted in Go's string order, and so returns the same string for two lists that are
permutations of each other. -/
theorem CompositeComputeRevision_hex_sha1_of_sorted (revisions : List String) :
    (∃ sorted : List String,
      sorted.Perm revisions ∧ sorted.Sorted StrLe ∧
      CompositeComputeRevision revisions =
        Except.ok (hexEncodeToString (sha1 (goBytes (concatStrings sorted))))) ∧
    (∀ other : List String, revisions.Perm other →
      CompositeComputeRevision revisions = CompositeComputeRevision other) := by
  constructor
  · refine ⟨sortStrings revisions, sortStrings_perm _, sortStrings_sorted _, ?_⟩
    unfold CompositeComputeRevision
    rw [compositeWrite_eq]
    rfl
  · intro other hp
    unfold CompositeComputeRevision
    rw [sortStrings_eq_of_perm hp]

set_option maxRecDepth 100000 in
/-- Witness for C18: the revisions `b`, `c`, `a` and `a`, `b`, `c` both give the SHA-1
digest of `abc`. -/
theorem CompositeComputeRevision_abc :
    CompositeComputeRevision ["b", "c", "a"] =
      Except.ok "a9993e364706816aba3e25717850c26c9cd0d89d" ∧
    CompositeComputeRevision ["b", "c", "a"] = CompositeComputeRevision ["a", "b", "c"] := by
  have h := (CompositeComputeRevision_hex_sha1_of_sorted ["b", "c", "a"]).2 ["a", "b", "c"]
    (by decide)
  refine ⟨?_, h⟩
  rw [h]
  rfl

/-! ## Base refresh round -/

/-- C19: a refresh round whose fetch fails advances the fetch watermark.  The base
cache is new (`lastFetchTime` 1, so that the next fetch asks for the changes since unix
second 1), the store clock reads 100 and the executor fails: `doCacheUpdate` returns the
error and keeps the last modify times, but `lastFetchTime` is 100 afterwards, not 1, and
the next fetch asks for the changes since unix second 95.  The same round of the
instance cache leaves the indexes untouched and moves the fetch time in the same way.
When the clock cannot be read either, `lastFetchTime` stays 1. -/
theorem failed_round_advances_lastFetchTime :
    newBaseCache.lastFetchTime = 1 ∧
    newBaseCache.LastFetchTime DefaultTimeDiff = timeUnix 1 ∧
    (newBaseCache.doCacheUpdate (Except.ok 100) (Except.error "fetch failed")).2 =
      some "fetch failed" ∧
    (newBaseCache.doCacheUpdate (Except.ok 100) (Except.error "fetch failed")).1.lastFetchTime =
      100 ∧
    (newBaseCache.doCacheUpdate (Except.ok 100)
      (Except.error "fetch failed")).1.LastFetchTime DefaultTimeDiff = timeUnix 95 ∧
    (newBaseCache.doCacheUpdate (Except.ok 100) (Except.error "fetch failed")).1.lastMtimes =
      newBaseCache.lastMtimes ∧
    (newInstanceCache.doCacheUpdate (Except.ok 100) (Except.error "fetch failed")).2 =
      some "fetch failed" ∧
    (newInstanceCache.doCacheUpdate (Except.ok 100) (Except.error "fetch failed")).1.ids =
      newInstanceCache.ids ∧
    (newInstanceCache.doCacheUpdate (Except.ok 100)
      (Except.error "fetch failed")).1.base.LastFetchTime DefaultTimeDiff = timeUnix 95 ∧
    (newBaseCache.doCacheUpdate (Except.error "clock failed")
      (Except.error "fetch failed")).1.lastFetchTime = 1 := by
  refine ⟨?_, ?_, ?_, ?_, ?_, ?_, ?_, ?_, ?_, ?_⟩ <;> decide

/-- In every state: when the executor returns an error, `doCacheUpdate` returns that
error, and `lastFetchTime` afterwards is the store time read at the start of the round
when that read succeeded, and its value from before the call when the read failed. -/
theorem doCacheUpdate_executor_error (bc : baseCache) (storeTime : Except String Int)
    (err : String) :
    (bc.doCacheUpdate storeTime (Except.error err)).2 = some err ∧
    (∀ t, storeTime = Except.ok t →
      (bc.doCacheUpdate storeTime (Except.error err)).1.lastFetchTime = t) ∧
    (∀ e, storeTime = Except.error e →
      (bc.doCacheUpdate storeTime (Except.error err)).1.lastFetchTime = bc.lastFetchTime) := by
  refine ⟨rfl, ?_, ?_⟩
  · intro t ht; subst ht; rfl
  · intro e he; subst he; rfl

/-- C20: when the executor returns an error, the map of last modify times and the
first-update flag are as before the call; so a cache whose rounds have all failed
still reports `isFirstUpdate() = true`. -/
theorem doCacheUpdate_executor_error_keeps_lastMtimes (bc : baseCache)
    (storeTime : Except String Int) (err : String) :
    (bc.doCacheUpdate storeTime (Except.error err)).1.lastMtimes = bc.lastMtimes ∧
    (bc.doCacheUpdate storeTime (Except.error err)).1.firtstUpdate = bc.firtstUpdate ∧
    (∀ rounds : List (Except String Int × String),
      (rounds.foldl (fun b r => (b.doCacheUpdate r.1 (Except.error r.2)).1)
        newBaseCache).isFirstUpdate = true) := by
  refine ⟨rfl, rfl, ?_⟩
  intro rounds
  have key : ∀ (l : List (Except String Int × String)) (b : baseCache),
      b.firtstUpdate = true →
      (l.foldl (fun b r => (b.doCacheUpdate r.1 (Except.error r.2)).1) b).firtstUpdate = true := by
    intro l
    induction l with
    | nil => intro b hb; exact hb
    | cons r rest ih => intro b hb; exact ih _ hb
  exact key rounds newBaseCache rfl

/-- From the initialized base cache a failed round leaves `lastFetchTime` at the store
time 100 when the clock was read, and at its former value 1 when the clock could not be
read. -/
theorem doCacheUpdate_executor_error_witness :
    (newBaseCache.doCacheUpdate (Except.ok 100) (Except.error "fetch failed")).1.lastFetchTime =
      100 ∧
    (newBaseCache.doCacheUpdate (Except.error "clock failed")
      (Except.error "fetch failed")).1.lastFetchTime = 1 :=
  ⟨(doCacheUpdate_executor_error newBaseCache (Except.ok 100) "fetch failed").2.1 100 rfl,
   (doCacheUpdate_executor_error newBaseCache (Except.error "clock failed")
     "fetch failed").2.2 "clock failed" rfl⟩

/-- Witness for C20: after two failed rounds the initialized base cache still reports a
first update. -/
theorem doCacheUpdate_executor_error_keeps_lastMtimes_witness :
    ((newBaseCache.doCacheUpdate (Except.ok 100) (Except.error "fetch failed")).1.doCacheUpdate
      (Except.ok 101) (Except.error "fetch failed")).1.isFirstUpdate = true :=
  (doCacheUpdate_executor_error_keeps_lastMtimes newBaseCache (Except.ok 100)
    "fetch failed").2.2 [(Except.ok 100, "fetch failed"), (Except.ok 101, "fetch failed")]

/-! ## Watermark of the instance cache -/

theorem batchLastMtime_eq_max (l : List Instance) (m : Int) :
    batchLastMtime m l = (l.map fun r => r.ModifyTime.Unix).foldl max m := by
  unfold batchLastMtime
  induction l generalizing m with
  | nil => rfl
  | cons r rest ih =>
    simp only [List.foldl_cons, List.map_cons]
    rw [ih]
    congr 1
    split_ifs with h
    · exact (max_eq_right (le_of_lt h)).symm
    · exact (max_eq_left (not_lt.mp h)).symm

theorem instanceCache_doCacheUpdate_ok (ic : instanceCache) (storeTime : Except String Int)
    (ins : List Instance) :
    (ic.doCacheUpdate storeTime (Except.ok ins)).1.base.lastMtimes =
      if ins.length = 0 then ic.base.lastMtimes
      else GoMap.empty.Store InstanceName (timeUnix (batchLastMtime ic.LastMtime.Unix ins)) := by
  simp only [instanceCache.doCacheUpdate, instanceCache.realUpdate, baseCache.doCacheUpdate,
    setInstances_lastMtimes, setInstances_base]
  split_ifs with h
  · rfl
  · have hl : (GoMap.empty.Store InstanceName
        (timeUnix (batchLastMtime ic.LastMtime.Unix ins))).len ≠ 0 := by
      rw [GoMap.len_Store]
      simp [GoMap.Load_empty]
    simp only [hl, ne_eq, not_false_eq_true, if_true]

/-- C13: the last modify time of the instance cache never decreases in a refresh round.
For every non-empty batch the map that `setInstances` returns holds, under the name of
the instance cache, the maximum of the previous `LastMtime` and the modify times of
the batch, all in whole seconds; after `doCacheUpdate` has stored it `LastMtime` is
that maximum, which is at least the previous value and at least every modify time of
the batch.  For an empty batch `setInstances` returns no map and the stored modify
times, and so `LastMtime`, are as before. -/
theorem lastMtime_is_max_of_batch (ic : instanceCache) (storeTime : Except String Int)
    (ins : List Instance) :
    (ins ≠ [] →
      (ic.setInstances ins).lastMtimes =
        some (GoMap.empty.Store InstanceName
          (timeUnix ((ins.map fun r => r.ModifyTime.Unix).foldl max ic.LastMtime.Unix))) ∧
      (ic.doCacheUpdate storeTime (Except.ok ins)).1.LastMtime =
        timeUnix ((ins.map fun r => r.ModifyTime.Unix).foldl max ic.LastMtime.Unix) ∧
      ic.LastMtime.Unix ≤ (ic.doCacheUpdate storeTime (Except.ok ins)).1.LastMtime.Unix ∧
      ∀ r ∈ ins,
        r.ModifyTime.Unix ≤ (ic.doCacheUpdate storeTime (Except.ok ins)).1.LastMtime.Unix) ∧
    (ins = [] →
      (ic.setInstances ins).lastMtimes = none ∧
      (ic.doCacheUpdate storeTime (Except.ok ins)).1.base.lastMtimes = ic.base.lastMtimes ∧
      (ic.doCacheUpdate storeTime (Except.ok ins)).1.LastMtime = ic.LastMtime) := by
  constructor
  · intro hne
    have hlen : ¬ ins.length = 0 := fun h => hne (List.length_eq_zero.mp h)
    have hm := instanceCache_doCacheUpdate_ok ic storeTime ins
    rw [if_neg hlen] at hm
    have hL : (ic.doCacheUpdate storeTime (Except.ok ins)).1.LastMtime =
        timeUnix (batchLastMtime ic.LastMtime.Unix ins) :=
      baseCache_LastMtime_of_Store _ _ hm
    have hge := batchLastMtime_ge ins ic.LastMtime.Unix
    rw [hL, ← batchLastMtime_eq_max]
    refine ⟨?_, rfl, hge.1, hge.2⟩
    rw [setInstances_lastMtimes, if_neg hlen]
  · intro he
    subst he
    have hm := instanceCache_doCacheUpdate_ok ic storeTime []
    simp only [List.length_nil, if_true] at hm
    refine ⟨by rw [setInstances_lastMtimes]; rfl, hm, ?_⟩
    unfold instanceCache.LastMtime baseCache.LastMtime
    rw [hm]

/-- Witness for C13: a cache whose last modify time is 5 takes a batch with modify
times 3 and 9; the round leaves the last modify time at 9. -/
theorem lastMtime_is_max_of_batch_witness :
    (({ newInstanceCache with
        base := { newBaseCache with
          lastMtimes := GoMap.empty.Store InstanceName (timeUnix 5) } }
      : instanceCache).doCacheUpdate (Except.ok 100)
      (Except.ok [{ sampleInstance "i1" "S1" "a" true with ModifyTime := ⟨3, 7⟩ },
        { sampleInstance "i2" "S1" "b" true with ModifyTime := ⟨9, 1⟩ }])).1.LastMtime =
      timeUnix 9 :=
  ((lastMtime_is_max_of_batch
    { newInstanceCache with
      base := { newBaseCache with lastMtimes := GoMap.empty.Store InstanceName (timeUnix 5) } }
    (Except.ok 100)
    [{ sampleInstance "i1" "S1" "a" true with ModifyTime := ⟨3, 7⟩ },
     { sampleInstance "i2" "S1" "b" true with ModifyTime := ⟨9, 1⟩ }]).1
    (by simp)).2.1.trans (by decide)

/-! ## Stored revisions -/

theorem sha1_length (msg : List UInt8) : (sha1 msg).length = 20 := by
  simp [sha1, beBytes]

theorem hexEncodeToString_length (bs : List UInt8) :
    (hexEncodeToString bs).length = 2 * bs.length := by
  unfold hexEncodeToString
  rw [String.length_mk]
  induction bs with
  | nil => rfl
  | cons b rest ih =>
    simp only [List.flatMap_cons, List.length_append, List.length_cons, List.length_nil, ih]
    omega

theorem ComputeRevision_length (r : String) (instances : List Instance) (v : String)
    (h : ComputeRevision r instances = Except.ok v) :
    v.length = 40 ∧ ∃ bytes, v = hexEncodeToString (sha1 bytes) := by
  rw [ComputeRevision_eq] at h
  injection h with h
  subst h
  exact ⟨by rw [hexEncodeToString_length, sha1_length], _, rfl⟩

theorem processRevisionWorker_revisions (nc : CacheManager) (req : Option revisionNotify)
    (s v : String) (h : (nc.processRevisionWorker req).1.revisions.Load s = some v) :
    nc.revisions.Load s = some v ∨
      (v.length = 40 ∧ ∃ bytes, v = hexEncodeToString (sha1 bytes)) := by
  unfold CacheManager.processRevisionWorker at h
  cases req with
  | none => exact Or.inl h
  | some req =>
    simp only at h
    split_ifs at h with h1 h2
    · exact Or.inl h
    · simp only [CacheManager.deleteRevisions, GoMap.Load_Delete] at h
      split_ifs at h
      exact Or.inl h
    · cases h3 : nc.GetServiceByID req.serviceID with
      | none => rw [h3] at h; exact Or.inl h
      | some service =>
        rw [h3] at h
        simp only at h
        cases h4 : ComputeRevision service.Revision
            (nc.Instance.GetInstancesByServiceID req.serviceID) with
        | error e => rw [h4] at h; exact Or.inl h
        | ok revision =>
          rw [h4] at h
          simp only [CacheManager.setRevisions, GoMap.Load_Store] at h
          split_ifs at h
          · injection h with h
            subst h
            exact Or.inr (ComputeRevision_length _ _ _ h4)
          · exact Or.inl h

theorem RevisionsReachable_stored (nc : CacheManager) (h : RevisionsReachable nc) (s v : String)
    (hv : nc.revisions.Load s = some v) :
    v.length = 40 ∧ ∃ bytes, v = hexEncodeToString (sha1 bytes) := by
  induction h generalizing v with
  | init lookup ic => simp [GoMap.Load_empty] at hv
  | work req _ ih =>
    rcases processRevisionWorker_revisions _ req s v hv with h1 | h1
    · exact ih v h1
    · exact h1
  | caches lookup ic _ ih => exact ih v hv

/-- C17: in every state of the manager reached from an empty revision map by the
revision worker, `GetServiceInstanceRevision` returns the empty string for a service id
exactly when the revision map has no entry for it; a stored entry is what
`GetServiceInstanceRevision` returns, and it is the hexadecimal form of a SHA-1 digest,
40 characters long, so not empty. -/
theorem GetServiceInstanceRevision_empty_iff_absent (nc : CacheManager)
    (h : RevisionsReachable nc) (s : String) :
    (nc.GetServiceInstanceRevision s = "" ↔ nc.revisions.Load s = none) ∧
    (∀ v, nc.revisions.Load s = some v →
      nc.GetServiceInstanceRevision s = v ∧ v ≠ "" ∧ v.length = 40 ∧
      ∃ bytes, v = hexEncodeToString (sha1 bytes)) := by
  have key : ∀ v, nc.revisions.Load s = some v →
      nc.GetServiceInstanceRevision s = v ∧ v ≠ "" ∧ v.length = 40 ∧
      ∃ bytes, v = hexEncodeToString (sha1 bytes) := by
    intro v hv
    have hr := RevisionsReachable_stored nc h s v hv
    refine ⟨?_, ?_, hr.1, hr.2⟩
    · simp [CacheManager.GetServiceInstanceRevision, CacheManager.readRevisions, hv]
    · intro he
      rw [he] at hr
      exact absurd hr.1 (by decide)
  refine ⟨⟨?_, ?_⟩, key⟩
  · intro he
    cases hv : nc.revisions.Load s with
    | none => rfl
    | some v =>
      have := key v hv
      rw [he] at this
      exact absurd this.1.symm this.2.1
  · intro hn
    simp [CacheManager.GetServiceInstanceRevision, CacheManager.readRevisions, hn]

set_option maxRecDepth 100000 in
/-- Witness for C17: after the job for the known service `S1`, whose bucket holds one
instance with revision `a`, the manager answers the digest of `svca` for `S1` and the
empty string for `S2`, for which nothing was computed. -/
theorem GetServiceInstanceRevision_witness :
    RevisionsReachable
      (({ GetServiceByID := sampleServiceCache
          Instance := (newInstanceCache.setInstances [sampleInstance "i1" "S1" "a" true]).ic
          revisions := GoMap.empty } : CacheManager).processRevisionWorker
        (some (newRevisionNotify "S1" true))).1 ∧
    (({ GetServiceByID := sampleServiceCache
        Instance := (newInstanceCache.setInstances [sampleInstance "i1" "S1" "a" true]).ic
        revisions := GoMap.empty } : CacheManager).processRevisionWorker
      (some (newRevisionNotify "S1" true))).1.GetServiceInstanceRevision "S2" = "" ∧
    (({ GetServiceByID := sampleServiceCache
        Instance := (newInstanceCache.setInstances [sampleInstance "i1" "S1" "a" true]).ic
        revisions := GoMap.empty } : CacheManager).processRevisionWorker
      (some (newRevisionNotify "S1" true))).1.GetServiceInstanceRevision "S1" ≠ "" :=
  have hr := RevisionsReachable.work (some (newRevisionNotify "S1" true))
    (RevisionsReachable.init sampleServiceCache
      (newInstanceCache.setInstances [sampleInstance "i1" "S1" "a" true]).ic)
  ⟨hr,
   ((GetServiceInstanceRevision_empty_iff_absent _ hr "S2").1).2 rfl,
   fun he => by
     have h := ((GetServiceInstanceRevision_empty_iff_absent _ hr "S1").1).1 he
     have h2 := (processRevisionWorker_valid_eq
       { GetServiceByID := sampleServiceCache
         Instance := (newInstanceCache.setInstances [sampleInstance "i1" "S1" "a" true]).ic
         revisions := GoMap.empty }
       (newRevisionNotify "S1" true) (sampleService "S1" "svc") (by decide) rfl rfl)
     rw [h2] at h
     simp [CacheManager.setRevisions, newRevisionNotify] at h⟩

/-! ## Order of the records -/

theorem foldl_assign_congr {K V R : Type} [DecidableEq K] (key : R → K)
    (val : R → Option V) (l : List R) (g1 g2 : K → Option V) (k : K) (h : g1 k = g2 k) :
    l.foldl (fun g r => assign g (key r) (val r)) g1 k =
      l.foldl (fun g r => assign g (key r) (val r)) g2 k := by
  induction l generalizing g1 g2 with
  | nil => exact h
  | cons r rest ih =>
    simp only [List.foldl_cons]
    apply ih
    unfold assign
    split_ifs
    · rfl
    · exact h

theorem foldl_assign_filter {K V R : Type} [DecidableEq K] (key : R → K)
    (val : R → Option V) (l : List R) (g : K → Option V) (k : K) :
    l.foldl (fun g r => assign g (key r) (val r)) g k =
      (l.filter fun r => decide (key r = k)).foldl (fun g r => assign g (key r) (val r)) g k := by
  induction l generalizing g with
  | nil => rfl
  | cons r rest ih =>
    by_cases hk : key r = k
    · rw [List.filter_cons_of_pos (by simpa using hk)]
      simp only [List.foldl_cons]
      exact ih _
    · rw [List.filter_cons_of_neg (by simpa using hk)]
      simp only [List.foldl_cons]
      rw [ih]
      apply foldl_assign_congr
      unfold assign
      rw [if_neg (fun e => hk e.symm)]

theorem mem_of_filter_ID_eq {l1 l2 : List Instance}
    (h : ∀ id, (l1.filter fun r => decide (r.ID = id)) = l2.filter fun r => decide (r.ID = id))
    (r : Instance) (hr : r ∈ l1) : r ∈ l2 := by
  have h1 : r ∈ l1.filter fun r2 => decide (r2.ID = r.ID) :=
    List.mem_filter.mpr ⟨hr, by simp⟩
  rw [h r.ID] at h1
  exact (List.mem_filter.mp h1).1

theorem foldl_stepIds_of_filter_eq {l1 l2 : List Instance}
    (h : ∀ id, (l1.filter fun r => decide (r.ID = id)) = l2.filter fun r => decide (r.ID = id))
    (ids : GoMap Instance) : l1.foldl stepIds ids = l2.foldl stepIds ids := by
  apply GoMap.ext_Load
  intro id
  rw [foldl_stepIds_Load, foldl_stepIds_Load,
    foldl_assign_filter (fun r : Instance => r.ID) recordValue l1,
    foldl_assign_filter (fun r : Instance => r.ID) recordValue l2, h id]

theorem filter_pair_eq (l : List Instance) (s id : String) :
    (l.filter fun r => decide ((r.ServiceID, r.ID) = (s, id))) =
      (l.filter fun r => decide (r.ID = id)).filter fun r => decide (r.ServiceID = s) := by
  rw [List.filter_filter]
  apply List.filter_congr
  intro r _
  simp only [Prod.mk.injEq, Bool.decide_and]

theorem foldl_stepServices_of_filter_eq {l1 l2 : List Instance}
    (h : ∀ id, (l1.filter fun r => decide (r.ID = id)) = l2.filter fun r => decide (r.ID = id))
    (services : GoMap (GoMap Instance)) :
    l1.foldl stepServices services = l2.foldl stepServices services := by
  apply services_ext
  · intro s
    rw [foldl_stepServices_isSome, foldl_stepServices_isSome]
    congr 1
    rw [Bool.eq_iff_iff, List.any_eq_true, List.any_eq_true]
    constructor
    · rintro ⟨r, hr, hp⟩
      exact ⟨r, mem_of_filter_ID_eq h r hr, hp⟩
    · rintro ⟨r, hr, hp⟩
      exact ⟨r, mem_of_filter_ID_eq (fun id => (h id).symm) r hr, hp⟩
  · intro s id
    have e1 := congrFun (foldl_stepServices_bucketLoad l1 services) (s, id)
    have e2 := congrFun (foldl_stepServices_bucketLoad l2 services) (s, id)
    simp only at e1 e2
    rw [e1, e2,
      foldl_assign_filter (fun r : Instance => (r.ServiceID, r.ID)) recordValue l1,
      foldl_assign_filter (fun r : Instance => (r.ServiceID, r.ID)) recordValue l2,
      filter_pair_eq, filter_pair_eq, h id]

theorem applyBatches_cons (ic : instanceCache) (b : List Instance) (bs : List (List Instance)) :
    applyBatches ic (b :: bs) = applyBatches (ic.setInstances b).ic bs := rfl

theorem applyBatches_ids (bs : List (List Instance)) (ic : instanceCache) :
    (applyBatches ic bs).ids = bs.flatten.foldl stepIds ic.ids := by
  induction bs generalizing ic with
  | nil => rfl
  | cons b bs ih =>
    rw [applyBatches_cons, ih, setInstances_ids, List.flatten_cons, List.foldl_append]

theorem applyBatches_services (bs : List (List Instance)) (ic : instanceCache) :
    (applyBatches ic bs).services = bs.flatten.foldl stepServices ic.services := by
  induction bs generalizing ic with
  | nil => rfl
  | cons b bs ih =>
    rw [applyBatches_cons, ih, setInstances_services, List.flatten_cons, List.foldl_append]

theorem applyBatches_instanceCounts (bs : List (List Instance)) (ic : instanceCache)
    (s : String) :
    (applyBatches ic bs).instanceCounts.Load s =
      if (∃ r ∈ bs.flatten, r.ServiceID = s) then
        countsFor ((bs.flatten.foldl stepServices ic.services).Load s)
      else ic.instanceCounts.Load s := by
  induction bs generalizing ic with
  | nil => simp [applyBatches]
  | cons b bs ih =>
    rw [applyBatches_cons, ih, setInstances_services, setInstances_instanceCounts,
      List.flatten_cons, List.foldl_append]
    by_cases h1 : ∃ r ∈ bs.flatten, r.ServiceID = s
    · obtain ⟨r, hr, hs⟩ := h1
      rw [if_pos ⟨r, hr, hs⟩, if_pos ⟨r, List.mem_append_right _ hr, hs⟩]
    · rw [if_neg h1]
      rw [foldl_stepServices_Load_untouched bs.flatten _ s (fun r hr e => h1 ⟨r, hr, e⟩)]
      by_cases h2 : ∃ r ∈ b, r.ServiceID = s
      · obtain ⟨r, hr, hs⟩ := h2
        rw [if_pos ⟨r, hr, hs⟩, if_pos ⟨r, List.mem_append_left _ hr, hs⟩]
      · rw [if_neg h2, if_neg]
        rintro ⟨r, hr, hs⟩
        rcases List.mem_append.mp hr with hr | hr
        · exact h2 ⟨r, hr, hs⟩
        · exact h1 ⟨r, hr, hs⟩

theorem applyBatches_instanceCount (bs : List (List Instance)) (ic : instanceCache) :
    (applyBatches ic bs).instanceCount - ((applyBatches ic bs).ids.len : Int) =
      ic.instanceCount - (ic.ids.len : Int) := by
  induction bs generalizing ic with
  | nil => rfl
  | cons b bs ih => rw [applyBatches_cons, ih, setInstances_instanceCount]

/-- C11: the order of the records across different instance ids does not matter.  For
every state of the instance cache and every two sequences of batches whose records,
taken in order, give for each instance id the same records in the same order (so the
second is a reordering of the first that keeps the relative order of the records of
one id), processing the batches with `setInstances` leaves the same by-id index, the
same by-service index, the same per-service counts and the same instance counter.
One call of `setInstances` on each ordering is the case of two one-batch
sequences. -/
theorem setInstances_order_independent (ic : instanceCache) (bs1 bs2 : List (List Instance))
    (h : ∀ id, (bs1.flatten.filter fun r => decide (r.ID = id)) =
      bs2.flatten.filter fun r => decide (r.ID = id)) :
    (applyBatches ic bs1).ids = (applyBatches ic bs2).ids ∧
    (applyBatches ic bs1).services = (applyBatches ic bs2).services ∧
    (applyBatches ic bs1).instanceCounts = (applyBatches ic bs2).instanceCounts ∧
    (applyBatches ic bs1).instanceCount = (applyBatches ic bs2).instanceCount := by
  have hids : (applyBatches ic bs1).ids = (applyBatches ic bs2).ids := by
    rw [applyBatches_ids, applyBatches_ids, foldl_stepIds_of_filter_eq h]
  have hsv : bs1.flatten.foldl stepServices ic.services =
      bs2.flatten.foldl stepServices ic.services := foldl_stepServices_of_filter_eq h _
  refine ⟨hids, ?_, ?_, ?_⟩
  · rw [applyBatches_services, applyBatches_services, hsv]
  · apply GoMap.ext_Load
    intro s
    rw [applyBatches_instanceCounts, applyBatches_instanceCounts, hsv]
    have hiff : (∃ r ∈ bs1.flatten, r.ServiceID = s) ↔ (∃ r ∈ bs2.flatten, r.ServiceID = s) :=
      ⟨fun ⟨r, hr, hs⟩ => ⟨r, mem_of_filter_ID_eq h r hr, hs⟩,
       fun ⟨r, hr, hs⟩ => ⟨r, mem_of_filter_ID_eq (fun id => (h id).symm) r hr, hs⟩⟩
    simp only [hiff]
  · have h1 := applyBatches_instanceCount bs1 ic
    have h2 := applyBatches_instanceCount bs2 ic
    rw [hids] at h1
    linarith

theorem filter_ID_eq_of_pair (a b : Instance) (hab : a.ID ≠ b.ID) (pre post : List Instance)
    (id : String) :
    ((pre ++ a :: b :: post).filter fun r => decide (r.ID = id)) =
      (pre ++ b :: a :: post).filter fun r => decide (r.ID = id) := by
  simp only [List.filter_append, List.filter_cons]
  by_cases ha : a.ID = id
  · have hb : ¬ b.ID = id := fun e => hab (ha.trans e.symm)
    simp [ha, hb]
  · simp [ha]

/-- Witness for C11: a record of `i1` and a tombstone of `i2` before a second record of
`i1`, in one batch, against the tombstone of `i2` first and then the two records of
`i1`, in two batches; the caches agree. -/
theorem setInstances_order_independent_witness :
    [[sampleInstance "i1" "S1" "a" true, sampleInstance "i2" "S1" "b" false,
      sampleInstance "i1" "S1" "c" true]] ≠
      [[sampleInstance "i2" "S1" "b" false, sampleInstance "i1" "S1" "a" true],
       [sampleInstance "i1" "S1" "c" true]] ∧
    (applyBatches countedCache
      [[sampleInstance "i1" "S1" "a" true, sampleInstance "i2" "S1" "b" false,
        sampleInstance "i1" "S1" "c" true]]).ids =
      (applyBatches countedCache
        [[sampleInstance "i2" "S1" "b" false, sampleInstance "i1" "S1" "a" true],
         [sampleInstance "i1" "S1" "c" true]]).ids ∧
    (applyBatches countedCache
      [[sampleInstance "i1" "S1" "a" true, sampleInstance "i2" "S1" "b" false,
        sampleInstance "i1" "S1" "c" true]]).instanceCount =
      (applyBatches countedCache
        [[sampleInstance "i2" "S1" "b" false, sampleInstance "i1" "S1" "a" true],
         [sampleInstance "i1" "S1" "c" true]]).instanceCount :=
  have h := setInstances_order_independent countedCache
    [[sampleInstance "i1" "S1" "a" true, sampleInstance "i2" "S1" "b" false,
      sampleInstance "i1" "S1" "c" true]]
    [[sampleInstance "i2" "S1" "b" false, sampleInstance "i1" "S1" "a" true],
     [sampleInstance "i1" "S1" "c" true]]
    (fun id => filter_ID_eq_of_pair (sampleInstance "i1" "S1" "a" true)
      (sampleInstance "i2" "S1" "b" false) (by decide) [] [sampleInstance "i1" "S1" "c" true] id)
  ⟨by simp, h.1, h.2.2.2⟩

/-! ## Tombstones for every instance -/

theorem postProcessService_revisionCh (ic : instanceCache) (s : String) :
    (postProcessService ic s).revisionCh = ic.revisionCh ++ [newRevisionNotify s true] := by
  unfold postProcessService
  simp only
  cases ic.services.Load s with
  | none => rfl
  | some value => simp only; split_ifs <;> rfl

theorem foldl_postProcessService_revisionCh (keys : List String) (ic : instanceCache) :
    (keys.foldl postProcessService ic).revisionCh =
      ic.revisionCh ++ keys.map fun s => newRevisionNotify s true := by
  induction keys generalizing ic with
  | nil => simp
  | cons k rest ih =>
    simp only [List.foldl_cons, List.map_cons]
    rw [ih, postProcessService_revisionCh, List.append_assoc]
    rfl

theorem setInstances_revisionCh (ic : instanceCache) (ins : List Instance) :
    ∃ keys : List String,
      (ic.setInstances ins).ic.revisionCh =
        ic.revisionCh ++ keys.map (fun s => newRevisionNotify s true) ∧
      ∀ s, s ∈ keys ↔ ∃ r ∈ ins, r.ServiceID = s := by
  by_cases h : ins.length = 0
  · have : ins = [] := List.length_eq_zero.mp h
    subst this
    exact ⟨[], by simp [instanceCache.setInstances], by simp⟩
  · refine ⟨(ins.foldl setInstancesStep
        { ic := ic, lastMtime := ic.LastMtime.Unix, update := 0, del := 0,
          affect := GoMap.empty, instanceCount := ic.instanceCount }).affect.keys, ?_, ?_⟩
    · unfold instanceCache.setInstances
      rw [if_neg h]
      simp only [instanceCache.postProcessUpdatedServices]
      rw [foldl_postProcessService_revisionCh]
      split_ifs <;> simp [foldl_setInstancesStep_ic]
    · intro s
      rw [GoMap.mem_keys_iff, foldl_setInstancesStep_affect]
      simp

theorem processRevisionWorker_frame (nc : CacheManager) (req : Option revisionNotify) :
    (nc.processRevisionWorker req).1.GetServiceByID = nc.GetServiceByID ∧
    (nc.processRevisionWorker req).1.Instance = nc.Instance := by
  unfold CacheManager.processRevisionWorker
  cases req with
  | none => exact ⟨rfl, rfl⟩
  | some req =>
    simp only
    split_ifs
    · exact ⟨rfl, rfl⟩
    · exact ⟨rfl, rfl⟩
    · cases nc.GetServiceByID req.serviceID with
      | none => exact ⟨rfl, rfl⟩
      | some service =>
        simp only
        cases ComputeRevision service.Revision
            (nc.Instance.GetInstancesByServiceID req.serviceID) <;> exact ⟨rfl, rfl⟩

theorem handleJobs_frame (jobs : List revisionNotify) (nc : CacheManager) :
    (nc.handleJobs jobs).GetServiceByID = nc.GetServiceByID ∧
    (nc.handleJobs jobs).Instance = nc.Instance := by
  unfold CacheManager.handleJobs
  induction jobs generalizing nc with
  | nil => exact ⟨rfl, rfl⟩
  | cons j rest ih =>
    simp only [List.foldl_cons]
    obtain ⟨h1, h2⟩ := ih (nc.processRevisionWorker (some j)).1
    obtain ⟨g1, g2⟩ := processRevisionWorker_frame nc (some j)
    exact ⟨h1.trans g1, h2.trans g2⟩

theorem processRevisionWorker_valid_Load (nc : CacheManager) (k s : String) :
    (nc.processRevisionWorker (some (newRevisionNotify k true))).1.revisions.Load s =
      if s = k then jobOutcome nc s (nc.revisions.Load s) else nc.revisions.Load s := by
  by_cases hk : k = ""
  · subst hk
    have e : nc.processRevisionWorker (some (newRevisionNotify "" true)) = (nc, false) := by
      unfold CacheManager.processRevisionWorker
      simp [newRevisionNotify]
    rw [e]
    split_ifs with h
    · subst h; simp [jobOutcome]
    · rfl
  · cases hs : nc.GetServiceByID k with
    | none =>
      have e : nc.processRevisionWorker (some (newRevisionNotify k true)) = (nc, false) := by
        unfold CacheManager.processRevisionWorker
        simp [newRevisionNotify, hk, hs]
      rw [e]
      split_ifs with h2
      · subst h2; simp [jobOutcome, hk, hs]
      · rfl
    | some service =>
      rw [processRevisionWorker_valid_eq nc (newRevisionNotify k true) service hk rfl hs]
      simp only [CacheManager.setRevisions, GoMap.Load_Store, newRevisionNotify]
      split_ifs with h2
      · subst h2; simp [jobOutcome, hk, hs]
      · rfl

theorem jobOutcome_frame (nc1 nc2 : CacheManager) (h1 : nc1.GetServiceByID = nc2.GetServiceByID)
    (h2 : nc1.Instance = nc2.Instance) (s : String) (old : Option String) :
    jobOutcome nc1 s old = jobOutcome nc2 s old := by
  unfold jobOutcome
  rw [h1, h2]

theorem jobOutcome_idem (nc : CacheManager) (s : String) (old : Option String) :
    jobOutcome nc s (jobOutcome nc s old) = jobOutcome nc s old := by
  unfold jobOutcome
  split_ifs
  · rfl
  · cases nc.GetServiceByID s <;> rfl

theorem handleJobs_valid_Load (keys : List String) (nc : CacheManager) (s : String) :
    (nc.handleJobs (keys.map fun k => newRevisionNotify k true)).revisions.Load s =
      if s ∈ keys then jobOutcome nc s (nc.revisions.Load s) else nc.revisions.Load s := by
  induction keys generalizing nc with
  | nil => simp [CacheManager.handleJobs]
  | cons k rest ih =>
    have e : nc.handleJobs ((k :: rest).map fun k => newRevisionNotify k true) =
        (nc.processRevisionWorker (some (newRevisionNotify k true))).1.handleJobs
          (rest.map fun k => newRevisionNotify k true) := rfl
    rw [e, ih, processRevisionWorker_valid_Load]
    obtain ⟨g1, g2⟩ := processRevisionWorker_frame nc (some (newRevisionNotify k true))
    rw [jobOutcome_frame _ nc g1 g2]
    by_cases h1 : s = k
    · subst h1
      simp only [List.mem_cons, true_or, if_true, jobOutcome_idem]
      split_ifs <;> rfl
    · simp only [List.mem_cons, h1, false_or, if_false]

theorem ingest_frame (nc : CacheManager) (ins : List Instance) :
    (nc.ingest ins).GetServiceByID = nc.GetServiceByID ∧
    (nc.ingest ins).Instance = (nc.Instance.setInstances ins).ic := by
  unfold CacheManager.ingest
  exact handleJobs_frame _ _

theorem ingest_revisions (nc : CacheManager) (ins : List Instance) (s : String) :
    (nc.ingest ins).revisions.Load s =
      if (∃ r ∈ ins, r.ServiceID = s) then
        jobOutcome { nc with Instance := (nc.Instance.setInstances ins).ic } s
          (nc.revisions.Load s)
      else nc.revisions.Load s := by
  unfold CacheManager.ingest
  obtain ⟨keys, hq, hkeys⟩ := setInstances_revisionCh nc.Instance ins
  rw [hq, List.drop_left, handleJobs_valid_Load]
  simp only [hkeys]

theorem instanceCount_of_Reachable {Q : Instance → Prop} {ic : instanceCache}
    (h : ReachableBy Q ic) : ic.instanceCount = (ic.ids.len : Int) := by
  induction h with
  | init => rfl
  | @setInstances ic0 ins _ _ ih =>
    have := setInstances_instanceCount ic0 ins
    rw [ih] at this
    linarith
  | frame bc ch t _ ih => exact ih

theorem foldl_stepIds_tombstones (ins : List Instance) (ids : GoMap Instance)
    (htomb : ∀ r ∈ ins, r.Valid = false)
    (hall : ∀ id x, ids.Load id = some x → ∃ r ∈ ins, r.ID = id) :
    ins.foldl stepIds ids = GoMap.empty := by
  apply GoMap.ext_Load
  intro id
  rw [foldl_stepIds_Load, GoMap.Load_empty]
  by_cases h : ∃ r ∈ ins, r.ID = id
  · apply foldl_assign_of_all (fun r : Instance => r.ID) recordValue ins _ id none h
    intro r hr _
    simp [recordValue, htomb r hr]
  · rw [foldl_assign_untouched (fun r : Instance => r.ID) recordValue ins _ id
      (fun r hr e => h ⟨r, hr, e⟩)]
    cases hx : ids.Load id with
    | none => rfl
    | some x => exact absurd (hall id x hx) h

theorem foldl_stepServices_tombstones_bucketLoad (ins : List Instance) (ids : GoMap Instance)
    (services : GoMap (GoMap Instance)) (hinv : ServicesInIds ids services)
    (htomb : ∀ r ∈ ins, r.Valid = false)
    (hall : ∀ id x, ids.Load id = some x → ∃ r ∈ ins, r.ID = id ∧ r.ServiceID = x.ServiceID)
    (s id : String) : bucketLoad (ins.foldl stepServices services) s id = none := by
  have e := congrFun (foldl_stepServices_bucketLoad ins services) (s, id)
  simp only at e
  rw [e]
  by_cases h : ∃ r ∈ ins, (r.ServiceID, r.ID) = (s, id)
  · apply foldl_assign_of_all (fun r : Instance => (r.ServiceID, r.ID)) recordValue ins _
      (s, id) none h
    intro r hr _
    simp [recordValue, htomb r hr]
  · rw [foldl_assign_untouched (fun r : Instance => (r.ServiceID, r.ID)) recordValue ins _ (s, id)
      (fun r hr e => h ⟨r, hr, e⟩)]
    simp only
    cases hx : bucketLoad services s id with
    | none => rfl
    | some x =>
      obtain ⟨h1, h2⟩ := hinv s id x hx
      obtain ⟨r, hr, h3, h4⟩ := hall id x h2
      exact absurd ⟨r, hr, by rw [h3, h4, h1]⟩ h

theorem bucket_eq_empty_of_bucketLoad {services : GoMap (GoMap Instance)} {s : String}
    {bucket : GoMap Instance} (hb : services.Load s = some bucket)
    (h : ∀ id, bucketLoad services s id = none) : bucket = GoMap.empty := by
  apply GoMap.ext_Load
  intro id
  have := h id
  unfold bucketLoad at this
  rw [hb] at this
  rw [GoMap.Load_empty]
  exact this

theorem foldl_stepServices_tombstones_Load (ins : List Instance) (ids : GoMap Instance)
    (services : GoMap (GoMap Instance)) (hinv : ServicesInIds ids services)
    (htomb : ∀ r ∈ ins, r.Valid = false)
    (hall : ∀ id x, ids.Load id = some x → ∃ r ∈ ins, r.ID = id ∧ r.ServiceID = x.ServiceID)
    (s : String) :
    (ins.foldl stepServices services).Load s =
      (services.Load s).map fun _ => GoMap.empty := by
  have h1 := foldl_stepServices_isSome ins services s
  have hany : ins.any (fun r => r.Valid && decide (r.ServiceID = s)) = false := by
    rw [List.any_eq_false]
    intro r hr
    simp [htomb r hr]
  rw [hany, Bool.or_false] at h1
  cases hb : (ins.foldl stepServices services).Load s with
  | none =>
    rw [hb] at h1
    cases hs : services.Load s with
    | none => rfl
    | some b => rw [hs] at h1; simp at h1
  | some bucket =>
    rw [hb] at h1
    have he := bucket_eq_empty_of_bucketLoad hb
      (foldl_stepServices_tombstones_bucketLoad ins ids services hinv htomb hall s)
    cases hs : services.Load s with
    | none => rw [hs] at h1; simp at h1
    | some b => rw [he]; rfl

theorem countsFor_map_empty (b : Option (GoMap Instance)) :
    countsFor (b.map fun _ => GoMap.empty) = none := by
  cases b with
  | none => rfl
  | some b => rfl

set_option maxRecDepth 100000 in
/-- Counterexample to C12 as stated: the cache holds the one instance `i1` of the
service `S1`, which the service cache knows, and the revision of `S1` has been
computed.  After the tombstone of `i1` and the handling of its revision job the by-id
index is empty, but the by-service index still holds the bucket of `S1`, now empty,
and the revision map still holds an entry for `S1`: the digest of the service revision
`svc` alone. -/
theorem tombstones_leave_bucket_and_revision :
    sampleManager.Instance.ids.keys = ["i1"] ∧
    (sampleManager.Instance.ids.Load "i1").map (fun x => x.ServiceID) = some "S1" ∧
    (sampleManager.ingest [sampleInstance "i1" "S1" "a" false]).Instance.ids = GoMap.empty ∧
    (sampleManager.ingest [sampleInstance "i1" "S1" "a" false]).Instance.services.Load "S1" =
      some GoMap.empty ∧
    (sampleManager.ingest [sampleInstance "i1" "S1" "a" false]).Instance.services ≠
      GoMap.empty ∧
    (sampleManager.ingest [sampleInstance "i1" "S1" "a" false]).revisions.Load "S1" =
      some "a0089182becd921781d5ba1e58fa4d129b24060f" ∧
    (sampleManager.ingest [sampleInstance "i1" "S1" "a" false]).GetServiceRevisionCount = 1 := by
  refine ⟨rfl, rfl, rfl, rfl, ?_, rfl, rfl⟩
  intro h
  have h2 : (sampleManager.ingest [sampleInstance "i1" "S1" "a" false]).Instance.services.Load
      "S1" = some GoMap.empty := rfl
  rw [h] at h2
  exact absurd h2 (by simp)

/-- C12, amended: in a state of the instance cache reached by batches in which every
instance id keeps one service id, after `setInstances` has processed a batch of
tombstones that has, for every instance id present, a tombstone with the service id of
the stored instance, and after the revision worker has handled the jobs of that call:
the by-id index is empty; the by-service index keeps the buckets it had, each of them
empty, so that `GetInstancesByServiceID` finds no instance; no per-service count is
left and the instance counter is zero.  The revision map is not emptied: for a
non-empty service id of the batch that the service cache knows it holds the digest of
the service revision alone, and every other entry is as before. -/
theorem tombstones_for_every_instance (svcOf : String → String) (nc : CacheManager)
    (ins : List Instance)
    (hreach : ReachableBy (fun item => item.ServiceID = svcOf item.ID) nc.Instance)
    (htomb : ∀ r ∈ ins, r.Valid = false)
    (hall : ∀ id x, nc.Instance.ids.Load id = some x →
      ∃ r ∈ ins, r.ID = id ∧ r.ServiceID = x.ServiceID) :
    (nc.ingest ins).Instance.ids = GoMap.empty ∧
    (∀ s, (nc.ingest ins).Instance.services.Load s =
      (nc.Instance.services.Load s).map fun _ => GoMap.empty) ∧
    (∀ s, (nc.ingest ins).Instance.GetInstancesByServiceID s = []) ∧
    (nc.ingest ins).Instance.instanceCounts = GoMap.empty ∧
    (nc.ingest ins).Instance.instanceCount = 0 ∧
    (∀ s service, s ≠ "" → (∃ r ∈ ins, r.ServiceID = s) →
      nc.GetServiceByID s = some service →
      (nc.ingest ins).revisions.Load s =
        some (hexEncodeToString (sha1 (goBytes service.Revision)))) ∧
    (∀ s, (s = "" ∨ (∀ r ∈ ins, r.ServiceID ≠ s) ∨ nc.GetServiceByID s = none) →
      (nc.ingest ins).revisions.Load s = nc.revisions.Load s) := by
  have hinv := (ServicesInIds_of_Reachable svcOf hreach).1
  have hI := (ingest_frame nc ins).2
  have hids : (nc.Instance.setInstances ins).ic.ids = GoMap.empty := by
    rw [setInstances_ids]
    exact foldl_stepIds_tombstones ins _ htomb
      (fun id x hx => (hall id x hx).imp fun r hr => ⟨hr.1, hr.2.1⟩)
  have hsv : ∀ s, (nc.Instance.setInstances ins).ic.services.Load s =
      (nc.Instance.services.Load s).map fun _ => GoMap.empty := by
    intro s
    rw [setInstances_services]
    exact foldl_stepServices_tombstones_Load ins _ _ hinv htomb hall s
  have hbucket : ∀ s, bucketInstances (nc.Instance.setInstances ins).ic s = [] := by
    intro s
    unfold bucketInstances
    rw [hsv s]
    cases nc.Instance.services.Load s <;> rfl
  rw [hI]
  refine ⟨hids, hsv, ?_, ?_, ?_, ?_, ?_⟩
  · intro s
    by_cases hs : s = ""
    · subst hs; rfl
    · rw [GetInstancesByServiceID_eq _ _ hs]
      exact hbucket s
  · apply GoMap.ext_Load
    intro s
    rw [GoMap.Load_empty]
    have hs2 := hsv s
    rw [setInstances_services] at hs2
    rw [setInstances_instanceCounts]
    split_ifs with hmem
    · rw [hs2, countsFor_map_empty]
    · rw [counts_of_Reachable hreach s,
        ← foldl_stepServices_Load_untouched ins _ s (fun r hr e => hmem ⟨r, hr, e⟩), hs2,
        countsFor_map_empty]
  · have h1 := setInstances_instanceCount nc.Instance ins
    rw [instanceCount_of_Reachable hreach, hids] at h1
    have h2 : ((GoMap.empty : GoMap Instance).len : Int) = 0 := rfl
    rw [h2] at h1
    linarith
  · intro s service hs hmem hknown
    rw [ingest_revisions, if_pos hmem]
    unfold jobOutcome
    rw [if_neg hs]
    simp only [hknown, hbucket s]
    simp [concatStrings, sortStrings]
  · intro s hcase
    rw [ingest_revisions]
    split_ifs with hmem
    · unfold jobOutcome
      rcases hcase with h | h | h
      · rw [if_pos h]
      · obtain ⟨r, hr, e⟩ := hmem
        exact absurd e (h r hr)
      · split_ifs
        · rfl
        · simp only [h]
    · rfl

/-- Witness for C12: the sample manager, holding the instance `i1` of the known service
`S1`, takes the tombstone of `i1`. -/
theorem tombstones_for_every_instance_witness :
    (sampleManager.ingest [sampleInstance "i1" "S1" "a" false]).Instance.ids = GoMap.empty ∧
    (sampleManager.ingest [sampleInstance "i1" "S1" "a" false]).Instance.instanceCounts =
      GoMap.empty ∧
    (sampleManager.ingest [sampleInstance "i1" "S1" "a" false]).revisions.Load "S1" =
      some (hexEncodeToString (sha1 (goBytes "svc"))) := by
  have hreach : ReachableBy (fun item => item.ServiceID = (fun _ => "S1") item.ID)
      sampleManager.Instance := by
    have e : sampleManager.Instance =
        (newInstanceCache.setInstances [sampleInstance "i1" "S1" "a" true]).ic :=
      (ingest_frame _ _).2
    rw [e]
    refine ReachableBy.setInstances _ ReachableBy.init ?_
    intro item hi
    rw [List.mem_singleton] at hi
    subst hi
    rfl
  have h := tombstones_for_every_instance (fun _ => "S1") sampleManager
    [sampleInstance "i1" "S1" "a" false] hreach
    (by intro r hr; rw [List.mem_singleton] at hr; subst hr; rfl)
    (by
      intro id x hx
      have hk : id ∈ sampleManager.Instance.ids.keys :=
        (GoMap.mem_keys_iff _ _).mpr (by rw [hx]; rfl)
      have hkeys : sampleManager.Instance.ids.keys = ["i1"] := rfl
      rw [hkeys, List.mem_singleton] at hk
      subst hk
      have hx2 : x.ServiceID = "S1" :=
        (ServicesInIds_of_Reachable (fun _ => "S1") hreach).2 "i1" x hx
      exact ⟨_, List.mem_singleton.mpr rfl, rfl, hx2.symm⟩)
  exact ⟨h.1, h.2.2.2.1,
    h.2.2.2.2.2.1 "S1" (sampleService "S1" "svc") (by decide)
      ⟨_, List.mem_singleton.mpr rfl, rfl⟩ rfl⟩

/-! ## Successful refresh round, clearing and drift check -/

/-- C21: when the read of the store clock succeeds with value `T` and the executor
succeeds, `doCacheUpdate` returns nil and afterwards `lastFetchTime` is `T`, the
first-update flag is false, and `lastMtimes` is the map that the executor returned when
that map is not empty, and is as before when the map is empty or nil. -/
theorem doCacheUpdate_success (bc : baseCache) (T : Int) (lastMtimes : Option (GoMap Time))
    (total : Int) :
    (bc.doCacheUpdate (Except.ok T) (Except.ok (lastMtimes, total))).2 = none ∧
    (bc.doCacheUpdate (Except.ok T) (Except.ok (lastMtimes, total))).1.lastFetchTime = T ∧
    (bc.doCacheUpdate (Except.ok T) (Except.ok (lastMtimes, total))).1.firtstUpdate = false ∧
    (bc.doCacheUpdate (Except.ok T) (Except.ok (lastMtimes, total))).1.isFirstUpdate = false ∧
    (∀ m, lastMtimes = some m → m.len ≠ 0 →
      (bc.doCacheUpdate (Except.ok T) (Except.ok (lastMtimes, total))).1.lastMtimes = m) ∧
    (lenOfMap lastMtimes = 0 →
      (bc.doCacheUpdate (Except.ok T) (Except.ok (lastMtimes, total))).1.lastMtimes =
        bc.lastMtimes) := by
  refine ⟨rfl, rfl, rfl, rfl, ?_, ?_⟩
  · intro m hm hlen
    subst hm
    simp [baseCache.doCacheUpdate, hlen]
  · intro h
    cases lastMtimes with
    | none => rfl
    | some m =>
      have h0 : m.len = 0 := h
      simp [baseCache.doCacheUpdate, h0]

/-- Witness for C21: the initialized base cache, store time 100, the executor returns the
map with the instance watermark 9. -/
theorem doCacheUpdate_success_witness :
    (newBaseCache.doCacheUpdate (Except.ok 100)
      (Except.ok (some (GoMap.empty.Store InstanceName (timeUnix 9)), 2))).1.lastFetchTime =
      100 ∧
    (newBaseCache.doCacheUpdate (Except.ok 100)
      (Except.ok (some (GoMap.empty.Store InstanceName (timeUnix 9)), 2))).1.lastMtimes =
      GoMap.empty.Store InstanceName (timeUnix 9) :=
  have h := doCacheUpdate_success newBaseCache 100
    (some (GoMap.empty.Store InstanceName (timeUnix 9))) 2
  ⟨h.2.1, h.2.2.2.2.1 _ rfl (by decide)⟩

theorem wrapInt64_of_int64 (x : Int) (h1 : minInt64 ≤ x) (h2 : x ≤ maxInt64) :
    wrapInt64 x = x := by
  unfold wrapInt64
  unfold minInt64 at h1
  unfold maxInt64 at h2
  omega

theorem wrapInt64_range (x : Int) : minInt64 ≤ wrapInt64 x ∧ wrapInt64 x ≤ maxInt64 := by
  unfold wrapInt64 minInt64 maxInt64
  omega

theorem wrapInt64_sub_add (x : Int) (h1 : minInt64 ≤ x) (h2 : x ≤ maxInt64) :
    wrapInt64 (wrapInt64 (x - unixToInternal) + unixToInternal) = x := by
  unfold wrapInt64 unixToInternal
  unfold minInt64 at h1
  unfold maxInt64 at h2
  omega

theorem addSec_range (ext d : Int) : minInt64 ≤ addSec ext d ∧ addSec ext d ≤ maxInt64 := by
  unfold addSec
  simp only
  unfold minInt64 maxInt64 at *
  split_ifs <;> omega

/-- On `int64` operands `addSec` is the function of package time: the wrapped sum when
the test `(sum > t.ext) == (d > 0)` holds, else the closest of `1<<63 - 1` and
`-(1<<63 - 1)`. -/
theorem addSec_eq_wrapped (ext d : Int) (h1 : minInt64 ≤ ext) (h2 : ext ≤ maxInt64)
    (h3 : minInt64 ≤ d) (h4 : d ≤ maxInt64) :
    addSec ext d =
      if decide (wrapInt64 (ext + d) > ext) = decide (d > 0) then wrapInt64 (ext + d)
      else if d > 0 then maxInt64 else -maxInt64 := by
  unfold addSec wrapInt64
  simp only
  unfold minInt64 maxInt64 at *
  by_cases hd : d > 0
  · simp only [hd, decide_True, if_true, decide_eq_true_eq]
    split_ifs <;> omega
  · simp only [hd, decide_False, if_false, decide_eq_false_iff_not]
    split_ifs <;> omega

theorem Add_DefaultTimeDiff (t : Time) (h : t.nsec = 0) :
    t.Add DefaultTimeDiff = ⟨wrapInt64 (addSec t.ext (-5) - unixToInternal), 0⟩ := by
  have e1 : Int.tdiv DefaultTimeDiff 1000000000 = -5 := by decide
  have e2 : Int.tmod DefaultTimeDiff 1000000000 = 0 := by decide
  unfold Time.Add
  simp only [e1, e2, h]
  rfl

theorem zeroTime_After (x : Int) (n : Nat) (h1 : minInt64 ≤ x) (h2 : x ≤ maxInt64) :
    zeroTime.After ⟨wrapInt64 (x - unixToInternal), n⟩ = decide (x < unixToInternal) := by
  have hz : zeroTime.ext = unixToInternal := by decide
  have hn : zeroTime.nsec = 0 := rfl
  have hx : Time.ext ⟨wrapInt64 (x - unixToInternal), n⟩ = x := wrapInt64_sub_add x h1 h2
  unfold Time.After
  rw [hz, hn, hx]
  simp

/-- The fetch time of a base cache whose `lastFetchTime` is 1 is unix second 1 for every
time difference below minus one second. -/
theorem LastFetchTime_of_one (bc : baseCache) (d : Int) (h1 : bc.lastFetchTime = 1)
    (hd : d < -1000000000) : bc.LastFetchTime d = timeUnix 1 := by
  have hdiv : Int.tdiv d 1000000000 = -((-d) / 1000000000) := by
    have := Int.neg_tdiv (-d) 1000000000
    rw [neg_neg] at this
    rw [this, Int.tdiv_eq_ediv (by omega) (by norm_num)]
  have hmod : Int.tmod d 1000000000 = -((-d) % 1000000000) := by
    have := Int.tdiv_add_tmod d 1000000000
    rw [hdiv] at this
    omega
  unfold baseCache.LastFetchTime
  rw [h1]
  have key : ∀ (dsec : Int) (n : Nat), dsec ≤ -2 →
      zeroTime.After ⟨wrapInt64 (addSec (timeUnix 1).ext dsec - unixToInternal), n⟩ = true := by
    intro dsec n hle
    have hx := addSec_range (timeUnix 1).ext dsec
    rw [zeroTime_After _ _ hx.1 hx.2]
    have he : (timeUnix 1).ext = 62135596801 := by decide
    rw [he]
    unfold addSec minInt64 maxInt64 unixToInternal
    simp only [decide_eq_true_eq]
    split_ifs <;> omega
  have : zeroTime.After ((timeUnix 1).Add d) = true := by
    unfold Time.Add
    simp only [hdiv, hmod, timeUnix, Nat.cast_zero, zero_add]
    apply key
    split_ifs <;> simp only <;> omega
  simp only [this, if_true]

/-! ## Count check of the instance cache -/

/-- C23: when `checkAll` runs at least 60 seconds after the previous check and the
instance count of the store differs from `instanceCount`, afterwards `LastMtime()` is
the unix epoch and `lastFetchTime` is 1, so that `LastFetchTime()` is unix second 1
for the declared `DefaultTimeDiff` and for every time difference below minus one
second.  When fewer than 60 seconds have elapsed, when the count call of the store
fails, or when the counts are equal, the base cache, and with it the last modify times
and `lastFetchTime`, is as before. -/
theorem checkAll_drift (ic : instanceCache) (curTimeSec : Int) (stored : Except String Nat) :
    (curTimeSec - ic.lastCheckAllTime ≥ 60 →
      ∀ count, stored = Except.ok count → ic.instanceCount ≠ (count : Int) →
        (ic.checkAll curTimeSec stored).LastMtime = timeUnix 0 ∧
        (ic.checkAll curTimeSec stored).base.lastFetchTime = 1 ∧
        (ic.checkAll curTimeSec stored).base.LastFetchTime DefaultTimeDiff = timeUnix 1 ∧
        ∀ d : Int, d < -1000000000 →
          (ic.checkAll curTimeSec stored).base.LastFetchTime d = timeUnix 1) ∧
    ((curTimeSec - ic.lastCheckAllTime < 60 ∨ (∃ err, stored = Except.error err) ∨
        ∃ count, stored = Except.ok count ∧ ic.instanceCount = (count : Int)) →
      (ic.checkAll curTimeSec stored).base = ic.base) := by
  have key : ∀ (bc : baseCache) (d : Int), bc.lastFetchTime = 1 → d < -1000000000 →
      bc.LastFetchTime d = timeUnix 1 := fun bc d h1 hd => LastFetchTime_of_one bc d h1 hd
  constructor
  · intro hge count hs hne
    subst hs
    have e : ic.checkAll curTimeSec (Except.ok count) =
        { ic with
          base := (ic.base.resetLastMtime InstanceName).resetLastFetchTime,
          lastCheckAllTime := curTimeSec } := by
      unfold instanceCache.checkAll checkAllIntervalSec
      rw [if_neg (by omega)]
      simp only [hne, if_false]
    rw [e]
    refine ⟨?_, rfl, key _ _ rfl (by decide), fun d hd => key _ d rfl hd⟩
    simp [instanceCache.LastMtime, baseCache.LastMtime, baseCache.resetLastMtime,
      baseCache.resetLastFetchTime]
  · intro h
    unfold instanceCache.checkAll checkAllIntervalSec
    by_cases hlt : curTimeSec - ic.lastCheckAllTime < 60
    · rw [if_pos hlt]
    · rw [if_neg hlt]
      rcases h with h | ⟨err, h⟩ | ⟨count, h, heq⟩
      · exact absurd h hlt
      · subst h; rfl
      · subst h
        simp only [heq, if_true]

/-- Witness for C23: a cache holding no instance, last checked at second 0, is checked
at second 60 against a store that counts 3 instances. -/
theorem checkAll_drift_witness :
    (newInstanceCache.checkAll 60 (Except.ok 3)).LastMtime = timeUnix 0 ∧
    (newInstanceCache.checkAll 60 (Except.ok 3)).base.lastFetchTime = 1 ∧
    (newInstanceCache.checkAll 60 (Except.ok 3)).base.LastFetchTime DefaultTimeDiff =
      timeUnix 1 ∧
    (newInstanceCache.checkAll 59 (Except.ok 3)).base = newInstanceCache.base :=
  have h := checkAll_drift newInstanceCache 60 (Except.ok 3)
  have h1 := h.1 (by decide) 3 rfl (by decide)
  ⟨h1.1, h1.2.1, h1.2.2.1,
   (checkAll_drift newInstanceCache 59 (Except.ok 3)).2 (Or.inl (by decide))⟩

/-! ## Slices without repetition -/

theorem deDuplicationStep_seen (st : GoMap Unit × List String) (a : String)
    (h : ∀ x, (st.1.Load x).isSome = true ↔ x ∈ st.2) :
    (∀ x, ((deDuplicationStep st a).1.Load x).isSome = true ↔ x ∈ (deDuplicationStep st a).2) ∧
    (deDuplicationStep st a).2 = if a ∈ st.2 then st.2 else st.2 ++ [a] := by
  unfold deDuplicationStep
  cases hl : st.1.Load a with
  | some u =>
    have ha : a ∈ st.2 := (h a).mp (by rw [hl]; rfl)
    simp only [ha, if_true]
    exact ⟨h, trivial⟩
  | none =>
    have ha : a ∉ st.2 := fun hm => by
      have := (h a).mpr hm
      rw [hl] at this
      exact absurd this (by simp)
    simp only [ha, if_false]
    refine ⟨?_, trivial⟩
    intro x
    rw [GoMap.Load_Store, List.mem_append, List.mem_singleton]
    by_cases hx : x = a
    · simp [hx]
    · simp only [hx, if_false, or_false]
      exact h x

theorem foldl_deDuplicationStep_seen (s : List String) :
    ∀ x, ((s.foldl deDuplicationStep (GoMap.empty, [])).1.Load x).isSome = true ↔
      x ∈ (s.foldl deDuplicationStep (GoMap.empty, [])).2 := by
  induction s using List.reverseRecOn with
  | nil => intro x; simp
  | append_singleton l a ih =>
    rw [List.foldl_append]
    exact (deDuplicationStep_seen _ a ih).1

theorem StringSliceDeDuplication_concat (s : List String) (a : String) :
    StringSliceDeDuplication (s ++ [a]) =
      if a ∈ StringSliceDeDuplication s then StringSliceDeDuplication s
      else StringSliceDeDuplication s ++ [a] := by
  unfold StringSliceDeDuplication
  rw [List.foldl_append]
  exact (deDuplicationStep_seen _ a (foldl_deDuplicationStep_seen s)).2

theorem StringSliceDeDuplication_mem (s : List String) (x : String) :
    x ∈ StringSliceDeDuplication s ↔ x ∈ s := by
  induction s using List.reverseRecOn generalizing x with
  | nil => simp [StringSliceDeDuplication]
  | append_singleton l a ih =>
    rw [StringSliceDeDuplication_concat]
    split_ifs with h
    · rw [ih x, List.mem_append, List.mem_singleton]
      constructor
      · exact Or.inl
      · rintro (h1 | h1)
        · exact h1
        · rw [h1]; exact (ih a).mp h
    · rw [List.mem_append, List.mem_append, ih x]

theorem StringSliceDeDuplication_nodup (s : List String) : (StringSliceDeDuplication s).Nodup := by
  induction s using List.reverseRecOn with
  | nil => simp [StringSliceDeDuplication]
  | append_singleton l a ih =>
    rw [StringSliceDeDuplication_concat]
    split_ifs with h
    · exact ih
    · exact List.Nodup.append ih (List.nodup_singleton a)
        (by
          intro x hx hx2
          rw [List.mem_singleton] at hx2
          subst hx2
          exact h hx)

theorem StringSliceDeDuplication_of_nodup (s : List String) (h : s.Nodup) :
    StringSliceDeDuplication s = s := by
  induction s using List.reverseRecOn with
  | nil => rfl
  | append_singleton l a ih =>
    have hn := List.nodup_append.mp h
    have ha : a ∉ l := fun hm => hn.2.2 hm (List.mem_singleton_self a)
    rw [StringSliceDeDuplication_concat, ih hn.1, if_neg ha]

theorem StringSliceDeDuplication_indexOf (s : List String) (x y : String) (hx : x ∈ s)
    (hy : y ∈ s) :
    (StringSliceDeDuplication s).indexOf x < (StringSliceDeDuplication s).indexOf y ↔
      s.indexOf x < s.indexOf y := by
  induction s using List.reverseRecOn with
  | nil => cases hx
  | append_singleton l a ih =>
    rw [StringSliceDeDuplication_concat]
    by_cases ha : a ∈ l
    · have ha2 : a ∈ StringSliceDeDuplication l := (StringSliceDeDuplication_mem l a).mpr ha
      have hx2 : x ∈ l := by
        rcases List.mem_append.mp hx with h | h
        · exact h
        · rw [List.mem_singleton.mp h]; exact ha
      have hy2 : y ∈ l := by
        rcases List.mem_append.mp hy with h | h
        · exact h
        · rw [List.mem_singleton.mp h]; exact ha
      rw [if_pos ha2, List.indexOf_append_of_mem hx2, List.indexOf_append_of_mem hy2]
      exact ih hx2 hy2
    · have ha2 : a ∉ StringSliceDeDuplication l := fun h =>
        ha ((StringSliceDeDuplication_mem l a).mp h)
      rw [if_neg ha2]
      have hlen1 : ∀ z, z ∈ l → List.indexOf z (StringSliceDeDuplication l ++ [a]) <
          (StringSliceDeDuplication l).length := by
        intro z hz
        have hz2 := (StringSliceDeDuplication_mem l z).mpr hz
        rw [List.indexOf_append_of_mem hz2]
        exact List.indexOf_lt_length.mpr hz2
      have hlen2 : ∀ z, z ∈ l → List.indexOf z (l ++ [a]) < l.length := by
        intro z hz
        rw [List.indexOf_append_of_mem hz]
        exact List.indexOf_lt_length.mpr hz
      have hend1 : List.indexOf a (StringSliceDeDuplication l ++ [a]) =
          (StringSliceDeDuplication l).length := by
        rw [List.indexOf_append_of_not_mem ha2]; simp
      have hend2 : List.indexOf a (l ++ [a]) = l.length := by
        rw [List.indexOf_append_of_not_mem ha]; simp
      by_cases hxa : x = a
      · subst hxa
        by_cases hya : y = x
        · subst hya; simp
        · have hy2 : y ∈ l := by
            rcases List.mem_append.mp hy with h | h
            · exact h
            · exact absurd (List.mem_singleton.mp h) hya
          have h1 := hlen1 y hy2
          have h2 := hlen2 y hy2
          rw [hend1, hend2]
          omega
      · have hx2 : x ∈ l := by
          rcases List.mem_append.mp hx with h | h
          · exact h
          · exact absurd (List.mem_singleton.mp h) hxa
        by_cases hya : y = a
        · subst hya
          have h1 := hlen1 x hx2
          have h2 := hlen2 x hx2
          rw [hend1, hend2]
          omega
        · have hy2 : y ∈ l := by
            rcases List.mem_append.mp hy with h | h
            · exact h
            · exact absurd (List.mem_singleton.mp h) hya
          rw [List.indexOf_append_of_mem ((StringSliceDeDuplication_mem l x).mpr hx2),
            List.indexOf_append_of_mem ((StringSliceDeDuplication_mem l y).mpr hy2),
            List.indexOf_append_of_mem hx2, List.indexOf_append_of_mem hy2]
          exact ih hx2 hy2

/-- C29: for every list of strings `s`, `StringSliceDeDuplication s` holds no element
twice, holds exactly the elements of `s`, and holds them in the order of their first
occurrence in `s` (one element stands before another in the result exactly when its
first occurrence in `s` comes first); applying the function twice gives the same list
as applying it once. -/
theorem StringSliceDeDuplication_first_occurrences (s : List String) :
    (StringSliceDeDuplication s).Nodup ∧
    (∀ x, x ∈ StringSliceDeDuplication s ↔ x ∈ s) ∧
    (∀ x y, x ∈ s → y ∈ s →
      ((StringSliceDeDuplication s).indexOf x < (StringSliceDeDuplication s).indexOf y ↔
        s.indexOf x < s.indexOf y)) ∧
    StringSliceDeDuplication (StringSliceDeDuplication s) = StringSliceDeDuplication s :=
  ⟨StringSliceDeDuplication_nodup s, StringSliceDeDuplication_mem s,
   fun x y hx hy => StringSliceDeDuplication_indexOf s x y hx hy,
   StringSliceDeDuplication_of_nodup _ (StringSliceDeDuplication_nodup s)⟩

/-- Witness for C29: the list `b`, `a`, `b`, `c`, `a` gives `b`, `a`, `c`. -/
theorem StringSliceDeDuplication_witness :
    StringSliceDeDuplication ["b", "a", "b", "c", "a"] = ["b", "a", "c"] ∧
    (StringSliceDeDuplication ["b", "a", "b", "c", "a"]).Nodup :=
  ⟨by decide, (StringSliceDeDuplication_first_occurrences ["b", "a", "b", "c", "a"]).1⟩

/-! ## Wildcard names -/

theorem star_cutset : (fun c : Char => ("*" : String).data.contains c) =
    fun c : Char => decide (c = '*') := by
  funext c
  have : ("*" : String).data = ['*'] := rfl
  rw [this]
  by_cases h : c = '*' <;> simp [h]

theorem TrimRight_star_data (s : String) :
    (TrimRight s "*").data = s.data.rdropWhile fun c => decide (c = '*') := by
  unfold TrimRight
  rw [star_cutset]

theorem TrimLeft_star_data (s : String) :
    (TrimLeft s "*").data = s.data.dropWhile fun c => decide (c = '*') := by
  unfold TrimLeft
  rw [star_cutset]

theorem IsPrefixWildName_iff (s : String) :
    IsPrefixWildName s = true ↔ s.data.getLast? = some '*' := by
  unfold IsPrefixWildName
  simp only [Bool.and_eq_true, decide_eq_true_eq]
  constructor
  · exact fun h => h.2
  · intro h
    refine ⟨?_, h⟩
    obtain ⟨ys, hys⟩ := List.getLast?_eq_some_iff.mp h
    show s.data.length ≥ 1
    rw [hys]; simp

theorem IsSuffixWildName_iff (s : String) :
    IsSuffixWildName s = true ↔ s.data.head? = some '*' := by
  unfold IsSuffixWildName
  simp only [Bool.and_eq_true, decide_eq_true_eq]
  constructor
  · exact fun h => h.2
  · intro h
    refine ⟨?_, h⟩
    obtain ⟨ys, hys⟩ := List.head?_eq_some_iff.mp h
    show s.data.length ≥ 1
    rw [hys]; simp

theorem rdropWhile_star_of_getLast (l : List Char) (h : l.getLast? ≠ some '*') :
    (l.rdropWhile fun c => decide (c = '*')) = l := by
  rw [List.rdropWhile_eq_self_iff]
  intro hl hp
  apply h
  rw [List.getLast?_eq_getLast l hl]
  simpa using hp

theorem dropWhile_star_of_head (l : List Char) (h : l.head? ≠ some '*') :
    (l.dropWhile fun c => decide (c = '*')) = l := by
  cases l with
  | nil => rfl
  | cons a rest =>
    have ha : a ≠ '*' := fun e => h (by rw [e]; rfl)
    simp [List.dropWhile_cons, ha]

theorem Contains_iff (s sub : String) : Contains s sub = true ↔ sub.data <:+: s.data := by
  unfold Contains
  rw [List.any_eq_true, List.infix_iff_prefix_suffix]
  constructor
  · rintro ⟨t, ht, hp⟩
    exact ⟨t, List.isPrefixOf_iff_prefix.mp hp, (List.mem_tails t _).mp ht⟩
  · rintro ⟨t, hp, ht⟩
    exact ⟨t, (List.mem_tails t _).mpr ht, List.isPrefixOf_iff_prefix.mpr hp⟩

theorem IsWildMatch_exact (name p : String) (h1 : p.data.head? ≠ some '*')
    (h2 : p.data.getLast? ≠ some '*') : IsWildMatch name p = true ↔ name = p := by
  have e1 : IsPrefixWildName p = false := by
    rw [← Bool.not_eq_true, IsPrefixWildName_iff]; exact h2
  have e2 : IsSuffixWildName p = false := by
    rw [← Bool.not_eq_true, IsSuffixWildName_iff]; exact h1
  unfold IsWildMatch
  simp only [e1, e2, Bool.false_eq_true, if_false, decide_eq_true_eq]
  exact eq_comm

theorem IsWildMatch_star_right (name p : String) (h1 : p.data.head? ≠ some '*')
    (h2 : p.data.getLast? ≠ some '*') :
    IsWildMatch name (p ++ "*") = true ↔ p.data <+: name.data := by
  have e1 : IsPrefixWildName (p ++ "*") = true := by
    rw [IsPrefixWildName_iff, String.data_append]
    exact List.getLast?_concat _
  have e3 : TrimRight (p ++ "*") "*" = p := by
    apply String.ext
    rw [TrimRight_star_data, String.data_append]
    have : ("*" : String).data = ['*'] := rfl
    rw [this, List.rdropWhile_concat_pos _ _ _ (by simp)]
    exact rdropWhile_star_of_getLast _ h2
  have e2 : IsSuffixWildName p = false := by
    rw [← Bool.not_eq_true, IsSuffixWildName_iff]; exact h1
  unfold IsWildMatch
  simp only [e1, e3, e2, if_true, Bool.false_eq_true, if_false]
  unfold HasPrefix
  rw [← List.isPrefixOf_iff_prefix]
  by_cases h : p.data.isPrefixOf name.data = true <;> simp [h]

theorem IsWildMatch_star_left (name p : String) (h1 : p.data.head? ≠ some '*')
    (h2 : p.data.getLast? ≠ some '*') :
    IsWildMatch name ("*" ++ p) = true ↔ p.data <:+ name.data := by
  have hd : ("*" ++ p).data = '*' :: p.data := by
    rw [String.data_append]; rfl
  by_cases hp : p.data = []
  · have hpe : p = "" := String.ext hp
    subst hpe
    have hs : ("*" ++ "" : String) = "*" := rfl
    rw [hs]
    have : IsWildMatch name "*" = true := by
      have e1 : IsPrefixWildName "*" = true := by decide
      have e3 : TrimRight "*" "*" = "" := by decide
      unfold IsWildMatch
      simp only [e1, e3, if_true]
      have : HasPrefix name "" = true := by
        unfold HasPrefix
        exact List.isPrefixOf_iff_prefix.mpr ( List.nil_prefix)
      simp [this]
    simp only [this, true_iff]
    exact List.nil_suffix
  · have e1 : IsPrefixWildName ("*" ++ p) = false := by
      rw [← Bool.not_eq_true, IsPrefixWildName_iff, hd]
      obtain ⟨a, rest, hl⟩ := List.exists_cons_of_ne_nil hp
      rw [hl, List.getLast?_cons_cons, ← hl]
      exact h2
    have e2 : IsSuffixWildName ("*" ++ p) = true := by
      rw [IsSuffixWildName_iff, hd]; rfl
    have e3 : TrimLeft ("*" ++ p) "*" = p := by
      apply String.ext
      rw [TrimLeft_star_data, hd, List.dropWhile_cons_of_pos (by simp)]
      exact dropWhile_star_of_head _ h1
    unfold IsWildMatch
    simp only [e1, e2, e3, if_true, Bool.false_eq_true, if_false]
    unfold HasSuffix
    rw [← List.isSuffixOf_iff_suffix]
    by_cases h : p.data.isSuffixOf name.data = true <;> simp [h]

theorem IsWildMatch_star_both (name p : String) (h1 : p.data.head? ≠ some '*')
    (h2 : p.data.getLast? ≠ some '*') :
    IsWildMatch name ("*" ++ p ++ "*") = true ↔ p.data <:+: name.data := by
  have hd : ("*" ++ p ++ "*").data = ('*' :: p.data) ++ ['*'] := by
    rw [String.data_append, String.data_append]; rfl
  have e1 : IsPrefixWildName ("*" ++ p ++ "*") = true := by
    rw [IsPrefixWildName_iff, hd]
    exact List.getLast?_concat _
  by_cases hp : p.data = []
  · have hpe : p = "" := String.ext hp
    subst hpe
    have e3 : TrimRight ("*" ++ "" ++ "*") "*" = "" := by decide
    unfold IsWildMatch
    simp only [e1, e3, if_true]
    have : HasPrefix name "" = true := by
      unfold HasPrefix
      exact List.isPrefixOf_iff_prefix.mpr ( List.nil_prefix)
    simp only [this, if_true, true_iff]
    exact List.nil_infix
  · have e3 : TrimRight ("*" ++ p ++ "*") "*" = "*" ++ p := by
      apply String.ext
      rw [TrimRight_star_data, hd, List.rdropWhile_concat_pos _ _ _ (by simp)]
      have hd2 : ("*" ++ p).data = '*' :: p.data := by
        rw [String.data_append]; rfl
      rw [hd2]
      apply rdropWhile_star_of_getLast
      obtain ⟨a, rest, hl⟩ := List.exists_cons_of_ne_nil hp
      rw [hl, List.getLast?_cons_cons, ← hl]
      exact h2
    have hd2 : ("*" ++ p).data = '*' :: p.data := by
      rw [String.data_append]; rfl
    have e2 : IsSuffixWildName ("*" ++ p) = true := by
      rw [IsSuffixWildName_iff, hd2]; rfl
    have e4 : TrimLeft ("*" ++ p) "*" = p := by
      apply String.ext
      rw [TrimLeft_star_data, hd2, List.dropWhile_cons_of_pos (by simp)]
      exact dropWhile_star_of_head _ h1
    unfold IsWildMatch
    simp only [e1, e3, e2, e4, if_true]
    by_cases hpre : HasPrefix name ("*" ++ p) = true
    · simp only [hpre, if_true, true_iff]
      unfold HasPrefix at hpre
      rw [List.isPrefixOf_iff_prefix, hd2] at hpre
      obtain ⟨t, ht⟩ := hpre
      exact ⟨['*'], t, by rw [← ht]; simp⟩
    · simp only [hpre, Bool.false_eq_true, if_false]
      exact Contains_iff name p

/-- C28: for every name and every string `p` that neither starts nor ends with `*`:
`IsWildMatch(name, p)` holds exactly when `name = p`; `IsWildMatch(name, p+"*")`
exactly when `name` has the prefix `p`; `IsWildMatch(name, "*"+p)` exactly when `name`
has the suffix `p`; `IsWildMatch(name, "*"+p+"*")` exactly when `name` contains `p`. -/
theorem IsWildMatch_forms (name p : String) (h1 : p.data.head? ≠ some '*')
    (h2 : p.data.getLast? ≠ some '*') :
    (IsWildMatch name p = true ↔ name = p) ∧
    (IsWildMatch name (p ++ "*") = true ↔ ∃ t : String, name = p ++ t) ∧
    (IsWildMatch name ("*" ++ p) = true ↔ ∃ t : String, name = t ++ p) ∧
    (IsWildMatch name ("*" ++ p ++ "*") = true ↔ ∃ s t : String, name = s ++ p ++ t) := by
  refine ⟨IsWildMatch_exact name p h1 h2, ?_, ?_, ?_⟩
  · rw [IsWildMatch_star_right name p h1 h2]
    constructor
    · rintro ⟨t, ht⟩
      exact ⟨String.mk t, String.ext (by rw [String.data_append, ← ht])⟩
    · rintro ⟨t, ht⟩
      exact ⟨t.data, by rw [ht, String.data_append]⟩
  · rw [IsWildMatch_star_left name p h1 h2]
    constructor
    · rintro ⟨t, ht⟩
      exact ⟨String.mk t, String.ext (by rw [String.data_append, ← ht])⟩
    · rintro ⟨t, ht⟩
      exact ⟨t.data, by rw [ht, String.data_append]⟩
  · rw [IsWildMatch_star_both name p h1 h2]
    constructor
    · rintro ⟨s, t, ht⟩
      exact ⟨String.mk s, String.mk t,
        String.ext (by rw [String.data_append, String.data_append, ← ht])⟩
    · rintro ⟨s, t, ht⟩
      exact ⟨s.data, t.data, by rw [ht, String.data_append, String.data_append]⟩

/-- Witness for C28: the patterns `ab`, `ab*`, `*ab` and `*ab*` against names that
match and names that do not. -/
theorem IsWildMatch_witness :
    IsWildMatch "ab" "ab" = true ∧ IsWildMatch "abc" "ab" = false ∧
    IsWildMatch "abc" "ab*" = true ∧ IsWildMatch "cab" "ab*" = false ∧
    IsWildMatch "cab" "*ab" = true ∧ IsWildMatch "abc" "*ab" = false ∧
    IsWildMatch "cabd" "*ab*" = true ∧ IsWildMatch "cad" "*ab*" = false ∧
    (IsWildMatch "abc" ("ab" ++ "*") = true ↔ ∃ t : String, "abc" = "ab" ++ t) :=
  ⟨by decide, by decide, by decide, by decide, by decide, by decide, by decide, by decide,
   (IsWildMatch_forms "abc" "ab" (by decide) (by decide)).2.1⟩

/-! ## Query arguments of the instance lookup -/

theorem splitChars_ne_nil (sep : Char) (l : List Char) : splitChars sep l ≠ [] := by
  cases l with
  | nil => simp [splitChars]
  | cons c cs =>
    simp only [splitChars]
    split_ifs
    · simp
    · cases splitChars sep cs <;> simp

theorem splitChars_join (sep : Char) (l : List Char) :
    List.intercalate [sep] (splitChars sep l) = l ∧ ∀ seg ∈ splitChars sep l, sep ∉ seg := by
  induction l with
  | nil => simp [splitChars, List.intercalate]
  | cons c cs ih =>
    simp only [splitChars]
    by_cases hc : c = sep
    · rw [if_pos hc]
      have hne := splitChars_ne_nil sep cs
      obtain ⟨h, t, ht⟩ := List.exists_cons_of_ne_nil hne
      rw [ht] at ih ⊢
      constructor
      · have := ih.1
        simp only [List.intercalate, List.intersperse, List.flatten] at this ⊢
        rw [hc]
        simpa using this
      · intro seg hseg
        rcases List.mem_cons.mp hseg with h1 | h1
        · rw [h1]; simp
        · exact ih.2 seg h1
    · rw [if_neg hc]
      have hne := splitChars_ne_nil sep cs
      obtain ⟨h, t, ht⟩ := List.exists_cons_of_ne_nil hne
      rw [ht] at ih ⊢
      simp only
      constructor
      · have := ih.1
        cases t with
        | nil =>
          simp only [List.intercalate, List.intersperse, List.flatten] at this ⊢
          simpa using this
        | cons t1 t2 =>
          simp only [List.intercalate, List.intersperse, List.flatten] at this ⊢
          simpa using this
      · intro seg hseg
        rcases List.mem_cons.mp hseg with h1 | h1
        · rw [h1]
          intro hm
          rcases List.mem_cons.mp hm with h2 | h2
          · exact hc h2.symm
          · exact ih.2 h (List.mem_cons_self _ _) h2
        · exact ih.2 seg (List.mem_cons_of_mem _ h1)

theorem parseDigits_of_digits (cs : List Char) (n : Nat)
    (h : ∀ c ∈ cs, 48 ≤ c.toNat ∧ c.toNat ≤ 57) :
    parseDigits cs n =
      some (Nat.ofDigits 10 (cs.map fun c => c.toNat - 48).reverse + n * 10 ^ cs.length) := by
  induction cs generalizing n with
  | nil => simp [parseDigits]
  | cons c cs ih =>
    simp only [parseDigits]
    rw [if_pos (h c (List.mem_cons_self _ _)), ih _ (fun d hd => h d (List.mem_cons_of_mem _ hd))]
    simp only [List.map_cons, List.reverse_cons, Nat.ofDigits_append, Nat.ofDigits_singleton,
      List.length_reverse, List.length_map, List.length_cons]
    congr 1
    ring

theorem parseDigits_none (cs : List Char) (n : Nat)
    (h : ¬ ∀ c ∈ cs, 48 ≤ c.toNat ∧ c.toNat ≤ 57) : parseDigits cs n = none := by
  induction cs generalizing n with
  | nil => exact absurd (fun c hc => by cases hc) h
  | cons c cs ih =>
    simp only [parseDigits]
    by_cases hc : 48 ≤ c.toNat ∧ c.toNat ≤ 57
    · rw [if_pos hc]
      apply ih
      intro hall
      apply h
      intro d hd
      rcases List.mem_cons.mp hd with h1 | h1
      · rw [h1]; exact hc
      · exact hall d h1
    · rw [if_neg hc]

theorem ParseUint32_ok_iff (s : String) (n : Nat) :
    ParseUint32 s = Except.ok n ↔ IsDecimalUint32 s ∧ n = decimalValue s := by
  unfold ParseUint32 IsDecimalUint32 decimalValue
  by_cases hs : s = ""
  · simp [hs]
  · rw [if_neg hs]
    by_cases hd : ∀ c ∈ s.data, 48 ≤ c.toNat ∧ c.toNat ≤ 57
    · rw [parseDigits_of_digits _ _ hd]
      simp only [Nat.zero_mul, Nat.add_zero]
      by_cases hlt : Nat.ofDigits 10 (s.data.map fun c => c.toNat - 48).reverse < 2 ^ 32
      · rw [if_pos hlt]
        constructor
        · intro h
          injection h with h
          exact ⟨⟨hs, hd, hlt⟩, h.symm⟩
        · rintro ⟨_, h⟩
          rw [h]
      · rw [if_neg hlt]
        constructor
        · intro h; cases h
        · rintro ⟨⟨_, _, h⟩, _⟩
          exact absurd h hlt
    · rw [parseDigits_none _ _ hd]
      constructor
      · intro h; cases h
      · rintro ⟨⟨_, h, _⟩, _⟩
        exact absurd h hd

theorem ParseUint32_error_iff (s : String) :
    (∃ err, ParseUint32 s = Except.error err) ↔ ¬ IsDecimalUint32 s := by
  constructor
  · rintro ⟨err, h⟩ hd
    have := (ParseUint32_ok_iff s (decimalValue s)).mpr ⟨hd, rfl⟩
    rw [h] at this
    cases this
  · intro hd
    cases h : ParseUint32 s with
    | error err => exact ⟨err, rfl⟩
    | ok n => exact absurd ((ParseUint32_ok_iff s n).mp h).1 hd

theorem parsePorts_ok (l : List String) (ports parsed : List Nat)
    (h : parsePorts l ports = Except.ok parsed) :
    ∃ added, parsed = ports ++ added ∧ l.map ParseUint32 = added.map Except.ok := by
  induction l generalizing ports with
  | nil =>
    simp only [parsePorts] at h
    injection h with h
    exact ⟨[], by simp [h], rfl⟩
  | cons portStr rest ih =>
    simp only [parsePorts] at h
    cases hp : ParseUint32 portStr with
    | error err => rw [hp] at h; cases h
    | ok port =>
      rw [hp] at h
      obtain ⟨added, h1, h2⟩ := ih _ h
      exact ⟨port :: added, by rw [h1]; simp, by simp [hp, h2]⟩

theorem parsePorts_error_iff (l : List String) (ports : List Nat) :
    (∃ err, parsePorts l ports = Except.error err) ↔
      ∃ seg ∈ l, ∃ err, ParseUint32 seg = Except.error err := by
  induction l generalizing ports with
  | nil => simp [parsePorts]
  | cons portStr rest ih =>
    simp only [parsePorts]
    cases hp : ParseUint32 portStr with
    | error err =>
      simp only
      constructor
      · intro _
        exact ⟨portStr, List.mem_cons_self _ _, err, hp⟩
      · intro _
        exact ⟨_, rfl⟩
    | ok port =>
      simp only
      rw [ih]
      constructor
      · rintro ⟨seg, hseg, h⟩
        exact ⟨seg, List.mem_cons_of_mem _ hseg, h⟩
      · rintro ⟨seg, hseg, err, h⟩
        rcases List.mem_cons.mp hseg with h1 | h1
        · rw [h1, hp] at h; cases h
        · exact ⟨seg, h1, err, h⟩

theorem ParseInstanceArgs_empty_query (query : GoMap String) (metadata : Option (GoMap String))
    (hq : query.len = 0) :
    ParseInstanceArgs query metadata =
      match metadata with
      | none => Except.ok none
      | some m => Except.ok (some { Hosts := [], Ports := [], Meta := some m }) := by
  unfold ParseInstanceArgs
  cases metadata with
  | none => simp [hq]
  | some m => simp [hq]

theorem ParseInstanceArgs_query (query : GoMap String) (metadata : Option (GoMap String))
    (hq : query.len ≠ 0) :
    ParseInstanceArgs query metadata =
      match query.Load "host" with
      | none => Except.error "port parameter can not be used alone without host"
      | some hosts =>
        match query.Load "port" with
        | none => Except.ok (some { Hosts := splitComma hosts, Ports := [], Meta := metadata })
        | some ports =>
          match parsePorts (splitComma ports) [] with
          | .error err => Except.error err
          | .ok parsed =>
            Except.ok (some { Hosts := splitComma hosts, Ports := parsed, Meta := metadata }) := by
  unfold ParseInstanceArgs
  simp only [hq, false_and, if_false]

/-- C27: `ParseInstanceArgs` returns `(nil, nil)` exactly when the query is empty and
the metadata is nil.  It returns an error exactly when the query is not empty and
either has no key `host` or has under `port` a value of which some segment between
commas is not a base-10 unsigned 32-bit integer.  On success with a result, `Meta` is
the given metadata; for an empty query hosts and ports are empty; for a query with
`host`, `Hosts` is the host value split at the commas and `Ports` holds the parsed
segments of the port value in their order, and is empty without a key `port`.  The
split at the commas gives the segments that hold no comma and that, joined by commas,
give the value back. -/
theorem ParseInstanceArgs_spec (query : GoMap String) (metadata : Option (GoMap String)) :
    (ParseInstanceArgs query metadata = Except.ok none ↔ query.len = 0 ∧ metadata = none) ∧
    ((∃ err, ParseInstanceArgs query metadata = Except.error err) ↔
      query.len ≠ 0 ∧ (query.Load "host" = none ∨
        ∃ ports, query.Load "port" = some ports ∧
          ∃ seg ∈ splitComma ports, ¬ IsDecimalUint32 seg)) ∧
    (∀ res, ParseInstanceArgs query metadata = Except.ok (some res) →
      res.Meta = metadata ∧
      (query.len = 0 → res.Hosts = [] ∧ res.Ports = []) ∧
      (query.len ≠ 0 → ∃ hosts, query.Load "host" = some hosts ∧
        res.Hosts = splitComma hosts ∧
        (query.Load "port" = none → res.Ports = []) ∧
        ∀ ports, query.Load "port" = some ports →
          (splitComma ports).map ParseUint32 = res.Ports.map Except.ok ∧
          (splitComma ports).map decimalValue = res.Ports)) ∧
    (∀ s : String,
      List.intercalate [','] ((splitComma s).map String.data) = s.data ∧
      ∀ seg ∈ splitComma s, ',' ∉ seg.data) := by
  refine ⟨?_, ?_, ?_, ?_⟩
  · by_cases hq : query.len = 0
    · rw [ParseInstanceArgs_empty_query _ _ hq]
      cases metadata with
      | none => simp [hq]
      | some m => simp
    · rw [ParseInstanceArgs_query _ _ hq]
      simp only [hq, false_and, iff_false]
      cases query.Load "host" with
      | none => simp
      | some hosts =>
        cases query.Load "port" with
        | none => simp
        | some ports =>
          simp only
          cases parsePorts (splitComma ports) [] <;> simp
  · by_cases hq : query.len = 0
    · rw [ParseInstanceArgs_empty_query _ _ hq]
      simp only [hq, ne_eq, not_true_eq_false, false_and, iff_false]
      cases metadata <;> simp
    · rw [ParseInstanceArgs_query _ _ hq]
      simp only [ne_eq, hq, not_false_eq_true, true_and]
      cases hh : query.Load "host" with
      | none => simp
      | some hosts =>
        simp only [false_or, reduceCtorEq]
        cases hp : query.Load "port" with
        | none => simp
        | some ports =>
          simp only [Option.some.injEq, exists_eq_left']
          have key := parsePorts_error_iff (splitComma ports) []
          simp only [ParseUint32_error_iff] at key
          rw [← key]
          cases parsePorts (splitComma ports) [] <;> simp
  · intro res h
    by_cases hq : query.len = 0
    · rw [ParseInstanceArgs_empty_query _ _ hq] at h
      cases metadata with
      | none => simp at h
      | some m =>
        simp only [Except.ok.injEq, Option.some.injEq] at h
        subst h
        exact ⟨rfl, fun _ => ⟨rfl, rfl⟩, fun hne => absurd hq hne⟩
    · rw [ParseInstanceArgs_query _ _ hq] at h
      cases hh : query.Load "host" with
      | none => rw [hh] at h; simp at h
      | some hosts =>
        rw [hh] at h
        simp only at h
        cases hp : query.Load "port" with
        | none =>
          rw [hp] at h
          simp only [Except.ok.injEq, Option.some.injEq] at h
          subst h
          exact ⟨rfl, fun h0 => absurd h0 hq,
            fun _ => ⟨hosts, rfl, rfl, fun _ => rfl, fun ports hp2 => by cases hp2⟩⟩
        | some ports =>
          rw [hp] at h
          simp only at h
          cases hpp : parsePorts (splitComma ports) [] with
          | error err => rw [hpp] at h; simp at h
          | ok parsed =>
            rw [hpp] at h
            simp only [Except.ok.injEq, Option.some.injEq] at h
            subst h
            obtain ⟨added, h1, h2⟩ := parsePorts_ok _ _ _ hpp
            simp only [List.nil_append] at h1
            subst h1
            refine ⟨rfl, fun h0 => absurd h0 hq,
              fun _ => ⟨hosts, rfl, rfl, (fun hn => by cases hn), ?_⟩⟩
            intro ports2 hp2
            injection hp2 with hp2
            subst hp2
            refine ⟨h2, ?_⟩
            apply List.ext_getElem
            · have := congrArg List.length h2
              simpa using this
            · intro i hi1 hi2
              have hm : ((splitComma ports).map ParseUint32)[i]? = (parsed.map Except.ok)[i]? := by
                rw [h2]
              simp only [List.length_map] at hi1
              rw [List.getElem?_map, List.getElem?_map,
                List.getElem?_eq_getElem hi1, List.getElem?_eq_getElem hi2] at hm
              simp only [Option.map_some', Option.some.injEq] at hm
              have := ((ParseUint32_ok_iff _ _).mp hm).2
              rw [List.getElem_map]
              exact this.symm
  · intro s
    have h := splitChars_join ',' s.data
    unfold splitComma
    constructor
    · rw [List.map_map]
      have : (String.data ∘ String.mk) = (id : List Char → List Char) := rfl
      rw [this, List.map_id]
      exact h.1
    · intro seg hseg
      obtain ⟨l, hl, e⟩ := List.mem_map.mp hseg
      rw [← e]
      exact h.2 l hl

/-- Witness for C27: the query with hosts `a,b` and ports `80,8080` is parsed; the query
with the port segment `x` is refused. -/
theorem ParseInstanceArgs_witness :
    ParseInstanceArgs ((GoMap.empty.Store "host" "a,b").Store "port" "80,8080") none =
      Except.ok (some { Hosts := ["a", "b"], Ports := [80, 8080], Meta := none }) ∧
    ∃ err, ParseInstanceArgs ((GoMap.empty.Store "host" "a").Store "port" "80,x") none =
      Except.error err :=
  ⟨rfl,
   (ParseInstanceArgs_spec ((GoMap.empty.Store "host" "a").Store "port" "80,x") none).2.1.mpr
     ⟨by decide, Or.inr ⟨"80,x", rfl, "x", by decide,
       fun h => absurd (h.2.1 'x' (List.mem_singleton.mpr rfl)) (by decide)⟩⟩⟩

/-! ## Rate-limit rules in both forms -/

theorem GoMap.len_pos_of_Load {V : Type} (m : GoMap V) (k : String)
    (h : (m.Load k).isSome = true) : 0 < m.len := by
  have hk := (GoMap.mem_keys_iff m k).mpr h
  unfold GoMap.keys at hk
  unfold GoMap.len
  cases he : m.entries with
  | nil => rw [he] at hk; cases hk
  | cons e rest => simp

theorem GoMap.len_Store_pos {V : Type} (m : GoMap V) (k : String) (v : V) :
    0 < (m.Store k v).len :=
  GoMap.len_pos_of_Load _ k (by rw [GoMap.Load_Store_self]; rfl)

theorem labelStep_Load (tmp : GoMap (GoMap Unit)) (kv : String × String) (k : String) :
    (labelStep tmp kv).Load k =
      if k = kv.1 then some (((tmp.Load kv.1).getD GoMap.empty).Store kv.2 ())
      else tmp.Load k := by
  unfold labelStep
  cases h : tmp.Load kv.1 with
  | none =>
    simp only [GoMap.Load_Store, if_true, Option.getD_some, Option.getD_none]
    split_ifs <;> rfl
  | some set =>
    simp only [GoMap.Load_Store, h, Option.getD_some]

theorem labelStep_hasLabel (tmp : GoMap (GoMap Unit)) (kv : String × String) (k v : String) :
    hasLabel (labelStep tmp kv) k v ↔ hasLabel tmp k v ∨ (k, v) = kv := by
  obtain ⟨k1, v1⟩ := kv
  unfold hasLabel
  simp only [labelStep_Load, Prod.mk.injEq]
  by_cases hk : k = k1
  · subst hk
    simp only [if_true, Option.some.injEq, true_and]
    constructor
    · rintro ⟨set, hset, hv⟩
      subst hset
      rw [GoMap.Load_Store] at hv
      by_cases hv1 : v = v1
      · exact Or.inr hv1
      · rw [if_neg hv1] at hv
        left
        cases ht : tmp.Load k with
        | none => rw [ht] at hv; simp at hv
        | some set0 => rw [ht] at hv; exact ⟨set0, rfl, hv⟩
    · rintro (⟨set, hset, hv⟩ | hv1)
      · refine ⟨_, rfl, ?_⟩
        rw [GoMap.Load_Store, hset]
        split_ifs
        · rfl
        · exact hv
      · refine ⟨_, rfl, ?_⟩
        rw [hv1, GoMap.Load_Store_self]
        rfl
  · simp only [hk, if_false, false_and, or_false]

theorem foldl_labelStep_hasLabel (l : List (String × String)) (tmp : GoMap (GoMap Unit))
    (k v : String) :
    hasLabel (l.foldl labelStep tmp) k v ↔ hasLabel tmp k v ∨ (k, v) ∈ l := by
  induction l generalizing tmp with
  | nil => simp
  | cons kv rest ih =>
    simp only [List.foldl_cons, List.mem_cons]
    rw [ih, labelStep_hasLabel, or_assoc]

theorem foldl_metadata_hasLabel (insts : List Instance) (tmp : GoMap (GoMap Unit))
    (k v : String) :
    hasLabel (insts.foldl (fun tmp inst => inst.Metadata.entries.foldl labelStep tmp) tmp) k v ↔
      hasLabel tmp k v ∨ ∃ inst ∈ insts, inst.Metadata.Load k = some v := by
  induction insts generalizing tmp with
  | nil => simp
  | cons inst rest ih =>
    simp only [List.foldl_cons, List.mem_cons]
    rw [ih, foldl_labelStep_hasLabel, GoMap.mem_entries_iff, or_assoc]
    simp

theorem labelStep_nonempty (tmp : GoMap (GoMap Unit)) (kv : String × String)
    (h : ∀ k set, tmp.Load k = some set → set.len ≠ 0) :
    ∀ k set, (labelStep tmp kv).Load k = some set → set.len ≠ 0 := by
  intro k set hs
  rw [labelStep_Load] at hs
  split_ifs at hs with hk
  · injection hs with hs
    rw [← hs]
    exact Nat.pos_iff_ne_zero.mp (GoMap.len_Store_pos _ _ _)
  · exact h k set hs

theorem foldl_labelStep_nonempty (l : List (String × String)) (tmp : GoMap (GoMap Unit))
    (h : ∀ k set, tmp.Load k = some set → set.len ≠ 0) :
    ∀ k set, (l.foldl labelStep tmp).Load k = some set → set.len ≠ 0 := by
  induction l generalizing tmp with
  | nil => exact h
  | cons kv rest ih =>
    simp only [List.foldl_cons]
    exact ih _ (labelStep_nonempty tmp kv h)

theorem foldl_metadata_nonempty (insts : List Instance) (tmp : GoMap (GoMap Unit))
    (h : ∀ k set, tmp.Load k = some set → set.len ≠ 0) :
    ∀ k set,
      (insts.foldl (fun tmp inst => inst.Metadata.entries.foldl labelStep tmp) tmp).Load k =
        some set → set.len ≠ 0 := by
  induction insts generalizing tmp with
  | nil => exact h
  | cons inst rest ih =>
    simp only [List.foldl_cons]
    exact ih _ (foldl_labelStep_nonempty _ tmp h)

theorem foldl_append_values (k1 : String) (keys : List String) (ret : GoMap StringList)
    (vs : List String) (h : ret.Load k1 = some { Values := vs }) (k : String) :
    (keys.foldl
      (fun ret vv =>
        ret.Store k1 { Values := ((ret.Load k1).getD { Values := [] }).Values ++ [vv] })
      ret).Load k =
      if k = k1 then some { Values := vs ++ keys } else ret.Load k := by
  induction keys generalizing ret vs with
  | nil =>
    simp only [List.foldl_nil, List.append_nil]
    split_ifs with hk
    · rw [hk, h]
    · rfl
  | cons vv rest ih =>
    simp only [List.foldl_cons]
    rw [ih _ (vs ++ [vv]) (by rw [GoMap.Load_Store_self, h]; rfl)]
    split_ifs with hk
    · simp
    · rw [GoMap.Load_Store, if_neg hk]

theorem labelCollect_Load (ret : GoMap StringList) (kv : String × GoMap Unit)
    (h : ret.Load kv.1 = none) (k : String) :
    (labelCollect ret kv).Load k =
      if k = kv.1 then some { Values := kv.2.keys } else ret.Load k := by
  unfold labelCollect
  simp only [h]
  rw [foldl_append_values kv.1 kv.2.keys _ [] (GoMap.Load_Store_self _ _ _)]
  split_ifs with hk
  · simp
  · rw [GoMap.Load_Store, if_neg hk]

theorem foldl_labelCollect_Load (l : List (String × GoMap Unit)) (hs : KeysSorted l)
    (ret : GoMap StringList) (h : ∀ e ∈ l, ret.Load e.1 = none) (k : String) :
    (l.foldl labelCollect ret).Load k =
      match rawLoad l k with
      | some set => some { Values := set.keys }
      | none => ret.Load k := by
  induction l generalizing ret with
  | nil => rfl
  | cons e rest ih =>
    obtain ⟨k1, s1⟩ := e
    have hs2 := List.pairwise_cons.mp hs
    simp only [List.foldl_cons]
    have hfresh : ∀ e ∈ rest, (labelCollect ret (k1, s1)).Load e.1 = none := by
      intro e he
      rw [labelCollect_Load _ _ (h _ (List.mem_cons_self _ _))]
      have hne : e.1 ≠ k1 := fun eq => strLt_ne (hs2.1 e he) eq.symm
      simp only [hne, if_false]
      exact h e (List.mem_cons_of_mem _ he)
    rw [ih hs2.2 _ hfresh, labelCollect_Load _ _ (h _ (List.mem_cons_self _ _))]
    simp only [rawLoad]
    by_cases hk : k = k1
    · subst hk
      rw [rawLoad_eq_none_of_lt (fun e he => hs2.1 e he)]
      simp
    · simp only [hk, if_false]

theorem GoMap.keys_nodup {V : Type} (m : GoMap V) : m.keys.Nodup := by
  unfold GoMap.keys List.Nodup
  rw [List.pairwise_map]
  exact List.Pairwise.imp (fun h => strLt_ne h) m.sorted

theorem GoMap.keys_ne_nil {V : Type} (m : GoMap V) (h : m.len ≠ 0) : m.keys ≠ [] := by
  unfold GoMap.keys
  unfold GoMap.len at h
  intro e
  exact h (by rw [← List.length_map m.entries Prod.fst, e]; rfl)

theorem collect_Load (tmp : GoMap (GoMap Unit)) (k : String) :
    (tmp.entries.foldl labelCollect GoMap.empty).Load k =
      (tmp.Load k).map fun set => { Values := set.keys } := by
  rw [foldl_labelCollect_Load tmp.entries tmp.sorted GoMap.empty
    (fun e _ => GoMap.Load_empty e.1)]
  unfold GoMap.Load
  cases rawLoad tmp.entries k <;> rfl

theorem metadata_hasLabel (insts : List Instance) (k v : String) :
    hasLabel (insts.foldl (fun tmp inst => inst.Metadata.entries.foldl labelStep tmp)
      GoMap.empty) k v ↔ ∃ inst ∈ insts, inst.Metadata.Load k = some v := by
  rw [foldl_metadata_hasLabel]
  constructor
  · rintro (⟨set, h1, _⟩ | h)
    · simp at h1
    · exact h
  · exact Or.inr

/-- C24: for every service id that has a bucket, `GetInstanceLabels` returns a label map
in which the value `v` stands under the key `k` exactly when some instance of the
bucket has `metadata[k] = v`; no value stands twice under one key and no key stands
without a value.  For the empty service id and for a service without a bucket it
returns an `InstanceLabels` without label map. -/
theorem GetInstanceLabels_spec (ic : instanceCache) (serviceID : String) :
    ((serviceID = "" ∨ ic.services.Load serviceID = none) →
      (ic.GetInstanceLabels serviceID).Labels = none) ∧
    (∀ bucket, serviceID ≠ "" → ic.services.Load serviceID = some bucket →
      ∃ labels, (ic.GetInstanceLabels serviceID).Labels = some labels ∧
        (∀ k v, (∃ vs, labels.Load k = some vs ∧ v ∈ vs.Values) ↔
          ∃ inst ∈ bucket.values, inst.Metadata.Load k = some v) ∧
        (∀ k vs, labels.Load k = some vs → vs.Values.Nodup ∧ vs.Values ≠ [])) := by
  constructor
  · rintro (h | h)
    · unfold instanceCache.GetInstanceLabels
      rw [if_pos h]
    · unfold instanceCache.GetInstanceLabels
      split_ifs
      · rfl
      · rw [h]
  · intro bucket hs hb
    refine ⟨_, by unfold instanceCache.GetInstanceLabels; rw [if_neg hs, hb], ?_, ?_⟩
    · intro k v
      rw [← metadata_hasLabel bucket.values k v]
      simp only [collect_Load]
      unfold hasLabel
      constructor
      · rintro ⟨vs, h1, h2⟩
        cases hr : (bucket.values.foldl
            (fun tmp inst => inst.Metadata.entries.foldl labelStep tmp) GoMap.empty).Load k with
        | none => rw [hr] at h1; cases h1
        | some set =>
          rw [hr] at h1
          simp only [Option.map_some', Option.some.injEq] at h1
          subst h1
          exact ⟨set, rfl, (GoMap.mem_keys_iff set v).mp h2⟩
      · rintro ⟨set, h1, h2⟩
        rw [h1]
        exact ⟨_, rfl, (GoMap.mem_keys_iff set v).mpr h2⟩
    · intro k vs hvs
      rw [collect_Load] at hvs
      cases hr : (bucket.values.foldl
          (fun tmp inst => inst.Metadata.entries.foldl labelStep tmp) GoMap.empty).Load k with
      | none => rw [hr] at hvs; cases hvs
      | some set =>
        rw [hr] at hvs
        simp only [Option.map_some', Option.some.injEq] at hvs
        subst hvs
        exact ⟨GoMap.keys_nodup set,
          GoMap.keys_ne_nil set (foldl_metadata_nonempty bucket.values GoMap.empty
            (by intro k set h; simp at h) k set hr)⟩

/-- Witness for C24: the bucket of `S1` holds two instances, with metadata `env=prod`,
`zone=a` and `env=prod`, `zone=b`; the labels are `env` with `prod` and `zone` with `a`
and `b`. -/
theorem GetInstanceLabels_witness :
    ((newInstanceCache.setInstances
      [labelledInstance "i1" "S1" ((GoMap.empty.Store "env" "prod").Store "zone" "a"),
       labelledInstance "i2" "S1" ((GoMap.empty.Store "env" "prod").Store "zone" "b")]
      ).ic.GetInstanceLabels "S1").Labels.map (fun m => m.entries) =
      some [("env", { Values := ["prod"] }), ("zone", { Values := ["a", "b"] })] ∧
    ((newInstanceCache.setInstances
      [labelledInstance "i1" "S1" ((GoMap.empty.Store "env" "prod").Store "zone" "a"),
       labelledInstance "i2" "S1" ((GoMap.empty.Store "env" "prod").Store "zone" "b")]
      ).ic.GetInstanceLabels "S2").Labels = none :=
  ⟨by decide,
   (GetInstanceLabels_spec (newInstanceCache.setInstances
      [labelledInstance "i1" "S1" ((GoMap.empty.Store "env" "prod").Store "zone" "a"),
       labelledInstance "i2" "S1" ((GoMap.empty.Store "env" "prod").Store "zone" "b")]).ic
      "S2").1 (Or.inr rfl)⟩

/-! ## Revisions of the rule buckets -/

theorem reloadRevision_loaded (b : ServiceWithFaultDetectRules) :
    RevisionLoaded (reloadRevision b) := by
  unfold reloadRevision RevisionLoaded ServiceWithFaultDetectRules.CountFaultDetectRules
  by_cases h : b.faultDetectRules.len = 0
  · simp only [h, if_true]
  · simp only [h, if_false]
    rw [ComputeRevisionBySlice_eq]
    simp only [h, if_false]
    rfl

theorem NewServiceWithFaultDetectRules_loaded (svcKey : ServiceKey) :
    RevisionLoaded (NewServiceWithFaultDetectRules svcKey) := by
  unfold RevisionLoaded NewServiceWithFaultDetectRules
  rfl

theorem storeAndReload_loaded (b : ServiceWithFaultDetectRules) (entry : FaultDetectRule) :
    RevisionLoaded (storeAndReloadFaultDetectRules b entry) :=
  reloadRevision_loaded _

theorem deleteAndReload_loaded (b : ServiceWithFaultDetectRules) (id : String) :
    RevisionLoaded (deleteAndReloadFaultDetectRules b id) :=
  reloadRevision_loaded _

theorem storeKeyStep_loaded (entry : FaultDetectRule) (st : faultDetectCache × List ServiceKey)
    (svcKey : ServiceKey) (h : BucketsLoaded st.1) :
    BucketsLoaded (storeKeyStep entry st svcKey).1 := by
  unfold storeKeyStep
  split_ifs with hk
  · obtain ⟨h1, h2, h3⟩ := h
    refine ⟨h1, ?_, h3⟩
    intro ns b hb
    simp only at hb
    rw [GoMap.Load_Store] at hb
    split_ifs at hb with hns
    · injection hb with hb
      rw [← hb]
      exact storeAndReload_loaded _ _
    · cases hw : st.1.nsWildcardRules.Load svcKey.Namespace with
      | some w =>
        rw [hw] at hb
        exact h2 ns b hb
      | none =>
        rw [hw] at hb
        simp only [createAndStoreServiceWithFaultDetectRules, GoMap.Load_Store, hns,
          if_false] at hb
        exact h2 ns b hb
  · exact h

theorem storeReloadStep_loaded (entry : FaultDetectRule) (f : faultDetectCache)
    (svcToReload : ServiceKey) (h : BucketsLoaded f) :
    BucketsLoaded (storeReloadStep entry f svcToReload) := by
  unfold storeReloadStep
  obtain ⟨h1, h2, h3⟩ := h
  refine ⟨h1, h2, ?_⟩
  intro ns svcRules svc b hm hb
  simp only at hm
  rw [GoMap.Load_Store] at hm
  split_ifs at hm with hns
  · injection hm with hm
    rw [← hm, GoMap.Load_Store] at hb
    split_ifs at hb with hsvc
    · injection hb with hb
      rw [← hb]
      exact storeAndReload_loaded _ _
    · cases hold : f.svcSpecificRules.Load svcToReload.Namespace with
      | none =>
        rw [hold] at hb
        simp only at hb
        cases hl : (GoMap.empty : GoMap ServiceWithFaultDetectRules).Load svcToReload.Name with
        | some x => simp at hl
        | none =>
          rw [hl] at hb
          simp [createAndStoreServiceWithFaultDetectRules, GoMap.Load_Store, hsvc] at hb
      | some old =>
        rw [hold] at hb
        simp only at hb
        cases hl : old.Load svcToReload.Name with
        | some x =>
          rw [hl] at hb
          exact h3 _ old svc b hold hb
        | none =>
          rw [hl] at hb
          simp only [createAndStoreServiceWithFaultDetectRules, GoMap.Load_Store, hsvc,
            if_false] at hb
          exact h3 _ old svc b hold hb
  · exact h3 ns svcRules svc b hm hb

theorem deleteKeyStep_loaded (id : String) (st : faultDetectCache × List ServiceKey)
    (svcKey : ServiceKey) (h : BucketsLoaded st.1) :
    BucketsLoaded (deleteKeyStep id st svcKey).1 := by
  unfold deleteKeyStep
  split_ifs with hk
  · simp only
    cases hw : st.1.nsWildcardRules.Load svcKey.Namespace with
    | none => exact h
    | some w =>
      obtain ⟨h1, h2, h3⟩ := h
      refine ⟨h1, ?_, h3⟩
      intro ns b hb
      simp only at hb
      rw [GoMap.Load_Store] at hb
      split_ifs at hb with hns
      · injection hb with hb
        rw [← hb]
        exact deleteAndReload_loaded _ _
      · exact h2 ns b hb
  · exact h

theorem deleteReloadStep_loaded (id : String) (f : faultDetectCache)
    (svcToReload : ServiceKey) (h : BucketsLoaded f) :
    BucketsLoaded (deleteReloadStep id f svcToReload) := by
  unfold deleteReloadStep
  cases hold : f.svcSpecificRules.Load svcToReload.Namespace with
  | none => exact h
  | some old =>
    simp only
    cases hl : old.Load svcToReload.Name with
    | none => exact h
    | some x =>
      obtain ⟨h1, h2, h3⟩ := h
      refine ⟨h1, h2, ?_⟩
      intro ns svcRules svc b hm hb
      simp only at hm
      rw [GoMap.Load_Store] at hm
      split_ifs at hm with hns
      · injection hm with hm
        rw [← hm, GoMap.Load_Store] at hb
        split_ifs at hb with hsvc
        · injection hb with hb
          rw [← hb]
          exact deleteAndReload_loaded _ _
        · exact h3 _ old svc b hold hb
      · exact h3 ns svcRules svc b hm hb

theorem foldl_fst_preserves {S A K : Type} (P : S → Prop) (step : S × A → K → S × A)
    (hstep : ∀ st k, P st.1 → P (step st k).1) (l : List K) (st : S × A) (h : P st.1) :
    P (l.foldl step st).1 := by
  induction l generalizing st with
  | nil => exact h
  | cons k rest ih => exact ih _ (hstep st k h)

theorem foldl_preserves {S K : Type} (P : S → Prop) (step : S → K → S)
    (hstep : ∀ st k, P st → P (step st k)) (l : List K) (st : S) (h : P st) :
    P (l.foldl step st) := by
  induction l generalizing st with
  | nil => exact h
  | cons k rest ih => exact ih _ (hstep st k h)

theorem mapValues_loaded (g : ServiceWithFaultDetectRules → ServiceWithFaultDetectRules)
    (hg : ∀ b, RevisionLoaded (g b)) (f : faultDetectCache) :
    BucketsLoaded
      { f with
        allWildcardRules := g f.allWildcardRules,
        nsWildcardRules := f.nsWildcardRules.mapValues g,
        svcSpecificRules := f.svcSpecificRules.mapValues (fun svcRules => svcRules.mapValues g) } := by
  refine ⟨hg _, ?_, ?_⟩
  · intro ns b hb
    simp only [GoMap.Load_mapValues] at hb
    cases hl : f.nsWildcardRules.Load ns with
    | none => rw [hl] at hb; cases hb
    | some x =>
      rw [hl] at hb
      simp only [Option.map_some', Option.some.injEq] at hb
      rw [← hb]
      exact hg x
  · intro ns svcRules svc b hm hb
    simp only [GoMap.Load_mapValues] at hm
    cases hl : f.svcSpecificRules.Load ns with
    | none => rw [hl] at hm; cases hm
    | some m =>
      rw [hl] at hm
      simp only [Option.map_some', Option.some.injEq] at hm
      rw [← hm, GoMap.Load_mapValues] at hb
      cases hl2 : m.Load svc with
      | none => rw [hl2] at hb; cases hb
      | some x =>
        rw [hl2] at hb
        simp only [Option.map_some', Option.some.injEq] at hb
        rw [← hb]
        exact hg x

theorem storeFaultDetectRuleToServiceCache_loaded (f : faultDetectCache)
    (entry : FaultDetectRule) (svcKeys : List ServiceKey) (h : BucketsLoaded f) :
    BucketsLoaded (f.storeFaultDetectRuleToServiceCache entry svcKeys) := by
  unfold faultDetectCache.storeFaultDetectRuleToServiceCache
  have hst := foldl_fst_preserves BucketsLoaded (storeKeyStep entry)
    (fun st k hst => storeKeyStep_loaded entry st k hst) svcKeys (f, []) h
  by_cases h1 : svcKeys.length = 0
  · rw [if_pos h1]
    exact mapValues_loaded _ (fun b => storeAndReload_loaded b entry) f
  · rw [if_neg h1]
    simp only
    split_ifs
    · exact foldl_preserves BucketsLoaded _
        (fun st k hst => storeReloadStep_loaded entry st k hst) _ _ hst
    · exact hst

theorem deleteFaultDetectRuleFromServiceCache_loaded (f : faultDetectCache)
    (id : String) (svcKeys : List ServiceKey) (h : BucketsLoaded f) :
    BucketsLoaded (f.deleteFaultDetectRuleFromServiceCache id svcKeys) := by
  unfold faultDetectCache.deleteFaultDetectRuleFromServiceCache
  have hst := foldl_fst_preserves BucketsLoaded (deleteKeyStep id)
    (fun st k hst => deleteKeyStep_loaded id st k hst) svcKeys (f, []) h
  by_cases h1 : svcKeys.length = 0
  · rw [if_pos h1]
    exact mapValues_loaded _ (fun b => deleteAndReload_loaded b id) f
  · rw [if_neg h1]
    simp only
    split_ifs
    · exact foldl_preserves BucketsLoaded _
        (fun st k hst => deleteReloadStep_loaded id st k hst) _ _ hst
    · exact hst

theorem setFaultDetectRulesStep_loaded (st : faultDetectCache × Int) (fdRule : FaultDetectRule)
    (h : BucketsLoaded st.1) : BucketsLoaded (setFaultDetectRulesStep st fdRule).1 := by
  unfold setFaultDetectRulesStep
  cases hv : fdRule.Valid with
  | true =>
    simp only [Bool.not_true, Bool.false_eq_true, if_false]
    exact storeFaultDetectRuleToServiceCache_loaded _ _ _ h
  | false =>
    simp only [Bool.not_false, if_true]
    exact deleteFaultDetectRuleFromServiceCache_loaded _ _ _ h

theorem setFaultDetectRules_loaded (f : faultDetectCache) (fdRules : List FaultDetectRule)
    (h : BucketsLoaded f) : BucketsLoaded (f.setFaultDetectRules fdRules).1 := by
  unfold faultDetectCache.setFaultDetectRules
  split_ifs
  · exact h
  · exact foldl_fst_preserves BucketsLoaded setFaultDetectRulesStep
      (fun st k hst => setFaultDetectRulesStep_loaded st k hst) fdRules
      (f, (f.base.LastMtime FaultDetectRuleName).Unix) h

theorem BucketsLoaded_of_Reachable {f : faultDetectCache} (h : RulesReachable f) :
    BucketsLoaded f := by
  induction h with
  | init =>
    refine ⟨NewServiceWithFaultDetectRules_loaded _, ?_, ?_⟩
    · intro ns b hb; simp [newFaultDetectCache] at hb
    · intro ns svcRules svc b hm; simp [newFaultDetectCache] at hm
  | setFaultDetectRules fdRules _ ih => exact setFaultDetectRules_loaded _ _ ih
  | frame bc _ ih => exact ih

/-- C30: in every state reachable from a new fault-detect cache by calls of
`setFaultDetectRules`, every bucket (service-specific, namespace-wildcard and the
global-wildcard bucket) has the empty revision exactly when it holds no rule, and
otherwise has as revision the hexadecimal SHA-1 digest of the concatenation of the
revisions of its rules, sorted in Go's string order. -/
theorem bucket_revision_digest (f : faultDetectCache) (h : RulesReachable f)
    (b : ServiceWithFaultDetectRules) (hb : IsBucketOf f b) :
    (b.Revision = "" ↔ b.CountFaultDetectRules = 0) ∧
    (b.CountFaultDetectRules ≠ 0 →
      ∃ sorted : List String,
        sorted.Perm (b.faultDetectRules.values.map fun rule => rule.Revision) ∧
        sorted.Sorted StrLe ∧
        b.Revision = hexEncodeToString (sha1 (goBytes (concatStrings sorted)))) := by
  have hl : RevisionLoaded b := by
    obtain ⟨h1, h2, h3⟩ := BucketsLoaded_of_Reachable h
    rcases hb with hb | ⟨ns, hb⟩ | ⟨ns, svcRules, svc, hm, hb⟩
    · rw [hb]; exact h1
    · exact h2 ns b hb
    · exact h3 ns svcRules svc b hm hb
  unfold RevisionLoaded at hl
  unfold ServiceWithFaultDetectRules.CountFaultDetectRules
  by_cases hz : b.faultDetectRules.len = 0
  · rw [if_pos hz] at hl
    exact ⟨⟨fun _ => hz, fun _ => hl⟩, fun hne => absurd hz hne⟩
  · rw [if_neg hz] at hl
    refine ⟨⟨fun he => ?_, fun h0 => absurd h0 hz⟩, fun _ =>
      ⟨_, sortStrings_perm _, sortStrings_sorted _, hl⟩⟩
    have hlen : b.Revision.length = 40 := by
      rw [hl, hexEncodeToString_length, sha1_length]
    rw [he] at hlen
    exact absurd hlen (by decide)

/-- Witness for C30: in the cache reached by four rules the global-wildcard bucket holds
one rule, and its revision is the digest of that rule's revision. -/
theorem bucket_revision_digest_witness :
    RulesReachable emptyBucketCache ∧
    emptyBucketCache.allWildcardRules.CountFaultDetectRules = 1 ∧
    ∃ sorted : List String,
      sorted.Perm (emptyBucketCache.allWildcardRules.faultDetectRules.values.map
        fun rule => rule.Revision) ∧
      sorted.Sorted StrLe ∧
      emptyBucketCache.allWildcardRules.Revision =
        hexEncodeToString (sha1 (goBytes (concatStrings sorted))) :=
  ⟨RulesReachable.setFaultDetectRules _ RulesReachable.init, by decide,
   (bucket_revision_digest emptyBucketCache
     (RulesReachable.setFaultDetectRules _ RulesReachable.init)
     emptyBucketCache.allWildcardRules (Or.inl rfl)).2 (by decide)⟩

/-! ## Applying a batch of rules twice -/

/-- C26, evaluated on the code: from the new cache the batch with the valid rules `R1`
for `(N, *)` and `R2` for `(N, Svc1)` leaves the bucket of `(N, Svc1)` with `R2` only;
the same batch applied once more adds `R1` to that bucket, so the service-specific
buckets after two applications differ from those after one. -/
theorem setFaultDetectRules_twice_differs :
    (((newFaultDetectCache.setFaultDetectRules
        [sampleRule "R1" "N" "*", sampleRule "R2" "N" "Svc1"]).1.svcSpecificRules.Load "N").bind
        (fun svcRules => svcRules.Load "Svc1")).map
        (fun rules => rules.faultDetectRules.keys) = some ["R2"] ∧
    ((((newFaultDetectCache.setFaultDetectRules
        [sampleRule "R1" "N" "*", sampleRule "R2" "N" "Svc1"]).1.setFaultDetectRules
        [sampleRule "R1" "N" "*", sampleRule "R2" "N" "Svc1"]).1.svcSpecificRules.Load "N").bind
        (fun svcRules => svcRules.Load "Svc1")).map
        (fun rules => rules.faultDetectRules.keys) = some ["R1", "R2"] ∧
    ((newFaultDetectCache.setFaultDetectRules
        [sampleRule "R1" "N" "*", sampleRule "R2" "N" "Svc1"]).1.setFaultDetectRules
        [sampleRule "R1" "N" "*", sampleRule "R2" "N" "Svc1"]).1.svcSpecificRules ≠
      (newFaultDetectCache.setFaultDetectRules
        [sampleRule "R1" "N" "*", sampleRule "R2" "N" "Svc1"]).1.svcSpecificRules := by
  have h1 : (((newFaultDetectCache.setFaultDetectRules
        [sampleRule "R1" "N" "*", sampleRule "R2" "N" "Svc1"]).1.svcSpecificRules.Load "N").bind
        (fun svcRules => svcRules.Load "Svc1")).map
        (fun rules => rules.faultDetectRules.keys) = some ["R2"] := by decide
  have h2 : ((((newFaultDetectCache.setFaultDetectRules
        [sampleRule "R1" "N" "*", sampleRule "R2" "N" "Svc1"]).1.setFaultDetectRules
        [sampleRule "R1" "N" "*", sampleRule "R2" "N" "Svc1"]).1.svcSpecificRules.Load "N").bind
        (fun svcRules => svcRules.Load "Svc1")).map
        (fun rules => rules.faultDetectRules.keys) = some ["R1", "R2"] := by decide
  refine ⟨h1, h2, ?_⟩
  intro he
  rw [he, h1] at h2
  exact absurd h2 (by decide)

/-! ## Refresh round without a store time -/

/-- C33: when the read of the store clock fails, `doCacheUpdate` still takes the result
of the executor (it returns the executor's error, or on success stores a non-empty
returned map and clears the first-update flag) and `lastFetchTime` afterwards has its
value from before the call, whether the executor succeeds or fails.  In the round of
the instance cache the indexes are then those that `setInstances` leaves for the
fetched records. -/
theorem doCacheUpdate_clock_failure (bc : baseCache) (clockErr : String)
    (executed : Except String (Option (GoMap Time) × Int)) (ic : instanceCache)
    (ins : List Instance) :
    (bc.doCacheUpdate (Except.error clockErr) executed).1.lastFetchTime = bc.lastFetchTime ∧
    (∀ err, executed = Except.error err →
      (bc.doCacheUpdate (Except.error clockErr) executed).2 = some err) ∧
    (∀ m total, executed = Except.ok (m, total) →
      (bc.doCacheUpdate (Except.error clockErr) executed).2 = none ∧
      (bc.doCacheUpdate (Except.error clockErr) executed).1.firtstUpdate = false ∧
      ∀ m1, m = some m1 → m1.len ≠ 0 →
        (bc.doCacheUpdate (Except.error clockErr) executed).1.lastMtimes = m1) ∧
    (ic.doCacheUpdate (Except.error clockErr) (Except.ok ins)).1.base.lastFetchTime =
      ic.base.lastFetchTime ∧
    (ic.doCacheUpdate (Except.error clockErr) (Except.ok ins)).1.ids =
      (ic.setInstances ins).ic.ids ∧
    (ic.doCacheUpdate (Except.error clockErr) (Except.ok ins)).1.services =
      (ic.setInstances ins).ic.services := by
  refine ⟨?_, ?_, ?_, ?_, rfl, rfl⟩
  · cases executed with
    | error err => rfl
    | ok r => rfl
  · intro err h
    subst h
    rfl
  · intro m total h
    subst h
    refine ⟨rfl, rfl, ?_⟩
    intro m1 hm hlen
    subst hm
    simp [baseCache.doCacheUpdate, hlen]
  · show ((ic.setInstances ins).ic.base.doCacheUpdate (Except.error clockErr) _).1.lastFetchTime
      = ic.base.lastFetchTime
    rw [setInstances_base]
    rfl

/-- Witness for C33: the base cache with `lastFetchTime` 42 runs a round in which the
clock cannot be read and the executor returns a watermark; `lastFetchTime` stays 42
and the watermark is stored. -/
theorem doCacheUpdate_clock_failure_witness :
    (({ newBaseCache with lastFetchTime := 42 } : baseCache).doCacheUpdate
      (Except.error "clock failed")
      (Except.ok (some (GoMap.empty.Store InstanceName (timeUnix 9)), 2))).1.lastFetchTime =
      42 ∧
    (({ newBaseCache with lastFetchTime := 42 } : baseCache).doCacheUpdate
      (Except.error "clock failed")
      (Except.ok (some (GoMap.empty.Store InstanceName (timeUnix 9)), 2))).1.lastMtimes =
      GoMap.empty.Store InstanceName (timeUnix 9) :=
  have h := doCacheUpdate_clock_failure { newBaseCache with lastFetchTime := 42 }
    "clock failed" (Except.ok (some (GoMap.empty.Store InstanceName (timeUnix 9)), 2))
    newInstanceCache []
  ⟨h.1, (h.2.2.1 _ _ rfl).2.2 _ rfl (by decide)⟩

/-! ## The time of the last fetch -/

/-- The fetch time with the declared time difference, for a `lastFetchTime` that is an
`int64`: five seconds back when that is not before the unix epoch and the seconds since
year 1 do not overflow, else `lastFetchTime` itself. -/
theorem LastFetchTime_int64 (bc : baseCache) (h1 : minInt64 ≤ bc.lastFetchTime)
    (h2 : bc.lastFetchTime ≤ maxInt64) :
    bc.LastFetchTime DefaultTimeDiff =
      if 5 ≤ bc.lastFetchTime ∧ bc.lastFetchTime ≤ maxInt64 - unixToInternal then
        timeUnix (bc.lastFetchTime - 5)
      else timeUnix bc.lastFetchTime := by
  have hadd := Add_DefaultTimeDiff (timeUnix bc.lastFetchTime) rfl
  have hx := addSec_range (timeUnix bc.lastFetchTime).ext (-5)
  unfold baseCache.LastFetchTime
  simp only [hadd]
  rw [zeroTime_After _ _ hx.1 hx.2]
  by_cases hc : 5 ≤ bc.lastFetchTime ∧ bc.lastFetchTime ≤ maxInt64 - unixToInternal
  · have hs : addSec (timeUnix bc.lastFetchTime).ext (-5) =
        bc.lastFetchTime - 5 + unixToInternal := by
      unfold addSec Time.ext timeUnix wrapInt64
      unfold maxInt64 unixToInternal at hc
      unfold minInt64 maxInt64 unixToInternal
      simp only
      split_ifs <;> omega
    have hw : wrapInt64 (bc.lastFetchTime - 5 + unixToInternal - unixToInternal) =
        bc.lastFetchTime - 5 := by
      unfold wrapInt64 unixToInternal
      unfold maxInt64 unixToInternal at hc
      omega
    have hlt : ¬ bc.lastFetchTime - 5 + unixToInternal < unixToInternal := by omega
    rw [if_pos hc, hs, hw]
    simp only [hlt, decide_False, Bool.false_eq_true, if_false]
    rfl
  · have hlt : addSec (timeUnix bc.lastFetchTime).ext (-5) < unixToInternal := by
      unfold addSec Time.ext timeUnix wrapInt64
      unfold maxInt64 unixToInternal at hc
      unfold minInt64 at h1
      unfold maxInt64 at h2
      unfold minInt64 maxInt64 unixToInternal
      simp only
      split_ifs <;> omega
    rw [if_neg hc]
    simp only [hlt, decide_True, if_true]

/-- C34 (amended): `lastFetchTime` is an `int64`.  With the declared time difference of
minus five seconds, `LastFetchTime()` is unix second `lastFetchTime - 5` whenever
`lastFetchTime` is at least 5 and at most `MaxInt64 - 62135596800`, the largest second
for which the seconds since year 1 that `time.Unix` keeps do not overflow; it is unix
second `lastFetchTime` itself when `lastFetchTime - 5` lies before the unix epoch, and
also when `lastFetchTime` is above `MaxInt64 - 62135596800`; it is unix second 1 right
after `initialize`, `clear` and `resetLastFetchTime`, and it is never later than unix
second `lastFetchTime`. -/
theorem LastFetchTime_default (bc : baseCache) (hlo : minInt64 ≤ bc.lastFetchTime)
    (hhi : bc.lastFetchTime ≤ maxInt64) :
    (5 ≤ bc.lastFetchTime → bc.lastFetchTime ≤ maxInt64 - unixToInternal →
      bc.LastFetchTime DefaultTimeDiff = timeUnix (bc.lastFetchTime - 5)) ∧
    (bc.lastFetchTime < 5 → bc.LastFetchTime DefaultTimeDiff = timeUnix bc.lastFetchTime) ∧
    (maxInt64 - unixToInternal < bc.lastFetchTime →
      bc.LastFetchTime DefaultTimeDiff = timeUnix bc.lastFetchTime) ∧
    newBaseCache.LastFetchTime DefaultTimeDiff = timeUnix 1 ∧
    bc.clear.LastFetchTime DefaultTimeDiff = timeUnix 1 ∧
    bc.resetLastFetchTime.LastFetchTime DefaultTimeDiff = timeUnix 1 ∧
    (bc.LastFetchTime DefaultTimeDiff).After (timeUnix bc.lastFetchTime) = false ∧
    (bc.LastFetchTime DefaultTimeDiff).Unix ≤ bc.lastFetchTime := by
  have key := LastFetchTime_int64 bc hlo hhi
  refine ⟨?_, ?_, ?_, ?_, ?_, ?_, ?_, ?_⟩
  · intro h5 hmax
    rw [key, if_pos ⟨h5, hmax⟩]
  · intro h
    rw [key, if_neg (fun hc => by omega)]
  · intro h
    rw [key, if_neg (fun hc => by omega)]
  · decide
  · exact LastFetchTime_of_one _ _ rfl (by decide)
  · exact LastFetchTime_of_one _ _ rfl (by decide)
  · rw [key]
    have hgt : ∀ x : Int, ¬ x > x := fun x => lt_irrefl x
    split_ifs with hc
    · have e1 : (timeUnix (bc.lastFetchTime - 5)).ext =
          bc.lastFetchTime - 5 + unixToInternal := by
        show wrapInt64 (bc.lastFetchTime - 5 + unixToInternal) = _
        unfold wrapInt64 unixToInternal
        unfold maxInt64 unixToInternal at hc
        omega
      have e2 : (timeUnix bc.lastFetchTime).ext = bc.lastFetchTime + unixToInternal := by
        show wrapInt64 (bc.lastFetchTime + unixToInternal) = _
        unfold wrapInt64 unixToInternal
        unfold maxInt64 unixToInternal at hc
        omega
      unfold Time.After
      rw [e1, e2]
      simp only [decide_eq_false_iff_not, not_or, not_and]
      exact ⟨by omega, fun h => by omega⟩
    · unfold Time.After
      simp
  · rw [key]
    split_ifs
    · simp only [Time.Unix, timeUnix]; omega
    · simp only [Time.Unix, timeUnix]; exact le_refl _

/-- Witness for C34: with `lastFetchTime` 100 the fetch time is second 95, with 3 it is
second 3. -/
theorem LastFetchTime_default_witness :
    ({ newBaseCache with lastFetchTime := 100 } : baseCache).LastFetchTime DefaultTimeDiff =
      timeUnix 95 ∧
    ({ newBaseCache with lastFetchTime := 3 } : baseCache).LastFetchTime DefaultTimeDiff =
      timeUnix 3 :=
  ⟨(LastFetchTime_default { newBaseCache with lastFetchTime := 100 } (by decide)
      (by decide)).1 (by decide) (by decide),
   (LastFetchTime_default { newBaseCache with lastFetchTime := 3 } (by decide)
      (by decide)).2.1 (by decide)⟩

/-- C34 (counterexample): with `lastFetchTime` the largest `int64`, which is at least 5,
the seconds since year 1 wrap around to a negative number, the sum with minus five
seconds lies before the zero time, and `LastFetchTime()` is unix second
`9223372036854775807`, `lastFetchTime` itself, not five seconds back. -/
theorem LastFetchTime_at_max_int64 :
    (5 : Int) ≤ ({ newBaseCache with lastFetchTime := 9223372036854775807 } :
      baseCache).lastFetchTime ∧
    (timeUnix 9223372036854775807).ext = -9223371974719179009 ∧
    ((timeUnix 9223372036854775807).Add DefaultTimeDiff).ext = -9223371974719179014 ∧
    zeroTime.After ((timeUnix 9223372036854775807).Add DefaultTimeDiff) = true ∧
    ({ newBaseCache with lastFetchTime := 9223372036854775807 } :
      baseCache).LastFetchTime DefaultTimeDiff = timeUnix 9223372036854775807 ∧
    (({ newBaseCache with lastFetchTime := 9223372036854775807 } :
      baseCache).LastFetchTime DefaultTimeDiff).Unix ≠ 9223372036854775807 - 5 := by
  refine ⟨?_, ?_, ?_, ?_, ?_, ?_⟩ <;> decide

/-! ## Running instance count and per-service counts -/

theorem GetInstancesCount_eq_len (ic : instanceCache) : ic.GetInstancesCount = (ic.ids.len : Int) := by
  unfold instanceCache.GetInstancesCount GoMap.len GoMap.values
  have key : ∀ (l : List Instance) (n : Int),
      l.foldl (fun count _ => count + 1) n = n + (l.length : Int) := by
    intro l
    induction l with
    | nil => intro n; simp
    | cons a rest ih =>
      intro n
      simp only [List.foldl_cons, List.length_cons]
      rw [ih]
      push_cast
      ring
  rw [key]
  simp

theorem Reachable_clear (ic : instanceCache) : Reachable ic.clear :=
  ReachableBy.frame newBaseCache ic.revisionCh ic.lastCheckAllTime ReachableBy.init

theorem Reachable_applyBatches (batches : List (List Instance)) (ic : instanceCache)
    (h : Reachable ic) : Reachable (applyBatches ic batches) := by
  induction batches generalizing ic with
  | nil => exact h
  | cons b rest ih =>
    rw [applyBatches_cons]
    exact ih _ (ReachableBy.setInstances b h (fun _ _ => trivial))

/-- C35: in every state reachable from the initialized instance cache by calls of
`setInstances`, and likewise from a cleared cache, the running `instanceCount` (the
value that `checkAll` compares with the total of the store) equals the number of
entries of the by-id index, which is what `GetInstancesCount()` returns.  The counter
is an `int64` in the source and an integer here: the index is taken to hold fewer than
`2 ^ 63` instances. -/
theorem instanceCount_eq_GetInstancesCount (ic : instanceCache) (h : Reachable ic) :
    ic.instanceCount = ic.GetInstancesCount ∧
    ic.GetInstancesCount = (ic.ids.len : Int) ∧
    (∀ (ic0 : instanceCache) (batches : List (List Instance)),
      (applyBatches ic0.clear batches).instanceCount =
        (applyBatches ic0.clear batches).GetInstancesCount) := by
  refine ⟨?_, GetInstancesCount_eq_len ic, ?_⟩
  · rw [GetInstancesCount_eq_len]
    exact instanceCount_of_Reachable h
  · intro ic0 batches
    rw [GetInstancesCount_eq_len]
    exact instanceCount_of_Reachable (Reachable_applyBatches batches _ (Reachable_clear ic0))

/-- Witness for C35: after a batch with two instances and one tombstone of an absent
instance the counter and the index both count 2. -/
theorem instanceCount_eq_GetInstancesCount_witness :
    (newInstanceCache.setInstances sampleBatch).ic.instanceCount = 2 ∧
    (newInstanceCache.setInstances sampleBatch).ic.instanceCount =
      (newInstanceCache.setInstances sampleBatch).ic.GetInstancesCount :=
  ⟨by decide,
   (instanceCount_eq_GetInstancesCount (newInstanceCache.setInstances sampleBatch).ic
     (ReachableBy.setInstances sampleBatch ReachableBy.init (fun _ _ => trivial))).1⟩

theorem countP_disjoint_le {A : Type} (p q : A → Bool) (h : ∀ a, p a = true → q a = false)
    (l : List A) : l.countP p + l.countP q ≤ l.length := by
  induction l with
  | nil => simp
  | cons a rest ih =>
    rw [List.countP_cons, List.countP_cons, List.length_cons]
    by_cases hp : p a = true
    · have hq : ¬ q a = true := by rw [h a hp]; simp
      rw [if_pos hp, if_neg hq]
      omega
    · rw [if_neg hp]
      split_ifs <;> omega

/-- C36: in every reachable state of the instance cache and for every service id, the
count that `GetInstancesCountByServiceID` returns has `HealthyInstanceCount +
IsolateInstanceCount <= TotalInstanceCount`: an instance in isolation is not counted as
healthy.  The counters are `uint32` in the source and natural numbers here. -/
theorem healthy_plus_isolate_le_total (ic : instanceCache) (h : Reachable ic) (s : String) :
    (ic.GetInstancesCountByServiceID s).HealthyInstanceCount +
        (ic.GetInstancesCountByServiceID s).IsolateInstanceCount ≤
      (ic.GetInstancesCountByServiceID s).TotalInstanceCount := by
  unfold instanceCache.GetInstancesCountByServiceID
  split_ifs
  · exact Nat.le_refl _
  · rw [counts_of_Reachable h s]
    cases hb : ic.services.Load s with
    | none => exact Nat.le_refl _
    | some bucket =>
      unfold countsFor
      simp only
      split_ifs
      · exact Nat.le_refl _
      · simp only
        rw [countBucket_eq]
        simp only
        have := countP_disjoint_le (fun i : Instance => i.Proto.Healthy && !i.Proto.Isolate)
          (fun i : Instance => i.Proto.Isolate) (by intro a ha; simp at ha; simp [ha.2])
          bucket.values
        simpa [GoMap.len, GoMap.values] using this

/-- Witness for C36: in the cache with two healthy instances of `S1`, one of them
isolated, the counts are 1 healthy, 1 isolated, 2 in total. -/
theorem healthy_plus_isolate_le_total_witness :
    countedCache.GetInstancesCountByServiceID "S1" =
      { TotalInstanceCount := 2, HealthyInstanceCount := 1, IsolateInstanceCount := 1 } ∧
    (countedCache.GetInstancesCountByServiceID "S1").HealthyInstanceCount +
        (countedCache.GetInstancesCountByServiceID "S1").IsolateInstanceCount ≤
      (countedCache.GetInstancesCountByServiceID "S1").TotalInstanceCount :=
  ⟨by decide,
   healthy_plus_isolate_le_total countedCache
     (ReachableBy.setInstances _ ReachableBy.init (fun _ _ => trivial)) "S1"⟩

/-! ## Collisions of the revision digest -/

set_option maxRecDepth 100000 in
/-- C37: the input of the revision digest is not an injective encoding.  The instance
revisions `a`, `bc` and the instance revisions `ab`, `c` differ as multisets, yet with
the service revision `svc` both give `ComputeRevision` the bytes of `svcabc` to hash,
and so the same revision; in general two lists of instances whose sorted revisions
have the same concatenation get the same revision. -/
theorem ComputeRevision_not_injective :
    ¬ (["a", "bc"] : List String).Perm ["ab", "c"] ∧
    ComputeRevision "svc" [sampleInstance "i1" "S1" "a" true, sampleInstance "i2" "S1" "bc" true] =
      ComputeRevision "svc"
        [sampleInstance "i1" "S1" "ab" true, sampleInstance "i2" "S1" "c" true] ∧
    ComputeRevision "svc" [sampleInstance "i1" "S1" "a" true, sampleInstance "i2" "S1" "bc" true] =
      Except.ok "422f0691d4aeb0ee46762091caedeeea32e72755" ∧
    (∀ (r : String) (l1 l2 : List Instance),
      concatStrings (sortStrings (l1.map Instance.Revision)) =
        concatStrings (sortStrings (l2.map Instance.Revision)) →
      ComputeRevision r l1 = ComputeRevision r l2) := by
  refine ⟨by decide, ?_, ?_, ?_⟩
  · rw [ComputeRevision_eq, ComputeRevision_eq]
    rfl
  · rw [ComputeRevision_eq]
    rfl
  · intro r l1 l2 h
    rw [ComputeRevision_eq, ComputeRevision_eq, h]

/-! ## A rule that changes its destination -/

/-- C38: a rule update that changes the destination leaves a copy behind.  The rule
`X` is stored for `(N, Svc1)` and then, by a second valid record, for `(N, Svc2)`, in
one batch or in two: afterwards the bucket of `(N, Svc1)` still holds `X`, the lookup
for `(Svc1, N)` returns that bucket, and the bucket of `(N, Svc2)` holds `X` too. -/
theorem destination_change_leaves_copy :
    (sampleRule "X" "N" "Svc1").Valid = true ∧ (sampleRule "X" "N" "Svc2").Valid = true ∧
    (sampleRule "X" "N" "Svc1").ID = (sampleRule "X" "N" "Svc2").ID ∧
    ((newFaultDetectCache.setFaultDetectRules
        [sampleRule "X" "N" "Svc1", sampleRule "X" "N" "Svc2"]).1.GetFaultDetectConfig
        "Svc1" "N").faultDetectRules.keys = ["X"] ∧
    (((newFaultDetectCache.setFaultDetectRules
        [sampleRule "X" "N" "Svc1", sampleRule "X" "N" "Svc2"]).1.checkServiceSpecificCache
        "Svc1" "N").map fun b => b.faultDetectRules.keys) = some ["X"] ∧
    ((newFaultDetectCache.setFaultDetectRules
        [sampleRule "X" "N" "Svc1", sampleRule "X" "N" "Svc2"]).1.GetFaultDetectConfig
        "Svc2" "N").faultDetectRules.keys = ["X"] ∧
    (((newFaultDetectCache.setFaultDetectRules
        [sampleRule "X" "N" "Svc1"]).1.setFaultDetectRules
        [sampleRule "X" "N" "Svc2"]).1.GetFaultDetectConfig
        "Svc1" "N").faultDetectRules.keys = ["X"] := by
  refine ⟨rfl, rfl, rfl, ?_, ?_, ?_, ?_⟩ <;> decide

/-! ## Config-file release for the store -/

/-- C40: for every API config-file release that is not nil, the store model that
`transferConfigFileReleaseAPIModel2StoreModel` returns has the empty `ModifyBy`; its
`CreateBy` is the API `ModifyBy` value whenever that field is set, and the API
`CreateBy` value (empty when unset) only when `ModifyBy` is unset; id, namespace, group,
file name, content, comment, md5 and version are the API values, zero or empty for an
unset field. -/
theorem transferConfigFileReleaseAPIModel2StoreModel_fields (release : ApiConfigFileRelease) :
    ∃ m, transferConfigFileReleaseAPIModel2StoreModel (some release) = some m ∧
      m.ModifyBy = "" ∧
      (∀ v, release.ModifyBy = some v → m.CreateBy = v) ∧
      (release.ModifyBy = none → m.CreateBy = release.CreateBy.getD "") ∧
      m.Id = release.Id.getD 0 ∧ m.Namespace = release.Namespace.getD "" ∧
      m.Group = release.Group.getD "" ∧ m.FileName = release.FileName.getD "" ∧
      m.Content = release.Content.getD "" ∧ m.Comment = release.Comment.getD "" ∧
      m.Md5 = release.Md5.getD "" ∧ m.Version = release.Version.getD 0 := by
  refine ⟨_, rfl, rfl, ?_, ?_, ?_, ?_, ?_, ?_, ?_, ?_, ?_, ?_⟩
  · intro v hv
    simp only [hv]
  · intro hv
    simp only [hv]
    cases release.CreateBy <;> rfl
  · cases release.Id <;> rfl
  · cases release.Namespace <;> rfl
  · cases release.Group <;> rfl
  · cases release.FileName <;> rfl
  · cases release.Content <;> rfl
  · cases release.Comment <;> rfl
  · cases release.Md5 <;> rfl
  · cases release.Version <;> rfl

/-- Witness for C40: the release created by `alice` and modified by `bob` becomes a
store model created by `bob` with no modifier. -/
theorem transferConfigFileReleaseAPIModel2StoreModel_witness :
    (transferConfigFileReleaseAPIModel2StoreModel (some sampleApiRelease)).map
      (fun m => (m.CreateBy, m.ModifyBy, m.Id, m.FileName)) =
      some ("bob", "", 7, "app.yaml") ∧
    ∃ m, transferConfigFileReleaseAPIModel2StoreModel (some sampleApiRelease) = some m ∧
      m.ModifyBy = "" :=
  ⟨by decide,
   (transferConfigFileReleaseAPIModel2StoreModel_fields sampleApiRelease).imp
     fun _ h => ⟨h.1, h.2.1⟩⟩

/-! ## Legacy labels as arguments -/

theorem foldl_Store_entries_Load {V : Type} (l : List (String × V)) (hs : KeysSorted l)
    (init : GoMap V) (k : String) :
    (l.foldl (fun acc kv => acc.Store kv.1 kv.2) init).Load k =
      match rawLoad l k with
      | some v => some v
      | none => init.Load k := by
  induction l generalizing init with
  | nil => rfl
  | cons e rest ih =>
    obtain ⟨k1, v1⟩ := e
    have hs2 := List.pairwise_cons.mp hs
    simp only [List.foldl_cons]
    rw [ih hs2.2]
    simp only [rawLoad]
    by_cases hk : k = k1
    · subst hk
      rw [rawLoad_eq_none_of_lt (fun e he => hs2.1 e he)]
      simp
    · simp only [hk, if_false, GoMap.Load_Store]

theorem foldl_Store_entries {V : Type} (m : GoMap V) :
    m.entries.foldl (fun acc kv => acc.Store kv.1 kv.2) GoMap.empty = m := by
  apply GoMap.ext_Load
  intro k
  rw [foldl_Store_entries_Load _ m.sorted]
  unfold GoMap.Load
  cases rawLoad m.entries k <;> rfl

theorem foldl_arguments2LabelsStep_custom {M : Type} (l : List (String × M)) (init : GoMap M) :
    (l.map fun kv =>
        ({ Type_ := MatchArgument_Type.CUSTOM, Key := kv.1, Value := kv.2 } : MatchArgument M)
      ).foldl arguments2LabelsStep init =
      l.foldl (fun acc kv => acc.Store kv.1 kv.2) init := by
  induction l generalizing init with
  | nil => rfl
  | cons e rest ih =>
    simp only [List.map_cons, List.foldl_cons]
    rw [ih]
    rfl

/-- C39: legacy labels survive the conversion to arguments.  For every rate-limit rule
with an empty arguments list and non-empty legacy labels from which `json.Unmarshal`
reads the non-empty label map `L`, `Labels2Arguments` returns `L` without error and
leaves as arguments one argument of type `CUSTOM` for each key of `L`, with that key
and its value, and `Arguments2Labels` applied to these arguments returns a map equal
to `L`. -/
theorem Labels2Arguments_round_trip {M : Type} (r : RateLimit M)
    (unmarshal : String → Except String (Option (GoMap M))) (L : GoMap M)
    (h1 : r.Proto.Arguments = []) (h2 : r.Labels ≠ "")
    (h3 : unmarshal r.Labels = Except.ok (some L)) (h4 : L.len ≠ 0) :
    (r.Labels2Arguments unmarshal).2 = (some L, none) ∧
    (r.Labels2Arguments unmarshal).1.Proto.Arguments =
      L.entries.map (fun kv =>
        { Type_ := MatchArgument_Type.CUSTOM, Key := kv.1, Value := kv.2 }) ∧
    (∀ a ∈ (r.Labels2Arguments unmarshal).1.Proto.Arguments,
      a.Type_ = MatchArgument_Type.CUSTOM ∧ L.Load a.Key = some a.Value) ∧
    (r.Labels2Arguments unmarshal).1.Proto.Arguments.map (fun a => a.Key) = L.keys ∧
    ((r.Labels2Arguments unmarshal).1.Proto.Arguments.map fun a => a.Key).Nodup ∧
    Arguments2Labels (r.Labels2Arguments unmarshal).1.Proto.Arguments = some L := by
  have e : r.Labels2Arguments unmarshal =
      ({ r with
         Proto :=
           { r.Proto with
             Arguments := L.entries.map fun kv =>
               { Type_ := MatchArgument_Type.CUSTOM, Key := kv.1, Value := kv.2 } } },
        some L, none) := by
    unfold RateLimit.Labels2Arguments
    simp [h1, h2, h3]
  have hkeys : (L.entries.map fun kv =>
      ({ Type_ := MatchArgument_Type.CUSTOM, Key := kv.1, Value := kv.2 } :
        MatchArgument M)).map (fun a => a.Key) = L.keys := by
    rw [List.map_map]
    rfl
  rw [e]
  refine ⟨rfl, rfl, ?_, hkeys, ?_, ?_⟩
  · intro a ha
    obtain ⟨kv, hkv, hm⟩ := List.mem_map.mp ha
    subst hm
    exact ⟨rfl, (GoMap.mem_entries_iff L kv.1 kv.2).mp hkv⟩
  · simp only
    rw [hkeys]
    exact GoMap.keys_nodup L
  · unfold Arguments2Labels
    simp only
    have hlen : (L.entries.map fun kv =>
        ({ Type_ := MatchArgument_Type.CUSTOM, Key := kv.1, Value := kv.2 } :
          MatchArgument M)).length > 0 := by
      rw [List.length_map]
      exact Nat.pos_of_ne_zero h4
    rw [if_pos hlen, foldl_arguments2LabelsStep_custom, foldl_Store_entries]

/-- Witness for C39: the rule without arguments whose legacy labels hold `k` gets the one
argument `k` of type `CUSTOM`, and `Arguments2Labels` gives the label `k` back. -/
theorem Labels2Arguments_round_trip_witness :
    ((sampleRateLimit [] "labels").Labels2Arguments sampleUnmarshal).1.Proto.Arguments.map
      (fun a => (a.Type_, a.Key, a.Value)) = [(MatchArgument_Type.CUSTOM, "k", "v")] ∧
    Arguments2Labels
      ((sampleRateLimit [] "labels").Labels2Arguments sampleUnmarshal).1.Proto.Arguments =
      some (GoMap.empty.Store "k" "v") :=
  ⟨by decide,
   (Labels2Arguments_round_trip (sampleRateLimit [] "labels") sampleUnmarshal
     (GoMap.empty.Store "k" "v") rfl (by decide) rfl (by decide)).2.2.2.2.2⟩

/-! ## The effect of one record on the rule buckets -/

theorem setFaultDetectRulesStep_fst (st : faultDetectCache × Int) (r : FaultDetectRule) :
    (setFaultDetectRulesStep st r).1 = stepRule st.1 r := by
  unfold setFaultDetectRulesStep stepRule
  cases r.Valid <;> rfl

theorem foldl_setFaultDetectRulesStep_fst (l : List FaultDetectRule)
    (st : faultDetectCache × Int) :
    (l.foldl setFaultDetectRulesStep st).1 = l.foldl stepRule st.1 := by
  induction l generalizing st with
  | nil => rfl
  | cons r rest ih =>
    simp only [List.foldl_cons]
    rw [ih, setFaultDetectRulesStep_fst]

theorem setFaultDetectRules_fst (f : faultDetectCache) (l : List FaultDetectRule) :
    (f.setFaultDetectRules l).1 = l.foldl stepRule f := by
  unfold faultDetectCache.setFaultDetectRules
  split_ifs with h
  · have : l = [] := List.length_eq_zero.mp h
    subst this
    rfl
  · simp only
    rw [foldl_setFaultDetectRulesStep_fst]

theorem getServicesInvolveByFaultDetectRule_eq (r : FaultDetectRule) :
    getServicesInvolveByFaultDetectRule r =
      if r.DstService = allMatched ∧ r.DstNamespace = allMatched then []
      else [{ Namespace := r.DstNamespace, Name := r.DstService }] := by
  unfold getServicesInvolveByFaultDetectRule
  simp only
  split_ifs <;> rfl

theorem ServiceKey_eq_iff (k : ServiceKey) (ns svc : String) :
    ({ Namespace := ns, Name := svc } : ServiceKey) = k ↔ ns = k.Namespace ∧ svc = k.Name := by
  cases k
  simp

theorem storeReloadStep_check (entry : FaultDetectRule) (f : faultDetectCache)
    (k : ServiceKey) (svc ns : String) :
    (storeReloadStep entry f k).checkServiceSpecificCache svc ns =
      if ns = k.Namespace ∧ svc = k.Name then
        some (storeAndReloadFaultDetectRules
          ((f.checkServiceSpecificCache k.Name k.Namespace).getD
            (NewServiceWithFaultDetectRules k)) entry)
      else f.checkServiceSpecificCache svc ns := by
  unfold storeReloadStep faultDetectCache.checkServiceSpecificCache
  simp only [GoMap.Load_Store]
  by_cases hns : ns = k.Namespace
  · subst hns
    simp only [if_true, true_and]
    cases hm : f.svcSpecificRules.Load k.Namespace with
    | none =>
      simp only [GoMap.Load_empty, createAndStoreServiceWithFaultDetectRules, GoMap.Load_Store,
        Option.getD_none]
      split_ifs <;> rfl
    | some inner =>
      simp only
      cases hb : inner.Load k.Name with
      | none =>
        simp only [createAndStoreServiceWithFaultDetectRules, GoMap.Load_Store, Option.getD_none]
        split_ifs <;> rfl
      | some b =>
        simp only [GoMap.Load_Store, Option.getD_some]
  · simp only [hns, if_false, false_and]

theorem storeReloadStep_frame (entry : FaultDetectRule) (f : faultDetectCache)
    (k : ServiceKey) :
    (storeReloadStep entry f k).nsWildcardRules = f.nsWildcardRules ∧
    (storeReloadStep entry f k).allWildcardRules = f.allWildcardRules := ⟨rfl, rfl⟩

theorem deleteReloadStep_check (id : String) (f : faultDetectCache)
    (k : ServiceKey) (svc ns : String) :
    (deleteReloadStep id f k).checkServiceSpecificCache svc ns =
      if ns = k.Namespace ∧ svc = k.Name then
        (f.checkServiceSpecificCache svc ns).map fun b => deleteAndReloadFaultDetectRules b id
      else f.checkServiceSpecificCache svc ns := by
  unfold deleteReloadStep faultDetectCache.checkServiceSpecificCache
  cases hm : f.svcSpecificRules.Load k.Namespace with
  | none =>
    simp only
    by_cases hns : ns = k.Namespace
    · subst hns
      simp [hm]
    · simp [hns]
  | some inner =>
    simp only
    cases hb : inner.Load k.Name with
    | none =>
      simp only
      by_cases hns : ns = k.Namespace
      · subst hns
        by_cases hsvc : svc = k.Name
        · subst hsvc; simp [hm, hb]
        · simp [hsvc]
      · simp [hns]
    | some b =>
      simp only [GoMap.Load_Store]
      by_cases hns : ns = k.Namespace
      · subst hns
        simp only [if_true, true_and, hm, GoMap.Load_Store]
        by_cases hsvc : svc = k.Name
        · subst hsvc; simp [hb]
        · simp [hsvc]
      · simp [hns]

theorem deleteReloadStep_frame (id : String) (f : faultDetectCache) (k : ServiceKey) :
    (deleteReloadStep id f k).nsWildcardRules = f.nsWildcardRules ∧
    (deleteReloadStep id f k).allWildcardRules = f.allWildcardRules := by
  unfold deleteReloadStep
  cases f.svcSpecificRules.Load k.Namespace with
  | none => exact ⟨rfl, rfl⟩
  | some inner =>
    simp only
    cases inner.Load k.Name <;> exact ⟨rfl, rfl⟩

theorem foldl_storeReloadStep (entry : FaultDetectRule) (l : List ServiceKey) (hn : l.Nodup)
    (f : faultDetectCache) :
    (∀ svc ns, (l.foldl (storeReloadStep entry) f).checkServiceSpecificCache svc ns =
      if ({ Namespace := ns, Name := svc } : ServiceKey) ∈ l then
        some (storeAndReloadFaultDetectRules
          ((f.checkServiceSpecificCache svc ns).getD
            (NewServiceWithFaultDetectRules { Namespace := ns, Name := svc })) entry)
      else f.checkServiceSpecificCache svc ns) ∧
    (l.foldl (storeReloadStep entry) f).nsWildcardRules = f.nsWildcardRules ∧
    (l.foldl (storeReloadStep entry) f).allWildcardRules = f.allWildcardRules := by
  induction l generalizing f with
  | nil => exact ⟨fun _ _ => by simp, rfl, rfl⟩
  | cons k rest ih =>
    have hn2 := List.nodup_cons.mp hn
    obtain ⟨h1, h2, h3⟩ := ih hn2.2 (storeReloadStep entry f k)
    simp only [List.foldl_cons]
    refine ⟨?_, h2, h3⟩
    intro svc ns
    rw [h1, storeReloadStep_check]
    by_cases hk : ns = k.Namespace ∧ svc = k.Name
    · obtain ⟨e1, e2⟩ := hk
      subst e1 e2
      have hkey : ({ Namespace := k.Namespace, Name := k.Name } : ServiceKey) = k := by
        cases k; rfl
      rw [hkey, if_neg hn2.1, if_pos ⟨rfl, rfl⟩, if_pos (List.mem_cons_self _ _)]
    · have hkey : ¬ ({ Namespace := ns, Name := svc } : ServiceKey) = k := fun e =>
        hk ((ServiceKey_eq_iff k ns svc).mp e)
      simp only [hk, if_false, List.mem_cons, hkey, false_or]

theorem foldl_deleteReloadStep (id : String) (l : List ServiceKey) (hn : l.Nodup)
    (f : faultDetectCache) :
    (∀ svc ns, (l.foldl (deleteReloadStep id) f).checkServiceSpecificCache svc ns =
      if ({ Namespace := ns, Name := svc } : ServiceKey) ∈ l then
        (f.checkServiceSpecificCache svc ns).map fun b => deleteAndReloadFaultDetectRules b id
      else f.checkServiceSpecificCache svc ns) ∧
    (l.foldl (deleteReloadStep id) f).nsWildcardRules = f.nsWildcardRules ∧
    (l.foldl (deleteReloadStep id) f).allWildcardRules = f.allWildcardRules := by
  induction l generalizing f with
  | nil => exact ⟨fun _ _ => by simp, rfl, rfl⟩
  | cons k rest ih =>
    have hn2 := List.nodup_cons.mp hn
    obtain ⟨h1, h2, h3⟩ := ih hn2.2 (deleteReloadStep id f k)
    obtain ⟨g2, g3⟩ := deleteReloadStep_frame id f k
    simp only [List.foldl_cons]
    refine ⟨?_, h2.trans g2, h3.trans g3⟩
    intro svc ns
    rw [h1, deleteReloadStep_check]
    by_cases hk : ns = k.Namespace ∧ svc = k.Name
    · obtain ⟨e1, e2⟩ := hk
      subst e1 e2
      have hkey : ({ Namespace := k.Namespace, Name := k.Name } : ServiceKey) = k := by
        cases k; rfl
      rw [hkey, if_neg hn2.1, if_pos ⟨rfl, rfl⟩, if_pos (List.mem_cons_self _ _)]
    · have hkey : ¬ ({ Namespace := ns, Name := svc } : ServiceKey) = k := fun e =>
        hk ((ServiceKey_eq_iff k ns svc).mp e)
      simp only [hk, if_false, List.mem_cons, hkey, false_or]

theorem foldl_insert_keys (ns : String) (keys : List String) (acc : List ServiceKey)
    (hacc : acc.Nodup) :
    (keys.foldl (fun acc svc => acc.insert ({ Namespace := ns, Name := svc } : ServiceKey))
      acc).Nodup ∧
    ∀ k, k ∈ keys.foldl
        (fun acc svc => acc.insert ({ Namespace := ns, Name := svc } : ServiceKey)) acc ↔
      k ∈ acc ∨ ∃ svc ∈ keys, ({ Namespace := ns, Name := svc } : ServiceKey) = k := by
  induction keys generalizing acc with
  | nil => exact ⟨hacc, fun k => by simp⟩
  | cons svc rest ih =>
    simp only [List.foldl_cons]
    obtain ⟨h1, h2⟩ := ih (acc.insert { Namespace := ns, Name := svc }) (hacc.insert)
    refine ⟨h1, ?_⟩
    intro k
    rw [h2, List.mem_insert_iff]
    constructor
    · rintro ((h | h) | ⟨s, hs, h⟩)
      · exact Or.inr ⟨svc, List.mem_cons_self _ _, h.symm⟩
      · exact Or.inl h
      · exact Or.inr ⟨s, List.mem_cons_of_mem _ hs, h⟩
    · rintro (h | ⟨s, hs, h⟩)
      · exact Or.inl (Or.inr h)
      · rcases List.mem_cons.mp hs with e | e
        · subst e; exact Or.inl (Or.inl h.symm)
        · exact Or.inr ⟨s, e, h⟩

theorem addNamespaceServices_mem (f : faultDetectCache) (ns0 : String) :
    (addNamespaceServices f ns0 []).Nodup ∧
    ∀ svc ns, ({ Namespace := ns, Name := svc } : ServiceKey) ∈ addNamespaceServices f ns0 [] ↔
      ns = ns0 ∧ (f.checkServiceSpecificCache svc ns).isSome = true := by
  unfold addNamespaceServices faultDetectCache.checkServiceSpecificCache
  cases hm : f.svcSpecificRules.Load ns0 with
  | none =>
    refine ⟨List.nodup_nil, ?_⟩
    intro svc ns
    simp only [List.not_mem_nil, false_iff, not_and]
    intro hns
    subst hns
    simp [hm]
  | some inner =>
    simp only
    obtain ⟨h1, h2⟩ := foldl_insert_keys ns0 inner.keys [] List.nodup_nil
    refine ⟨h1, ?_⟩
    intro svc ns
    rw [h2]
    simp only [List.not_mem_nil, false_or]
    constructor
    · rintro ⟨s, hs, e⟩
      injection e with e1 e2
      subst e1 e2
      rw [hm]
      exact ⟨rfl, (GoMap.mem_keys_iff inner s).mp hs⟩
    · rintro ⟨hns, hsome⟩
      subst hns
      rw [hm] at hsome
      exact ⟨svc, (GoMap.mem_keys_iff inner svc).mpr hsome, rfl⟩

theorem store_global_bucketAt (f : faultDetectCache) (entry : FaultDetectRule)
    (loc : BucketLoc) :
    (f.storeFaultDetectRuleToServiceCache entry []).bucketAt loc =
      (f.bucketAt loc).map fun b => storeAndReloadFaultDetectRules b entry := by
  unfold faultDetectCache.storeFaultDetectRuleToServiceCache
  simp only [List.length_nil, if_true]
  cases loc with
  | all => rfl
  | ns ns => simp only [faultDetectCache.bucketAt, GoMap.Load_mapValues]
  | svc ns svc =>
    simp only [faultDetectCache.bucketAt, faultDetectCache.checkServiceSpecificCache,
      GoMap.Load_mapValues]
    cases f.svcSpecificRules.Load ns with
    | none => rfl
    | some inner => simp only [Option.map_some', GoMap.Load_mapValues]

theorem delete_global_bucketAt (f : faultDetectCache) (id : String) (loc : BucketLoc) :
    (f.deleteFaultDetectRuleFromServiceCache id []).bucketAt loc =
      (f.bucketAt loc).map fun b => deleteAndReloadFaultDetectRules b id := by
  unfold faultDetectCache.deleteFaultDetectRuleFromServiceCache
  simp only [List.length_nil, if_true]
  cases loc with
  | all => rfl
  | ns ns => simp only [faultDetectCache.bucketAt, GoMap.Load_mapValues]
  | svc ns svc =>
    simp only [faultDetectCache.bucketAt, faultDetectCache.checkServiceSpecificCache,
      GoMap.Load_mapValues]
    cases f.svcSpecificRules.Load ns with
    | none => rfl
    | some inner => simp only [Option.map_some', GoMap.Load_mapValues]

theorem storeKeyStep_wild (entry : FaultDetectRule) (f : faultDetectCache) (k : ServiceKey)
    (hk : k.Name = allMatched) :
    (storeKeyStep entry (f, []) k).2 =
      addNamespaceServices (storeKeyStep entry (f, []) k).1 k.Namespace [] ∧
    (storeKeyStep entry (f, []) k).1.svcSpecificRules = f.svcSpecificRules ∧
    (storeKeyStep entry (f, []) k).1.allWildcardRules = f.allWildcardRules ∧
    ∀ ns, (storeKeyStep entry (f, []) k).1.nsWildcardRules.Load ns =
      if ns = k.Namespace then
        some (storeAndReloadFaultDetectRules
          ((f.nsWildcardRules.Load k.Namespace).getD (NewServiceWithFaultDetectRules k)) entry)
      else f.nsWildcardRules.Load ns := by
  unfold storeKeyStep
  rw [if_pos hk]
  refine ⟨rfl, rfl, rfl, ?_⟩
  intro ns
  simp only [GoMap.Load_Store]
  by_cases hns : ns = k.Namespace
  · simp only [hns, if_true]
    cases f.nsWildcardRules.Load k.Namespace <;> rfl
  · simp only [hns, if_false]
    cases f.nsWildcardRules.Load k.Namespace with
    | none => simp [createAndStoreServiceWithFaultDetectRules, GoMap.Load_Store, hns]
    | some w => rfl

theorem deleteKeyStep_wild (id : String) (f : faultDetectCache) (k : ServiceKey)
    (hk : k.Name = allMatched) :
    (deleteKeyStep id (f, []) k).2 =
      addNamespaceServices (deleteKeyStep id (f, []) k).1 k.Namespace [] ∧
    (deleteKeyStep id (f, []) k).1.svcSpecificRules = f.svcSpecificRules ∧
    (deleteKeyStep id (f, []) k).1.allWildcardRules = f.allWildcardRules ∧
    ∀ ns, (deleteKeyStep id (f, []) k).1.nsWildcardRules.Load ns =
      if ns = k.Namespace then
        (f.nsWildcardRules.Load ns).map fun b => deleteAndReloadFaultDetectRules b id
      else f.nsWildcardRules.Load ns := by
  unfold deleteKeyStep
  rw [if_pos hk]
  simp only
  cases hw : f.nsWildcardRules.Load k.Namespace with
  | none =>
    refine ⟨trivial, rfl, rfl, ?_⟩
    intro ns
    by_cases hns : ns = k.Namespace
    · subst hns; simp [hw]
    · simp [hns]
  | some w =>
    refine ⟨trivial, rfl, rfl, ?_⟩
    intro ns
    simp only [GoMap.Load_Store]
    by_cases hns : ns = k.Namespace
    · subst hns; simp [hw]
    · simp [hns]

theorem check_congr (f g : faultDetectCache) (h : f.svcSpecificRules = g.svcSpecificRules)
    (svc ns : String) : f.checkServiceSpecificCache svc ns = g.checkServiceSpecificCache svc ns := by
  unfold faultDetectCache.checkServiceSpecificCache
  rw [h]

theorem store_wild_bucketAt (f : faultDetectCache) (entry : FaultDetectRule) (k : ServiceKey)
    (hk : k.Name = allMatched) (loc : BucketLoc) :
    (f.storeFaultDetectRuleToServiceCache entry [k]).bucketAt loc =
      match loc with
      | .all => f.bucketAt .all
      | .ns ns =>
        if ns = k.Namespace then
          some (storeAndReloadFaultDetectRules
            ((f.bucketAt (.ns k.Namespace)).getD (NewServiceWithFaultDetectRules k)) entry)
        else f.bucketAt (.ns ns)
      | .svc ns svc =>
        if ns = k.Namespace then
          (f.bucketAt (.svc ns svc)).map fun b => storeAndReloadFaultDetectRules b entry
        else f.bucketAt (.svc ns svc) := by
  obtain ⟨h1, h2, h3, h4⟩ := storeKeyStep_wild entry f k hk
  have hfold : f.storeFaultDetectRuleToServiceCache entry [k] =
      (storeKeyStep entry (f, []) k).2.foldl (storeReloadStep entry)
        (storeKeyStep entry (f, []) k).1 := by
    unfold faultDetectCache.storeFaultDetectRuleToServiceCache
    rw [if_neg (by simp)]
    simp only [List.foldl_cons, List.foldl_nil]
    split_ifs with hl
    · rfl
    · have : (storeKeyStep entry (f, []) k).2 = [] := by
        cases hq : (storeKeyStep entry (f, []) k).2 with
        | nil => rfl
        | cons a b => rw [hq] at hl; simp at hl
      rw [this]
      rfl
  obtain ⟨hnd, hmem⟩ := addNamespaceServices_mem (storeKeyStep entry (f, []) k).1 k.Namespace
  rw [← h1] at hnd hmem
  obtain ⟨g1, g2, g3⟩ := foldl_storeReloadStep entry _ hnd (storeKeyStep entry (f, []) k).1
  rw [hfold]
  cases loc with
  | all => simp only [faultDetectCache.bucketAt, g3, h3]
  | ns ns => simp only [faultDetectCache.bucketAt, g2, h4]
  | svc ns svc =>
    have hc := check_congr _ f h2 svc ns
    simp only [faultDetectCache.bucketAt]
    rw [g1]
    simp only [hmem, hc]
    by_cases hns : ns = k.Namespace
    · simp only [hns, true_and, if_true]
      cases f.checkServiceSpecificCache svc k.Namespace <;> simp
    · simp only [hns, false_and, if_false]

theorem delete_wild_bucketAt (f : faultDetectCache) (id : String) (k : ServiceKey)
    (hk : k.Name = allMatched) (loc : BucketLoc) :
    (f.deleteFaultDetectRuleFromServiceCache id [k]).bucketAt loc =
      match loc with
      | .all => f.bucketAt .all
      | .ns ns =>
        if ns = k.Namespace then
          (f.bucketAt (.ns ns)).map fun b => deleteAndReloadFaultDetectRules b id
        else f.bucketAt (.ns ns)
      | .svc ns svc =>
        if ns = k.Namespace then
          (f.bucketAt (.svc ns svc)).map fun b => deleteAndReloadFaultDetectRules b id
        else f.bucketAt (.svc ns svc) := by
  obtain ⟨h1, h2, h3, h4⟩ := deleteKeyStep_wild id f k hk
  have hfold : f.deleteFaultDetectRuleFromServiceCache id [k] =
      (deleteKeyStep id (f, []) k).2.foldl (deleteReloadStep id)
        (deleteKeyStep id (f, []) k).1 := by
    unfold faultDetectCache.deleteFaultDetectRuleFromServiceCache
    rw [if_neg (by simp)]
    simp only [List.foldl_cons, List.foldl_nil]
    split_ifs with hl
    · rfl
    · have : (deleteKeyStep id (f, []) k).2 = [] := by
        cases hq : (deleteKeyStep id (f, []) k).2 with
        | nil => rfl
        | cons a b => rw [hq] at hl; simp at hl
      rw [this]
      rfl
  obtain ⟨hnd, hmem⟩ := addNamespaceServices_mem (deleteKeyStep id (f, []) k).1 k.Namespace
  rw [← h1] at hnd hmem
  obtain ⟨g1, g2, g3⟩ := foldl_deleteReloadStep id _ hnd (deleteKeyStep id (f, []) k).1
  rw [hfold]
  cases loc with
  | all => simp only [faultDetectCache.bucketAt, g3, h3]
  | ns ns => simp only [faultDetectCache.bucketAt, g2, h4]
  | svc ns svc =>
    have hc := check_congr _ f h2 svc ns
    simp only [faultDetectCache.bucketAt]
    rw [g1]
    simp only [hmem, hc]
    by_cases hns : ns = k.Namespace
    · simp only [hns, true_and, if_true]
      cases f.checkServiceSpecificCache svc k.Namespace <;> simp
    · simp only [hns, false_and, if_false]

theorem store_specific_bucketAt (f : faultDetectCache) (entry : FaultDetectRule)
    (k : ServiceKey) (hk : k.Name ≠ allMatched) (loc : BucketLoc) :
    (f.storeFaultDetectRuleToServiceCache entry [k]).bucketAt loc =
      match loc with
      | .all => f.bucketAt .all
      | .ns ns => f.bucketAt (.ns ns)
      | .svc ns svc =>
        if ns = k.Namespace ∧ svc = k.Name then
          some (storeAndReloadFaultDetectRules
            ((f.bucketAt (.svc k.Namespace k.Name)).getD (NewServiceWithFaultDetectRules k))
            entry)
        else f.bucketAt (.svc ns svc) := by
  have hfold : f.storeFaultDetectRuleToServiceCache entry [k] = storeReloadStep entry f k := by
    unfold faultDetectCache.storeFaultDetectRuleToServiceCache
    rw [if_neg (by simp)]
    simp only [List.foldl_cons, List.foldl_nil, storeKeyStep, hk, if_false, List.insert_nil,
      List.length_singleton, gt_iff_lt, Nat.lt_one_iff, Nat.pos_of_ne_zero, if_true]
  rw [hfold]
  cases loc with
  | all => rfl
  | ns ns => rfl
  | svc ns svc =>
    simp only [faultDetectCache.bucketAt]
    exact storeReloadStep_check entry f k svc ns

theorem delete_specific_bucketAt (f : faultDetectCache) (id : String)
    (k : ServiceKey) (hk : k.Name ≠ allMatched) (loc : BucketLoc) :
    (f.deleteFaultDetectRuleFromServiceCache id [k]).bucketAt loc =
      match loc with
      | .all => f.bucketAt .all
      | .ns ns => f.bucketAt (.ns ns)
      | .svc ns svc =>
        if ns = k.Namespace ∧ svc = k.Name then
          (f.bucketAt (.svc ns svc)).map fun b => deleteAndReloadFaultDetectRules b id
        else f.bucketAt (.svc ns svc) := by
  have hfold : f.deleteFaultDetectRuleFromServiceCache id [k] = deleteReloadStep id f k := by
    unfold faultDetectCache.deleteFaultDetectRuleFromServiceCache
    rw [if_neg (by simp)]
    simp only [List.foldl_cons, List.foldl_nil, deleteKeyStep, hk, if_false, List.insert_nil,
      List.length_singleton, gt_iff_lt, Nat.lt_one_iff, Nat.pos_of_ne_zero, if_true]
  rw [hfold]
  obtain ⟨g2, g3⟩ := deleteReloadStep_frame id f k
  cases loc with
  | all => simp only [faultDetectCache.bucketAt, g3]
  | ns ns => simp only [faultDetectCache.bucketAt, g2]
  | svc ns svc =>
    simp only [faultDetectCache.bucketAt]
    exact deleteReloadStep_check id f k svc ns

theorem reloadRevision_rules (b : ServiceWithFaultDetectRules) :
    (reloadRevision b).faultDetectRules = b.faultDetectRules ∧
    (reloadRevision b).Service = b.Service := by
  unfold reloadRevision
  simp only
  split_ifs
  · exact ⟨rfl, rfl⟩
  · cases ComputeRevisionBySlice Hasher.new
      (sortStrings (b.faultDetectRules.values.map fun rule => rule.Revision)) <;> exact ⟨rfl, rfl⟩

theorem storeAndReload_rules (b : ServiceWithFaultDetectRules) (r : FaultDetectRule) :
    (storeAndReloadFaultDetectRules b r).faultDetectRules = b.faultDetectRules.Store r.ID r ∧
    (storeAndReloadFaultDetectRules b r).Service = b.Service :=
  reloadRevision_rules _

theorem deleteAndReload_rules (b : ServiceWithFaultDetectRules) (id : String) :
    (deleteAndReloadFaultDetectRules b id).faultDetectRules = b.faultDetectRules.Delete id ∧
    (deleteAndReloadFaultDetectRules b id).Service = b.Service :=
  reloadRevision_rules _

theorem holdsRule_map_store (o : Option ServiceWithFaultDetectRules) (r : FaultDetectRule)
    (id : String)
    (h : holdsRule (o.map fun b => storeAndReloadFaultDetectRules b r) id) :
    id = r.ID ∨ holdsRule o id := by
  obtain ⟨b2, hb, hl⟩ := h
  cases o with
  | none => simp at hb
  | some b =>
    simp only [Option.map_some', Option.some.injEq] at hb
    subst hb
    rw [(storeAndReload_rules b r).1, GoMap.Load_Store] at hl
    by_cases hid : id = r.ID
    · exact Or.inl hid
    · rw [if_neg hid] at hl
      exact Or.inr ⟨b, rfl, hl⟩

theorem holdsRule_some_store (o : Option ServiceWithFaultDetectRules) (k : ServiceKey)
    (r : FaultDetectRule) (id : String)
    (h : holdsRule
      (some (storeAndReloadFaultDetectRules (o.getD (NewServiceWithFaultDetectRules k)) r)) id) :
    id = r.ID ∨ holdsRule o id := by
  obtain ⟨b2, hb, hl⟩ := h
  simp only [Option.some.injEq] at hb
  subst hb
  rw [(storeAndReload_rules _ r).1, GoMap.Load_Store] at hl
  by_cases hid : id = r.ID
  · exact Or.inl hid
  · rw [if_neg hid] at hl
    cases o with
    | none => simp [NewServiceWithFaultDetectRules] at hl
    | some b => exact Or.inr ⟨b, rfl, hl⟩

theorem holdsRule_map_delete (o : Option ServiceWithFaultDetectRules) (x id : String)
    (h : holdsRule (o.map fun b => deleteAndReloadFaultDetectRules b x) id) :
    id ≠ x ∧ holdsRule o id := by
  obtain ⟨b2, hb, hl⟩ := h
  cases o with
  | none => simp at hb
  | some b =>
    simp only [Option.map_some', Option.some.injEq] at hb
    subst hb
    rw [(deleteAndReload_rules b x).1, GoMap.Load_Delete] at hl
    by_cases hid : id = x
    · rw [if_pos hid] at hl; simp at hl
    · rw [if_neg hid] at hl
      exact ⟨hid, b, rfl, hl⟩

/-- What one record does to the bucket at a location: nothing when its destination does
not cover the location; a valid record is stored in the bucket, which is created if the
record is addressed to it by name; a tombstone is deleted from the bucket. -/
theorem stepRule_bucketAt (f : faultDetectCache) (r : FaultDetectRule) (loc : BucketLoc) :
    (¬ covers r.DstNamespace r.DstService loc ∧ (stepRule f r).bucketAt loc = f.bucketAt loc) ∨
    (covers r.DstNamespace r.DstService loc ∧ r.Valid = true ∧
      ((stepRule f r).bucketAt loc =
          (f.bucketAt loc).map (fun b => storeAndReloadFaultDetectRules b r) ∨
        (stepRule f r).bucketAt loc =
          some (storeAndReloadFaultDetectRules
            ((f.bucketAt loc).getD
              (NewServiceWithFaultDetectRules ⟨r.DstNamespace, r.DstService⟩)) r))) ∨
    (covers r.DstNamespace r.DstService loc ∧ r.Valid = false ∧
      (stepRule f r).bucketAt loc =
        (f.bucketAt loc).map fun b => deleteAndReloadFaultDetectRules b r.ID) := by
  unfold stepRule
  rw [getServicesInvolveByFaultDetectRule_eq]
  by_cases hg : r.DstService = allMatched ∧ r.DstNamespace = allMatched
  · have hc : covers r.DstNamespace r.DstService loc := by
      cases loc with
      | all => exact ⟨hg.2, hg.1⟩
      | ns ns => exact ⟨hg.1, Or.inl hg.2⟩
      | svc ns svc => exact Or.inl ⟨hg.1, Or.inl hg.2⟩
    rw [if_pos hg]
    cases hv : r.Valid with
    | true =>
      simp only [Bool.not_true, Bool.false_eq_true, if_false]
      exact Or.inr (Or.inl ⟨hc, trivial, Or.inl (store_global_bucketAt f r loc)⟩)
    | false =>
      simp only [Bool.not_false, if_true]
      exact Or.inr (Or.inr ⟨hc, trivial, delete_global_bucketAt f r.ID loc⟩)
  · rw [if_neg hg]
    by_cases hw : r.DstService = allMatched
    · have hns : r.DstNamespace ≠ allMatched := fun h => hg ⟨hw, h⟩
      cases hv : r.Valid with
      | true =>
        simp only [Bool.not_true, Bool.false_eq_true, if_false]
        rw [store_wild_bucketAt f r ⟨r.DstNamespace, r.DstService⟩ hw loc]
        cases loc with
        | all => exact Or.inl ⟨fun h => hns h.1, rfl⟩
        | ns ns =>
          simp only
          by_cases h : ns = r.DstNamespace
          · subst h
            rw [if_pos rfl]
            exact Or.inr (Or.inl ⟨⟨hw, Or.inr rfl⟩, trivial, Or.inr rfl⟩)
          · rw [if_neg h]
            refine Or.inl ⟨?_, rfl⟩
            rintro ⟨_, h1 | h1⟩
            · exact hns h1
            · exact h h1.symm
        | svc ns svc =>
          simp only
          by_cases h : ns = r.DstNamespace
          · subst h
            rw [if_pos rfl]
            exact Or.inr (Or.inl ⟨Or.inl ⟨hw, Or.inr rfl⟩, trivial, Or.inl rfl⟩)
          · rw [if_neg h]
            refine Or.inl ⟨?_, rfl⟩
            rintro (⟨_, h1 | h1⟩ | ⟨h1, _⟩)
            · exact hns h1
            · exact h h1.symm
            · exact h h1.symm
      | false =>
        simp only [Bool.not_false, if_true]
        rw [delete_wild_bucketAt f r.ID ⟨r.DstNamespace, r.DstService⟩ hw loc]
        cases loc with
        | all => exact Or.inl ⟨fun h => hns h.1, rfl⟩
        | ns ns =>
          simp only
          by_cases h : ns = r.DstNamespace
          · subst h
            rw [if_pos rfl]
            exact Or.inr (Or.inr ⟨⟨hw, Or.inr rfl⟩, trivial, rfl⟩)
          · rw [if_neg h]
            refine Or.inl ⟨?_, rfl⟩
            rintro ⟨_, h1 | h1⟩
            · exact hns h1
            · exact h h1.symm
        | svc ns svc =>
          simp only
          by_cases h : ns = r.DstNamespace
          · subst h
            rw [if_pos rfl]
            exact Or.inr (Or.inr ⟨Or.inl ⟨hw, Or.inr rfl⟩, trivial, rfl⟩)
          · rw [if_neg h]
            refine Or.inl ⟨?_, rfl⟩
            rintro (⟨_, h1 | h1⟩ | ⟨h1, _⟩)
            · exact hns h1
            · exact h h1.symm
            · exact h h1.symm
    · cases hv : r.Valid with
      | true =>
        simp only [Bool.not_true, Bool.false_eq_true, if_false]
        rw [store_specific_bucketAt f r ⟨r.DstNamespace, r.DstService⟩ hw loc]
        cases loc with
        | all => exact Or.inl ⟨fun h => hw h.2, rfl⟩
        | ns ns => exact Or.inl ⟨fun h => hw h.1, rfl⟩
        | svc ns svc =>
          simp only
          by_cases h : ns = r.DstNamespace ∧ svc = r.DstService
          · obtain ⟨h1, h2⟩ := h
            subst h1 h2
            rw [if_pos ⟨rfl, rfl⟩]
            exact Or.inr (Or.inl ⟨Or.inr ⟨rfl, rfl⟩, trivial, Or.inr rfl⟩)
          · rw [if_neg h]
            refine Or.inl ⟨?_, rfl⟩
            rintro (⟨h1, _⟩ | ⟨h1, h2⟩)
            · exact hw h1
            · exact h ⟨h1.symm, h2.symm⟩
      | false =>
        simp only [Bool.not_false, if_true]
        rw [delete_specific_bucketAt f r.ID ⟨r.DstNamespace, r.DstService⟩ hw loc]
        cases loc with
        | all => exact Or.inl ⟨fun h => hw h.2, rfl⟩
        | ns ns => exact Or.inl ⟨fun h => hw h.1, rfl⟩
        | svc ns svc =>
          simp only
          by_cases h : ns = r.DstNamespace ∧ svc = r.DstService
          · obtain ⟨h1, h2⟩ := h
            subst h1 h2
            rw [if_pos ⟨rfl, rfl⟩]
            exact Or.inr (Or.inr ⟨Or.inr ⟨rfl, rfl⟩, trivial, rfl⟩)
          · rw [if_neg h]
            refine Or.inl ⟨?_, rfl⟩
            rintro (⟨h1, _⟩ | ⟨h1, h2⟩)
            · exact hw h1
            · exact h ⟨h1.symm, h2.symm⟩

theorem holdsRule_stepRule (f : faultDetectCache) (r : FaultDetectRule) (loc : BucketLoc)
    (id : String) (h : holdsRule ((stepRule f r).bucketAt loc) id) :
    (id = r.ID ∧ r.Valid = true ∧ covers r.DstNamespace r.DstService loc) ∨
      (holdsRule (f.bucketAt loc) id ∧
        ¬ (id = r.ID ∧ r.Valid = false ∧ covers r.DstNamespace r.DstService loc)) := by
  rcases stepRule_bucketAt f r loc with ⟨hc, he⟩ | ⟨hc, hv, he | he⟩ | ⟨hc, hv, he⟩
  · rw [he] at h
    exact Or.inr ⟨h, fun h3 => hc h3.2.2⟩
  · rw [he] at h
    rcases holdsRule_map_store _ _ _ h with h1 | h1
    · exact Or.inl ⟨h1, hv, hc⟩
    · exact Or.inr ⟨h1, fun h3 => by rw [hv] at h3; exact Bool.noConfusion h3.2.1⟩
  · rw [he] at h
    rcases holdsRule_some_store _ _ _ _ h with h1 | h1
    · exact Or.inl ⟨h1, hv, hc⟩
    · exact Or.inr ⟨h1, fun h3 => by rw [hv] at h3; exact Bool.noConfusion h3.2.1⟩
  · rw [he] at h
    obtain ⟨h1, h2⟩ := holdsRule_map_delete _ _ _ h
    exact Or.inr ⟨h2, fun h3 => h1 h3.1⟩

theorem FannedWithin_stepRule (id ns0 svc0 : String) (f : faultDetectCache)
    (r : FaultDetectRule) (hr : DestinationFixed id ns0 svc0 r)
    (h : FannedWithin id ns0 svc0 f) : FannedWithin id ns0 svc0 (stepRule f r) := by
  intro loc hl
  rcases holdsRule_stepRule f r loc id hl with ⟨h1, _, h3⟩ | ⟨h1, _⟩
  · obtain ⟨e1, e2⟩ := hr h1.symm
    rw [e1, e2] at h3
    exact h3
  · exact h loc h1

theorem FannedWithin_foldl (id ns0 svc0 : String) (l : List FaultDetectRule)
    (f : faultDetectCache) (hl : ∀ r ∈ l, DestinationFixed id ns0 svc0 r)
    (h : FannedWithin id ns0 svc0 f) : FannedWithin id ns0 svc0 (l.foldl stepRule f) := by
  induction l generalizing f with
  | nil => exact h
  | cons a rest ih =>
    exact ih _ (fun r hr => hl r (List.mem_cons_of_mem _ hr))
      (FannedWithin_stepRule id ns0 svc0 f a (hl a (List.mem_cons_self _ _)) h)

theorem newFaultDetectCache_holds_none (loc : BucketLoc) (id : String) :
    ¬ holdsRule (newFaultDetectCache.bucketAt loc) id := by
  rintro ⟨b, hb, hl⟩
  cases loc with
  | all =>
    simp only [faultDetectCache.bucketAt, Option.some.injEq] at hb
    subst hb
    simp [newFaultDetectCache, NewServiceWithFaultDetectRules] at hl
  | ns ns => simp [faultDetectCache.bucketAt, newFaultDetectCache] at hb
  | svc ns svc =>
    simp [faultDetectCache.bucketAt, newFaultDetectCache,
      faultDetectCache.checkServiceSpecificCache] at hb

theorem FannedWithin_of_Reachable (id ns0 svc0 : String) {f : faultDetectCache}
    (h : RulesReachableBy (DestinationFixed id ns0 svc0) f) : FannedWithin id ns0 svc0 f := by
  induction h with
  | init => exact fun loc hl => absurd hl (newFaultDetectCache_holds_none loc id)
  | setFaultDetectRules fdRules _ hall ih =>
    rw [setFaultDetectRules_fst]
    exact FannedWithin_foldl id ns0 svc0 fdRules _ hall ih
  | frame bc _ ih =>
    intro loc hl
    apply ih loc
    cases loc <;> exact hl

theorem RulesReachable_of_By {allowed : FaultDetectRule → Prop} {f : faultDetectCache}
    (h : RulesReachableBy allowed f) : RulesReachable f := by
  induction h with
  | init => exact RulesReachable.init
  | setFaultDetectRules fdRules _ _ ih => exact RulesReachable.setFaultDetectRules fdRules ih
  | frame bc _ ih => exact RulesReachable.frame bc ih

theorem holdsRule_foldl_stepRule (id : String) (l : List FaultDetectRule) (f : faultDetectCache)
    (hl : ∀ r ∈ l, r.ID = id → r.Valid = false) (loc : BucketLoc)
    (h : holdsRule ((l.foldl stepRule f).bucketAt loc) id) : holdsRule (f.bucketAt loc) id := by
  induction l generalizing f with
  | nil => exact h
  | cons a rest ih =>
    have h1 := ih (stepRule f a) (fun r hr => hl r (List.mem_cons_of_mem _ hr)) h
    rcases holdsRule_stepRule f a loc id h1 with ⟨e, hv, _⟩ | ⟨h2, _⟩
    · rw [hl a (List.mem_cons_self _ _) e.symm] at hv
      exact Bool.noConfusion hv
    · exact h2

theorem BucketsLoaded_bucketAt {f : faultDetectCache} (h : BucketsLoaded f) (loc : BucketLoc)
    (b : ServiceWithFaultDetectRules) (hb : f.bucketAt loc = some b) : RevisionLoaded b := by
  obtain ⟨h1, h2, h3⟩ := h
  cases loc with
  | all =>
    simp only [faultDetectCache.bucketAt, Option.some.injEq] at hb
    subst hb
    exact h1
  | ns ns => exact h2 ns b hb
  | svc ns svc =>
    simp only [faultDetectCache.bucketAt, faultDetectCache.checkServiceSpecificCache] at hb
    cases hm : f.svcSpecificRules.Load ns with
    | none => rw [hm] at hb; simp at hb
    | some inner =>
      rw [hm] at hb
      exact h3 ns inner svc b hm hb

/-! ## Global-wildcard rules and tombstones -/

/-- C32: `getServicesInvolveByFaultDetectRule` returns the empty set exactly when the
destination service and the destination namespace are both the wildcard, and the
single key `(DstNamespace, DstService)` otherwise.  Storing a rule with the empty set
neither creates nor removes a bucket: at every location (the global bucket, a
namespace bucket, a service bucket) the bucket afterwards is the bucket before with
the rule stored and the revision reloaded, so every bucket that exists holds the rule
under its id, keeps its service key and its other rules, and no bucket exists that did
not exist before. -/
theorem global_wildcard_store (f : faultDetectCache) (r : FaultDetectRule) :
    (getServicesInvolveByFaultDetectRule r = [] ↔
      (r.DstService = allMatched ∧ r.DstNamespace = allMatched)) ∧
    getServicesInvolveByFaultDetectRule r =
      (if r.DstService = allMatched ∧ r.DstNamespace = allMatched then []
       else [⟨r.DstNamespace, r.DstService⟩]) ∧
    (r.DstService = allMatched → r.DstNamespace = allMatched →
      (f.storeFaultDetectRuleToServiceCache r
          (getServicesInvolveByFaultDetectRule r)).allWildcardRules.faultDetectRules.Load r.ID =
        some r ∧
      ∀ loc : BucketLoc,
        (f.storeFaultDetectRuleToServiceCache r (getServicesInvolveByFaultDetectRule r)).bucketAt
            loc =
          (f.bucketAt loc).map (fun b => storeAndReloadFaultDetectRules b r) ∧
        ((f.storeFaultDetectRuleToServiceCache r
            (getServicesInvolveByFaultDetectRule r)).bucketAt loc).isSome =
          (f.bucketAt loc).isSome ∧
        ∀ b, f.bucketAt loc = some b →
          ∃ b2, (f.storeFaultDetectRuleToServiceCache r
              (getServicesInvolveByFaultDetectRule r)).bucketAt loc = some b2 ∧
            b2.faultDetectRules.Load r.ID = some r ∧ b2.Service = b.Service ∧
            (∀ id, id ≠ r.ID → b2.faultDetectRules.Load id = b.faultDetectRules.Load id) ∧
            RevisionLoaded b2) := by
  have he := getServicesInvolveByFaultDetectRule_eq r
  refine ⟨?_, he, ?_⟩
  · rw [he]
    by_cases hg : r.DstService = allMatched ∧ r.DstNamespace = allMatched
    · simp only [hg, and_self, if_true]
    · simp only [hg, if_false, List.cons_ne_nil]
  · intro hs hn
    have hnil : getServicesInvolveByFaultDetectRule r = [] := by
      rw [he, if_pos ⟨hs, hn⟩]
    rw [hnil]
    have hloc := store_global_bucketAt f r
    refine ⟨?_, ?_⟩
    · have h0 := hloc .all
      simp only [faultDetectCache.bucketAt, Option.map_some', Option.some.injEq] at h0
      rw [h0, (storeAndReload_rules _ r).1, GoMap.Load_Store_self]
    · intro loc
      refine ⟨hloc loc, ?_, ?_⟩
      · rw [hloc loc, Option.isSome_map']
      · intro b hb
        refine ⟨storeAndReloadFaultDetectRules b r, ?_, ?_, (storeAndReload_rules b r).2, ?_,
          storeAndReload_loaded b r⟩
        · rw [hloc loc, hb, Option.map_some']
        · rw [(storeAndReload_rules b r).1, GoMap.Load_Store_self]
        · intro id hid
          rw [(storeAndReload_rules b r).1, GoMap.Load_Store_ne _ _ hid]

/-- A global-wildcard rule `G` is stored in a cache that has the namespace bucket of `N`
and the service bucket of `(N, Svc1)`: both buckets and the global bucket receive it. -/
theorem global_wildcard_store_witness :
    (sampleRule "G" "*" "*").DstService = allMatched ∧
    (sampleRule "G" "*" "*").DstNamespace = allMatched ∧
    ((newFaultDetectCache.setFaultDetectRules
        [sampleRule "R1" "N" "*", sampleRule "R2" "N" "Svc1"]).1.bucketAt
        (.svc "N" "Svc1")).isSome = true ∧
    ∀ loc : BucketLoc,
      (((newFaultDetectCache.setFaultDetectRules
          [sampleRule "R1" "N" "*", sampleRule "R2" "N" "Svc1"]).1.storeFaultDetectRuleToServiceCache
          (sampleRule "G" "*" "*")
          (getServicesInvolveByFaultDetectRule (sampleRule "G" "*" "*"))).bucketAt loc).isSome =
        ((newFaultDetectCache.setFaultDetectRules
          [sampleRule "R1" "N" "*", sampleRule "R2" "N" "Svc1"]).1.bucketAt loc).isSome :=
  ⟨rfl, rfl, by decide,
    fun loc => ((((global_wildcard_store
      (newFaultDetectCache.setFaultDetectRules
        [sampleRule "R1" "N" "*", sampleRule "R2" "N" "Svc1"]).1
      (sampleRule "G" "*" "*")).2.2 rfl rfl).2 loc).2.1)⟩

/-- C31 (amended): a tombstone removes a rule from every bucket when the rule was only
ever stored with the destination of the tombstone.  The state is reachable from the new
cache by batches in which every record for the id carries the destination `(ns0, svc0)`;
the batch holds a record for the id with `Valid = false` and that destination, before
it records that carry the same destination for the id, and after it no valid record
for the id.  Then after `setFaultDetectRules` no bucket, global, of a namespace or of a
service, holds a rule under the id, and the revision of every bucket is the one
computed from the rules it holds. -/
theorem tombstone_removes_rule (id ns0 svc0 : String) (f : faultDetectCache)
    (pre post : List FaultDetectRule) (r : FaultDetectRule)
    (hf : RulesReachableBy (DestinationFixed id ns0 svc0) f)
    (hpre : ∀ x ∈ pre, DestinationFixed id ns0 svc0 x)
    (hpost : ∀ x ∈ post, x.ID = id → x.Valid = false)
    (hid : r.ID = id) (hns : r.DstNamespace = ns0) (hsvc : r.DstService = svc0)
    (hv : r.Valid = false) :
    ∀ loc : BucketLoc,
      ¬ holdsRule ((f.setFaultDetectRules (pre ++ r :: post)).1.bucketAt loc) id ∧
      ∀ b, (f.setFaultDetectRules (pre ++ r :: post)).1.bucketAt loc = some b →
        RevisionLoaded b := by
  intro loc
  refine ⟨?_, fun b hb => BucketsLoaded_bucketAt
    (setFaultDetectRules_loaded f _ (BucketsLoaded_of_Reachable (RulesReachable_of_By hf)))
    loc b hb⟩
  rw [setFaultDetectRules_fst, List.foldl_append, List.foldl_cons]
  intro hl
  have hfan : FannedWithin id ns0 svc0 (pre.foldl stepRule f) :=
    FannedWithin_foldl id ns0 svc0 pre f hpre (FannedWithin_of_Reachable id ns0 svc0 hf)
  have h1 := holdsRule_foldl_stepRule id post _ hpost loc hl
  rcases holdsRule_stepRule _ r loc id h1 with ⟨_, h2, _⟩ | ⟨h2, h3⟩
  · rw [hv] at h2
    exact Bool.noConfusion h2
  · apply h3
    refine ⟨hid.symm, hv, ?_⟩
    rw [hns, hsvc]
    exact hfan loc h2

/-- The rule `X` is stored for `(N, *)` in a cache that has the bucket of `(N, Svc1)`, so
the namespace bucket and the service bucket both hold it; the tombstone for `(N, *)`
removes it from every bucket. -/
theorem tombstone_removes_rule_witness :
    ((newFaultDetectCache.setFaultDetectRules
        [sampleRule "R2" "N" "Svc1", sampleRule "X" "N" "*"]).1.bucketAt
        (.svc "N" "Svc1")).map (fun b => b.faultDetectRules.keys) = some ["R2", "X"] ∧
    ((newFaultDetectCache.setFaultDetectRules
        [sampleRule "R2" "N" "Svc1", sampleRule "X" "N" "*"]).1.bucketAt
        (.ns "N")).map (fun b => b.faultDetectRules.keys) = some ["X"] ∧
    ∀ loc : BucketLoc,
      ¬ holdsRule
        (((newFaultDetectCache.setFaultDetectRules
          [sampleRule "R2" "N" "Svc1", sampleRule "X" "N" "*"]).1.setFaultDetectRules
          ([] ++ sampleTombstone "X" "N" "*" :: [])).1.bucketAt loc) "X" ∧
      ∀ b, ((newFaultDetectCache.setFaultDetectRules
          [sampleRule "R2" "N" "Svc1", sampleRule "X" "N" "*"]).1.setFaultDetectRules
          ([] ++ sampleTombstone "X" "N" "*" :: [])).1.bucketAt loc = some b →
        RevisionLoaded b :=
  ⟨by decide, by decide,
    tombstone_removes_rule "X" "N" "*" _ [] [] (sampleTombstone "X" "N" "*")
      (RulesReachableBy.setFaultDetectRules _ RulesReachableBy.init (by
        intro x hx
        simp only [List.mem_cons, List.mem_singleton, List.not_mem_nil, or_false] at hx
        rcases hx with rfl | rfl
        · exact fun h => absurd h (by decide)
        · exact fun _ => ⟨rfl, rfl⟩))
      (fun _ hx => absurd hx (List.not_mem_nil _))
      (fun _ hx => absurd hx (List.not_mem_nil _)) rfl rfl rfl rfl⟩

/-- C31 (counterexample): the rule `X` is stored with the destination `(N, Svc1)` and
then with the destination `(N, Svc2)`, a reachable state in which the copy of `X` in
the bucket of `(N, Svc2)` carries the destination `(N, Svc2)`.  After the tombstone
for `X` with the destination `(N, Svc2)` the bucket of `(N, Svc2)` is empty, but the
bucket of `(N, Svc1)` still holds `X`. -/
theorem tombstone_after_destination_change_leaves_copy :
    RulesReachable (newFaultDetectCache.setFaultDetectRules
      [sampleRule "X" "N" "Svc1", sampleRule "X" "N" "Svc2"]).1 ∧
    ((newFaultDetectCache.setFaultDetectRules
        [sampleRule "X" "N" "Svc1", sampleRule "X" "N" "Svc2"]).1.bucketAt
        (.svc "N" "Svc2")).map
        (fun b => (b.faultDetectRules.Load "X").map fun x => (x.DstNamespace, x.DstService)) =
      some (some ("N", "Svc2")) ∧
    (sampleTombstone "X" "N" "Svc2").ID = "X" ∧
    (sampleTombstone "X" "N" "Svc2").Valid = false ∧
    (sampleTombstone "X" "N" "Svc2").DstNamespace = "N" ∧
    (sampleTombstone "X" "N" "Svc2").DstService = "Svc2" ∧
    (((newFaultDetectCache.setFaultDetectRules
        [sampleRule "X" "N" "Svc1", sampleRule "X" "N" "Svc2"]).1.setFaultDetectRules
        [sampleTombstone "X" "N" "Svc2"]).1.bucketAt (.svc "N" "Svc2")).map
        (fun b => b.faultDetectRules.keys) = some [] ∧
    (((newFaultDetectCache.setFaultDetectRules
        [sampleRule "X" "N" "Svc1", sampleRule "X" "N" "Svc2"]).1.setFaultDetectRules
        [sampleTombstone "X" "N" "Svc2"]).1.bucketAt (.svc "N" "Svc1")).map
        (fun b => b.faultDetectRules.keys) = some ["X"] :=
  ⟨RulesReachable.setFaultDetectRules _ RulesReachable.init, by decide, rfl, rfl, rfl, rfl,
    by decide, by decide⟩

end Polaris
